import Mathlib

/-!
# Verification of the ai-mindmap-canvas graph/layout/viewport engine

A shallow embedding of the TypeScript core of the repository:

* `src/lib/graph.ts` — the logical graph model (nodes, derived edges, the
  mutations `addNode`, `removeNode`, `updateNode`, the validator
  `isValidTree`, and `serializeGraph` / `deserializeGraph`);
* `src/lib/layout.ts` — `computeLayout` (which delegates to the external
  `dagre` package, modelled here from the spec), `checkOverlaps`,
  `calculateLayoutBounds`;
* the React Flow integration file — `ViewportBounds`, `isNodeVisible`,
  `filterToViewport`;
* `src/store/mindmapStore.ts` — `topologicalSort` and the graph part of
  `hydrate`.

Modelling conventions:

* A JavaScript `Map` is an insertion-ordered association list
  (`JsMap` below); `set` replaces in place when the key exists and appends
  otherwise, exactly as JS `Map.prototype.set` preserves insertion order.
* JS numbers are modelled as rationals (`ℚ`); the `±Infinity` sentinels of
  `calculateLayoutBounds` get the dedicated type `JsNum`.
* JS truthiness of `string | null` matters in graph.ts (`if (node.parentId)`):
  both `null` and the empty string are falsy.  `strTruthy` models this.
* Thrown exceptions become `Except JsError`; `JsError.name` records the
  error constructor used by the source (`Error` vs `ReferenceError`).
* Unbounded `while` loops / recursion (the subtree worklist of `removeNode`,
  the BFS of `topologicalSort`, the DFS of `isValidTree`) are given explicit
  fuel, chosen large enough that exhaustion is provably unreachable on the
  inputs the theorems quantify over.
-/

set_option maxHeartbeats 1600000
set_option maxRecDepth 4096

namespace MindmapCanvas

/- ============================================================
   JavaScript `Map` model
============================================================ -/

/-- A JavaScript `Map<string, α>`: an insertion-ordered association list. -/
abbrev JsMap (α : Type) : Type := List (String × α)

namespace JsMap

/-- `map.get(k)` (returning `undefined` as `none`). -/
def get? {α : Type} (m : JsMap α) (k : String) : Option α :=
  (m.find? (fun p => p.1 == k)).map Prod.snd

/-- `map.has(k)`. -/
def hasKey {α : Type} (m : JsMap α) (k : String) : Bool :=
  m.any (fun p => p.1 == k)

/-- `map.set(k, v)`: replaces in place if the key exists (JS maps keep the
original insertion position), appends otherwise. -/
def set {α : Type} (m : JsMap α) (k : String) (v : α) : JsMap α :=
  if m.any (fun p => p.1 == k) then
    m.map (fun p => if p.1 == k then (k, v) else p)
  else
    m ++ [(k, v)]

/-- `map.delete(k)` (the resulting map; JS returns a boolean we never use). -/
def delete {α : Type} (m : JsMap α) (k : String) : JsMap α :=
  m.filter (fun p => p.1 != k)

/-- `Array.from(map.values())`. -/
def values {α : Type} (m : JsMap α) : List α :=
  m.map Prod.snd

/-- `Array.from(map.keys())`. -/
def keys {α : Type} (m : JsMap α) : List String :=
  m.map Prod.fst

end JsMap

/-- One JS-`Set<string>`-style insertion: append the element if absent.
JS sets preserve insertion order; we only need membership and order. -/
def addToSet (s : List String) (x : String) : List String :=
  if s.contains x then s else s ++ [x]

/-- JS truthiness of a `string | null` value: `null` and `""` are falsy. -/
def strTruthy : Option String → Bool
  | none => false
  | some s => s != ""

/- ============================================================
   graph.ts — data model
============================================================ -/

/-- `GraphNode` from graph.ts.  `metadata` is `Record<string, unknown>`;
its values are opaque to every function modelled here, so they are
represented as strings. -/
structure GraphNode where
  id : String
  parentId : Option String
  content : String
  response : String
  createdAt : String
  metadata : Option (List (String × String))
deriving DecidableEq

/-- `GraphEdge` from graph.ts. -/
structure GraphEdge where
  id : String
  source : String
  target : String
deriving DecidableEq

/-- `Graph` from graph.ts: two JS maps. -/
structure Graph where
  nodes : JsMap GraphNode
  edges : JsMap GraphEdge
deriving DecidableEq

/-- The JS error constructor used when throwing (`new Error(...)` vs
`new ReferenceError(...)`). -/
inductive JsErrorName where
  | error
  | referenceError
deriving DecidableEq

/-- A thrown JS error value. -/
structure JsError where
  name : JsErrorName
  message : String
deriving DecidableEq

/-- The deterministic edge id `` `${source}->${target}` ``. -/
def edgeIdFor (source target : String) : String :=
  source ++ "->" ++ target

/-- The edge object `addNode`/`updateNode`/`deserializeGraph` construct. -/
def mkEdge (source target : String) : GraphEdge :=
  { id := edgeIdFor source target, source := source, target := target }

/-- `createGraph()` from graph.ts. -/
def createGraph : Graph :=
  { nodes := [], edges := [] }

/-- `addNode(graph, node)` from graph.ts.  Throws (`new Error`) when the
parentId is truthy and absent; auto-creates the parent edge when the
parentId is truthy. -/
def addNode (graph : Graph) (node : GraphNode) : Except JsError Graph :=
  if strTruthy node.parentId && !(JsMap.hasKey graph.nodes (node.parentId.getD "")) then
    .error { name := .error
             message := "addNode: parentId \"" ++ node.parentId.getD ""
               ++ "\" does not exist in graph" }
  else
    let nodes := JsMap.set graph.nodes node.id node
    let edges :=
      match node.parentId with
      | some p =>
          if p != "" then
            JsMap.set graph.edges (edgeIdFor p node.id) (mkEdge p node.id)
          else graph.edges
      | none => graph.edges
    .ok { nodes := nodes, edges := edges }

/-- The `while (queue.length > 0)` worklist of `removeNode`: collect the
subtree rooted at the start id by following edges source→target.  The JS
queue is an array popped from the end (a stack); the head of our list is
the top of that stack, so new pushes (made in edge order) are reversed onto
the front.  `toDelete.add(current)` happens before the edge scan, exactly
as in the source.  Fuel replaces the unbounded loop; `removeNode` passes
`(|edges| + 2)²`, which is proved sufficient below. -/
def collectSubtree (edges : JsMap GraphEdge) :
    Nat → List String → List String → List String
  | 0, _, toDelete => toDelete
  | _ + 1, [], toDelete => toDelete
  | fuel + 1, current :: rest, toDelete =>
      let toDelete' := addToSet toDelete current
      let pushes :=
        ((JsMap.values edges).filter
          (fun e => e.source == current && !(toDelete'.contains e.target))).map
          (fun e => e.target)
      collectSubtree edges fuel (pushes.reverse ++ rest) toDelete'

/-- `removeNode(graph, nodeId)` from graph.ts: cascade-delete the subtree
and every edge touching a deleted id.  The source copies the maps and
deletes entries in place; the net effect on an association list is a
filter. -/
def removeNode (graph : Graph) (nodeId : String) : Graph :=
  let fuel := (graph.edges.length + 2) * (graph.edges.length + 2)
  let toDelete := collectSubtree graph.edges fuel [nodeId] []
  { nodes := graph.nodes.filter (fun p => !(toDelete.contains p.1))
    edges := graph.edges.filter
      (fun p => !(toDelete.contains p.2.source) && !(toDelete.contains p.2.target)) }

/-- `Partial<GraphNode>` for `updateNode`: `none` = field absent
(`undefined`).  The source forces `id: nodeId`, so an `id` field in the
update object is ignored and not modelled. -/
structure NodeUpdates where
  parentId : Option (Option String)
  content : Option String
  response : Option String
  createdAt : Option String
  metadata : Option (Option (List (String × String)))
deriving DecidableEq

/-- An update object with every field absent. -/
def noUpdates : NodeUpdates :=
  { parentId := none, content := none, response := none,
    createdAt := none, metadata := none }

/-- `{ ...existing, ...updates, id: nodeId }`. -/
def applyUpdates (existing : GraphNode) (updates : NodeUpdates)
    (nodeId : String) : GraphNode :=
  { id := nodeId
    parentId := updates.parentId.getD existing.parentId
    content := updates.content.getD existing.content
    response := updates.response.getD existing.response
    createdAt := updates.createdAt.getD existing.createdAt
    metadata := updates.metadata.getD existing.metadata }

/-- `updateNode(graph, nodeId, updates)` from graph.ts.  Merges fields; if
`parentId` is present and different, rewires the incoming edge (removing
the old edge only when the old parentId is truthy, adding the new edge
only when the new parentId is truthy, and throwing `new Error` when the
new truthy parentId is absent from the updated node map). -/
def updateNode (graph : Graph) (nodeId : String) (updates : NodeUpdates) :
    Except JsError Graph :=
  match JsMap.get? graph.nodes nodeId with
  | none =>
      .error { name := .error
               message := "updateNode: node \"" ++ nodeId ++ "\" does not exist" }
  | some existing =>
      let updated := applyUpdates existing updates nodeId
      let nodes := JsMap.set graph.nodes nodeId updated
      match updates.parentId with
      | none => .ok { nodes := nodes, edges := graph.edges }
      | some newPid =>
          if newPid = existing.parentId then
            .ok { nodes := nodes, edges := graph.edges }
          else
            let edges1 :=
              match existing.parentId with
              | some oldP =>
                  if oldP != "" then JsMap.delete graph.edges (edgeIdFor oldP nodeId)
                  else graph.edges
              | none => graph.edges
            match newPid with
            | some p =>
                if p != "" then
                  if !(JsMap.hasKey nodes p) then
                    .error { name := .error
                             message := "updateNode: new parentId \"" ++ p
                               ++ "\" does not exist" }
                  else
                    .ok { nodes := nodes
                          edges := JsMap.set edges1 (edgeIdFor p nodeId) (mkEdge p nodeId) }
                else .ok { nodes := nodes, edges := edges1 }
            | none => .ok { nodes := nodes, edges := edges1 }

/- ============================================================
   graph.ts — isValidTree
============================================================ -/

mutual

/-- The recursive `hasCycle` closure of `isValidTree`.  `visited` and
`inStack` are the two JS sets, threaded explicitly; on a `true` result the
source returns immediately all the way up, so the returned sets are then
irrelevant.  Fuel bounds the recursion depth; `isValidTree` passes
`|nodes| + |edges| + 1`, proved sufficient below (each nested call visits
a previously unvisited id). -/
def hasCycleAux (edges : List GraphEdge) :
    Nat → String → List String → List String → Bool × List String × List String
  | 0, _, visited, inStack => (true, visited, inStack)
  | fuel + 1, nodeId, visited, inStack =>
      let visited1 := addToSet visited nodeId
      let inStack1 := addToSet inStack nodeId
      match cycleScan edges fuel nodeId edges visited1 inStack1 with
      | (true, v2, s2) => (true, v2, s2)
      | (false, v2, s2) => (false, v2, s2.filter (fun x => x != nodeId))

/-- The `for (const edge of graph.edges.values())` scan inside
`hasCycle`: skip edges with a different source, report a cycle when the
target is on the stack, recurse into unvisited targets. -/
def cycleScan (edges : List GraphEdge) (fuel : Nat) (nodeId : String) :
    List GraphEdge → List String → List String → Bool × List String × List String
  | [], visited, inStack => (false, visited, inStack)
  | e :: rest, visited, inStack =>
      if e.source != nodeId then cycleScan edges fuel nodeId rest visited inStack
      else if inStack.contains e.target then (true, visited, inStack)
      else if !(visited.contains e.target) then
        match hasCycleAux edges fuel e.target visited inStack with
        | (true, v2, s2) => (true, v2, s2)
        | (false, v2, s2) => cycleScan edges fuel nodeId rest v2 s2
      else cycleScan edges fuel nodeId rest visited inStack

end

/-- The `for (const node of graph.nodes.values())` loop at the end of
`isValidTree`: run `hasCycle` from every not-yet-visited node, threading
the shared `visited`/`inStack` sets. -/
def dfsForest (edges : List GraphEdge) (fuel : Nat) :
    List GraphNode → List String → List String → Bool
  | [], _, _ => true
  | node :: rest, visited, inStack =>
      if !(visited.contains node.id) then
        match hasCycleAux edges fuel node.id visited inStack with
        | (true, _, _) => false
        | (false, v2, s2) => dfsForest edges fuel rest v2 s2
      else dfsForest edges fuel rest visited inStack

/-- `isValidTree(graph)` from graph.ts: every edge endpoint exists, every
node with non-`null` parentId has exactly one incoming edge, and the DFS
finds no cycle. -/
def isValidTree (graph : Graph) : Bool :=
  ((JsMap.values graph.edges).all
      (fun e => JsMap.hasKey graph.nodes e.source && JsMap.hasKey graph.nodes e.target))
    && ((JsMap.values graph.nodes).all (fun node =>
          match node.parentId with
          | none => true
          | some _ =>
              ((JsMap.values graph.edges).filter
                  (fun e => e.target == node.id)).length == 1))
    && dfsForest (JsMap.values graph.edges)
        (graph.nodes.length + graph.edges.length + 1)
        (JsMap.values graph.nodes) [] []

/- ============================================================
   graph.ts — serialization
============================================================ -/

/-- `SerializedGraph` from graph.ts. -/
structure SerializedGraph where
  nodes : List GraphNode
  edges : List GraphEdge
deriving DecidableEq

/-- `serializeGraph(graph)`: flatten both maps to their value lists. -/
def serializeGraph (graph : Graph) : SerializedGraph :=
  { nodes := JsMap.values graph.nodes, edges := JsMap.values graph.edges }

/-- `deserializeGraph(data)`: rebuild the maps; when the edge list is
empty, reconstruct edges from each node's truthy parentId (the
backward-compatibility fallback). -/
def deserializeGraph (data : SerializedGraph) : Graph :=
  let nodes : JsMap GraphNode :=
    data.nodes.foldl (fun m node => JsMap.set m node.id node) []
  let edges : JsMap GraphEdge :=
    if data.edges.length > 0 then
      data.edges.foldl (fun m e => JsMap.set m e.id e) []
    else
      data.nodes.foldl (fun m node =>
        match node.parentId with
        | some p =>
            if p != "" then JsMap.set m (edgeIdFor p node.id) (mkEdge p node.id)
            else m
        | none => m) []
  { nodes := nodes, edges := edges }

/- ============================================================
   layout.ts — data model and the spec-modelled dagre layout
============================================================ -/

/-- `NodeLayout` from layout.ts (top-left origin). -/
structure NodeLayout where
  x : ℚ
  y : ℚ
  width : ℚ
  height : ℚ
deriving DecidableEq

/-- `Layout` from layout.ts. -/
structure Layout where
  nodes : JsMap NodeLayout
  algorithm : String
  computedAt : String
  isStale : Bool
deriving DecidableEq

/-- The `direction` field of `LayoutConfig`. -/
inductive Direction where
  | TB
  | BT
  | LR
  | RL
deriving DecidableEq

/-- `LayoutConfig` from layout.ts. -/
structure LayoutConfig where
  nodeWidth : ℚ
  nodeHeight : ℚ
  rankSeparation : ℚ
  nodeSeparation : ℚ
  direction : Direction
deriving DecidableEq

/-- `DEFAULT_LAYOUT_CONFIG` from layout.ts. -/
def DEFAULT_LAYOUT_CONFIG : LayoutConfig :=
  { nodeWidth := 380, nodeHeight := 220, rankSeparation := 480,
    nodeSeparation := 60, direction := .LR }

/-- First-occurrence deduplication of a key list: the key sequence of the
dagre graph after `setNode` has been called for each node key (graphlib
keeps the first insertion position of a repeated key). -/
def firstDedup (l : List String) : List String :=
  l.foldl addToSet []

/-- Modelled from the spec: dagre's ranking phase.  The spec (layout.ts
header and §4.2) says dagre "assigns each node to a horizontal rank (depth
level)"; the glossary defines rank as "a layer/depth level ... roughly
corresponding to tree depth".  We model the rank of a node as the longest
incoming-edge chain, computed with fuel (`|edges| + 1` suffices for any
acyclic edge list; on cyclic inputs, dagre's cycle-breaking phase — which
the spec does not describe — is approximated by the fuel cutoff, giving
some deterministic rank). -/
def dagreRank (edges : List (String × String)) : Nat → String → Nat
  | 0, _ => 0
  | fuel + 1, v =>
      let preds := (edges.filter (fun e => e.2 == v)).map Prod.fst
      match preds with
      | [] => 0
      | p :: ps => ((p :: ps).map (dagreRank edges fuel)).foldl max 0 + 1

/-- Modelled from the spec: dagre's ordering phase ("orders nodes within
each rank").  The crossing-minimisation heuristic is unspecified; any
deterministic order satisfies the spec, and we use insertion order: the
position of the node among the nodes of its rank. -/
def dagreOrder (ids : List String) (rank : String → Nat) (v : String) : Nat :=
  (ids.filter (fun w => rank w == rank v)).indexOf v

/-- The rank of a node in the spec-modelled dagre run (fuel `|edges| + 1`
suffices for any acyclic edge list). -/
def dagreRankOf (edges : List (String × String)) (v : String) : Nat :=
  dagreRank edges (edges.length + 1) v

/-- The largest rank among the laid-out nodes. -/
def dagreMaxRank (ids : List String) (edges : List (String × String)) : Nat :=
  (ids.map (dagreRankOf edges)).foldl max 0

/-- The position of a node along the rank axis, mirrored for the
`RL`/`BT` directions (mirroring within the drawing is how dagre realises
the reversed directions; it is an isometry, so the separation guarantee is
unaffected). -/
def rankIdxQ (ids : List String) (edges : List (String × String))
    (config : LayoutConfig) (v : String) : ℚ :=
  match config.direction with
  | .LR | .TB => (dagreRankOf edges v : ℚ)
  | .RL | .BT => ((dagreMaxRank ids edges - dagreRankOf edges v : ℕ) : ℚ)

/-- The position of a node along the order axis (within its rank). -/
def orderIdxQ (ids : List String) (edges : List (String × String))
    (v : String) : ℚ :=
  (dagreOrder ids (dagreRankOf edges) v : ℚ)

/-- Modelled from the spec: dagre's positioning phase, producing
center-based coordinates.  §4.2: nodes in the same rank are separated by
at least `nodeSeparation` and adjacent ranks by at least `rankSeparation`,
"both measured against the configured fixed node width/height"; the layout
direction decides which axis is the rank axis, and `marginx`/`marginy`
(both 40 in computeLayout) shift everything. -/
def dagreCenter (ids : List String) (edges : List (String × String))
    (config : LayoutConfig) (v : String) : ℚ × ℚ :=
  match config.direction with
  | .LR | .RL =>
      (40 + rankIdxQ ids edges config v * (config.nodeWidth + config.rankSeparation)
         + config.nodeWidth / 2,
       40 + orderIdxQ ids edges v * (config.nodeHeight + config.nodeSeparation)
         + config.nodeHeight / 2)
  | .TB | .BT =>
      (40 + orderIdxQ ids edges v * (config.nodeWidth + config.nodeSeparation)
         + config.nodeWidth / 2,
       40 + rankIdxQ ids edges config v * (config.nodeHeight + config.rankSeparation)
         + config.nodeHeight / 2)

/-- The top-left rectangle `computeLayout` stores for one node: the
center-based dagre output converted by `x = centerX - width/2`,
`y = centerY - height/2`. -/
def rectOf (ids : List String) (edges : List (String × String))
    (config : LayoutConfig) (v : String) : NodeLayout :=
  { x := (dagreCenter ids edges config v).1 - config.nodeWidth / 2
    y := (dagreCenter ids edges config v).2 - config.nodeHeight / 2
    width := config.nodeWidth
    height := config.nodeHeight }

/-- `computeLayout(graph, config)` from layout.ts.  Builds the dagre graph
from the node keys and the edge (source, target) pairs, runs the
spec-modelled dagre layout, and converts the center-based output to
top-left coordinates.  `now` is the value of `new Date().toISOString()`,
passed explicitly (it flows only into `computedAt`).  graphlib's implicit
creation of nodes for edge endpoints never added via `setNode` is not
modelled; the layout covers exactly the node keys. -/
def computeLayout (graph : Graph) (config : LayoutConfig) (now : String) : Layout :=
  let ids := firstDedup (graph.nodes.map Prod.fst)
  let edges := (JsMap.values graph.edges).map (fun e => (e.source, e.target))
  { nodes := ids.map (fun v => (v, rectOf ids edges config v))
    algorithm := "dagre"
    computedAt := now
    isStale := false }

/-- The x-axis half of the AABB overlap test of `checkOverlaps`
(strict inequalities: touching rectangles do not overlap). -/
def overlapX (a b : NodeLayout) : Bool :=
  a.x < b.x + b.width && a.x + a.width > b.x

/-- The y-axis half of the AABB overlap test of `checkOverlaps`. -/
def overlapY (a b : NodeLayout) : Bool :=
  a.y < b.y + b.height && a.y + a.height > b.y

/-- The double loop of `checkOverlaps`: for every `i < j`, report the pair
when both axes overlap. -/
def overlapsAux : List (String × NodeLayout) → List (String × String)
  | [] => []
  | (id1, a) :: rest =>
      (rest.filterMap (fun p =>
        if overlapX a p.2 && overlapY a p.2 then some (id1, p.1) else none))
        ++ overlapsAux rest

/-- `checkOverlaps(layout)` from layout.ts. -/
def checkOverlaps (layout : Layout) : List (String × String) :=
  overlapsAux layout.nodes

/-- A JS number as it appears in `calculateLayoutBounds`: finite, one of
the two infinities, or NaN. -/
inductive JsNum where
  | num (q : ℚ)
  | posInf
  | negInf
  | nan
deriving DecidableEq

namespace JsNum

/-- `Math.min` on two JS numbers. -/
def minJ : JsNum → JsNum → JsNum
  | nan, _ => nan
  | _, nan => nan
  | negInf, _ => negInf
  | _, negInf => negInf
  | posInf, b => b
  | a, posInf => a
  | num a, num b => num (min a b)

/-- `Math.max` on two JS numbers. -/
def maxJ : JsNum → JsNum → JsNum
  | nan, _ => nan
  | _, nan => nan
  | posInf, _ => posInf
  | _, posInf => posInf
  | negInf, b => b
  | a, negInf => a
  | num a, num b => num (max a b)

/-- IEEE subtraction on two JS numbers. -/
def sub : JsNum → JsNum → JsNum
  | nan, _ => nan
  | _, nan => nan
  | posInf, posInf => nan
  | posInf, _ => posInf
  | negInf, negInf => nan
  | negInf, _ => negInf
  | num _, posInf => negInf
  | num _, negInf => posInf
  | num a, num b => num (a - b)

/-- `isFinite`. -/
def isFiniteJ : JsNum → Bool
  | num _ => true
  | _ => false

end JsNum

/-- The record returned by `calculateLayoutBounds`. -/
structure LayoutBounds where
  minX : JsNum
  minY : JsNum
  maxX : JsNum
  maxY : JsNum
  width : JsNum
  height : JsNum
deriving DecidableEq

/-- `calculateLayoutBounds(layout)` from layout.ts.  Note that the
returned `width`/`height` are computed from the raw fold results (the
`±Infinity` sentinels for an empty layout), while the four corner fields
are clamped to 0 via `isFinite`. -/
def calculateLayoutBounds (layout : Layout) : LayoutBounds :=
  let r := (JsMap.values layout.nodes).foldl
    (fun (acc : JsNum × JsNum × JsNum × JsNum) nl =>
      (JsNum.minJ acc.1 (.num nl.x),
       JsNum.minJ acc.2.1 (.num nl.y),
       JsNum.maxJ acc.2.2.1 (.num (nl.x + nl.width)),
       JsNum.maxJ acc.2.2.2 (.num (nl.y + nl.height))))
    (.posInf, .posInf, .negInf, .negInf)
  { minX := if r.1.isFiniteJ then r.1 else .num 0
    minY := if r.2.1.isFiniteJ then r.2.1 else .num 0
    maxX := if r.2.2.1.isFiniteJ then r.2.2.1 else .num 0
    maxY := if r.2.2.2.isFiniteJ then r.2.2.2 else .num 0
    width := r.2.2.1.sub r.1
    height := r.2.2.2.sub r.2.1 }

/- ============================================================
   React Flow integration — viewport culling
============================================================ -/

/-- The fields of a React Flow `Node` that the filtering code reads or
that the converter computes from the graph; styling constants and the
`onExpand` callback are irrelevant to `filterToViewport` and omitted. -/
structure RFNode where
  id : String
  posX : ℚ
  posY : ℚ
deriving DecidableEq

/-- The fields of a React Flow `Edge` that the filtering code reads. -/
structure RFEdge where
  id : String
  source : String
  target : String
deriving DecidableEq

/-- `ViewportBounds` from the React Flow integration file. -/
structure ViewportBounds where
  minX : ℚ
  maxX : ℚ
  minY : ℚ
  maxY : ℚ
deriving DecidableEq

/-- `isNodeVisible(nodeLayout, bounds)`: closed AABB intersection between
the node rectangle and the bounds rectangle. -/
def isNodeVisible (nodeLayout : NodeLayout) (bounds : ViewportBounds) : Bool :=
  nodeLayout.x + nodeLayout.width ≥ bounds.minX
    && nodeLayout.x ≤ bounds.maxX
    && nodeLayout.y + nodeLayout.height ≥ bounds.minY
    && nodeLayout.y ≤ bounds.maxY

/-- The `visibleNodeIds` set built by the first loop of
`filterToViewport`: ids of input nodes whose layout entry passes
`isNodeVisible` (nodes without a layout entry are skipped). -/
def visibleIdsOf (allNodes : List RFNode) (layout : Layout)
    (bounds : ViewportBounds) : List String :=
  allNodes.foldl (fun s n =>
    match JsMap.get? layout.nodes n.id with
    | none => s
    | some nl => if isNodeVisible nl bounds then addToSet s n.id else s) []

/-- `filterToViewport(allNodes, allEdges, layout, bounds)`: collect the
visible node-id set, then keep the nodes whose id is in it and the edges
both of whose endpoints are in it. -/
def filterToViewport (allNodes : List RFNode) (allEdges : List RFEdge)
    (layout : Layout) (bounds : ViewportBounds) : List RFNode × List RFEdge :=
  let visibleNodeIds : List String := visibleIdsOf allNodes layout bounds
  (allNodes.filter (fun n => visibleNodeIds.contains n.id),
   allEdges.filter (fun e =>
     visibleNodeIds.contains e.source && visibleNodeIds.contains e.target))

/- ============================================================
   mindmapStore.ts — topologicalSort and hydrate
============================================================ -/

/-- The BFS (Kahn-style) loop of `topologicalSort`: FIFO queue
(`queue.shift()`), children looked up through `childrenOf` and resolved
through `nodeMap`.  Fuel replaces the unbounded loop; `topologicalSort`
passes `|nodes| + 1`, proved sufficient below for inputs with pairwise
distinct ids (on inputs with duplicated ids the JS loop can revisit nodes
and may even diverge; the model then truncates). -/
def bfsSort (nodeMap : JsMap GraphNode) (childrenOf : JsMap (List String)) :
    Nat → List GraphNode → List GraphNode → List GraphNode
  | 0, _, sorted => sorted
  | _ + 1, [], sorted => sorted
  | fuel + 1, current :: queueRest, sorted =>
      let pushes :=
        ((JsMap.get? childrenOf current.id).getD []).filterMap
          (fun cid => JsMap.get? nodeMap cid)
      bfsSort nodeMap childrenOf fuel (queueRest ++ pushes) (sorted ++ [current])

/-- `topologicalSort(nodes)` from mindmapStore.ts: parents before
children; unreached nodes (orphans, cycles) are appended with their
`parentId` nulled. -/
def topologicalSort (nodes : List GraphNode) : List GraphNode :=
  let nodeMap : JsMap GraphNode :=
    nodes.foldl (fun m n => JsMap.set m n.id n) []
  let childrenOf : JsMap (List String) :=
    nodes.foldl (fun m n =>
      match n.parentId with
      | some p =>
          if p != "" then JsMap.set m p ((JsMap.get? m p).getD [] ++ [n.id])
          else m
      | none => m) []
  let roots := nodes.filter (fun n => !(strTruthy n.parentId))
  let sorted := bfsSort nodeMap childrenOf (nodes.length + 1) roots []
  if sorted.length < nodes.length then
    let sortedIds := sorted.map (fun n => n.id)
    sorted ++ (nodes.filter (fun n => !(sortedIds.contains n.id))).map
      (fun n => { n with parentId := none })
  else sorted

/-- The nodes whose truthy `parentId` equals `p`, in list order — the
children one BFS pop of `topologicalSort` resolves and pushes. -/
def childNodes (nodes : List GraphNode) (p : String) : List GraphNode :=
  nodes.filter (fun n =>
    match n.parentId with
    | some q => q != "" && q == p
    | none => false)

/-- The ids of `childNodes` — the spec of the `childrenOf` fold. -/
def childList (nodes : List GraphNode) (p : String) : List String :=
  (childNodes nodes p).map GraphNode.id

/-- The graph part of the store's `hydrate` action: rebuild the graph from
scratch by folding `graphAddNode` over the topologically sorted node list.
A thrown `addNode` error aborts the whole hydration (the `Except` monad),
exactly as an exception would propagate out of the JS loop.  The layout
recomputation that follows in the source does not affect the graph. -/
def hydrateGraph (nodes : List GraphNode) : Except JsError Graph :=
  (topologicalSort nodes).foldlM (fun g n => addNode g n) createGraph

/- ============================================================
   Derived predicates, operation sequences, and example inputs
============================================================ -/

/-- A sample node value; the graph functions only inspect `id` and
`parentId`, the remaining fields are arbitrary fixed strings. -/
def exNode (id : String) (p : Option String) : GraphNode :=
  { id := id, parentId := p, content := "q", response := "r",
    createdAt := "2026-01-01T00:00:00.000Z", metadata := none }

/-- Representation invariant of a JS map whose values carry their own key
(as both `Graph.nodes` and `Graph.edges` do): keys are pairwise distinct
and each entry's key is its value's key field. -/
def KeyedBy {α : Type} (f : α → String) (m : JsMap α) : Prop :=
  (m.map Prod.fst).Nodup ∧ ∀ p ∈ m, p.1 = f p.2

/-- `e` is the parent edge implied by some node of the list with a truthy
`parentId` (the edge set `deserializeGraph`'s fallback reconstructs). -/
def impliedEdgeB (nodes : List GraphNode) (e : GraphEdge) : Bool :=
  nodes.any (fun n =>
    match n.parentId with
    | some p => p != "" && e == mkEdge p n.id
    | none => false)

/-- The parent edges implied by the truthy `parentId` fields of a node
list, in node order — the edges `deserializeGraph`'s fallback builds. -/
def impliedList (nodes : List GraphNode) : List GraphEdge :=
  nodes.filterMap (fun n =>
    match n.parentId with
    | some p => if p != "" then some (mkEdge p n.id) else none
    | none => none)

/-- The edge implied by `n`'s truthy `parentId`, if any, is present in
`g.edges` under its deterministic id. -/
def nodeEdgeOk (g : Graph) (n : GraphNode) : Bool :=
  match n.parentId with
  | some p =>
      if p != "" then decide ((edgeIdFor p n.id, mkEdge p n.id) ∈ g.edges) else true
  | none => true

/-- Visibility of an id against a layout and bounds: what the
per-node test inside `filterToViewport` computes (missing layout entry =
not visible). -/
def idVisible (layout : Layout) (bounds : ViewportBounds) (x : String) : Bool :=
  match JsMap.get? layout.nodes x with
  | none => false
  | some nl => isNodeVisible nl bounds

/-- An update object that only changes `parentId`. -/
def parentUpdate (p : Option String) : NodeUpdates :=
  { parentId := some p, content := none, response := none,
    createdAt := none, metadata := none }

/-- One mutation call of the graph API. -/
inductive GraphOp where
  | add (n : GraphNode)
  | remove (nodeId : String)
  | update (nodeId : String) (u : NodeUpdates)

/-- Apply one mutation; `removeNode` never throws, the other two may. -/
def applyOp (g : Graph) : GraphOp → Except JsError Graph
  | .add n => addNode g n
  | .remove nodeId => .ok (removeNode g nodeId)
  | .update nodeId u => updateNode g nodeId u

/-- Run a sequence of mutations from the empty graph; a thrown error
aborts the sequence, so a graph of the form `runOps ops = .ok g` is one
reached by successful calls only. -/
def runOps (ops : List GraphOp) : Except JsError Graph :=
  ops.foldlM applyOp createGraph

/-- The invariant exactly as C4 words it — the edge map is the set of
edges implied by the nodes' non-`null` (rather than truthy) `parentId`
fields — as a decidable check. -/
def edgeInvNonNullB (g : Graph) : Bool :=
  ((JsMap.values g.nodes).all (fun n =>
      match n.parentId with
      | some p => decide ((edgeIdFor p n.id, mkEdge p n.id) ∈ g.edges)
      | none => true))
    && g.edges.all (fun q =>
        (JsMap.values g.nodes).any (fun n =>
          match n.parentId with
          | some p => q.1 == edgeIdFor p n.id && q.2 == mkEdge p n.id
          | none => false))

/-- Strings free of the `'-'` character, so that the deterministic edge id
`source ++ "->" ++ target` decomposes uniquely. -/
def noDash (s : String) : Prop := '-' ∉ s.data

/-- Graphs reachable from `createGraph()` by successful `addNode`,
`removeNode` and `updateNode` calls in which every added node has a fresh,
dash-free id. -/
inductive ReachableFresh : Graph → Prop
  | init : ReachableFresh createGraph
  | add {g g' : Graph} {n : GraphNode} : ReachableFresh g →
      JsMap.hasKey g.nodes n.id = false → noDash n.id →
      addNode g n = .ok g' → ReachableFresh g'
  | remove {g : Graph} (nodeId : String) : ReachableFresh g →
      ReachableFresh (removeNode g nodeId)
  | update {g g' : Graph} {nodeId : String} {u : NodeUpdates} : ReachableFresh g →
      updateNode g nodeId u = .ok g' → ReachableFresh g'

/-- `(ke, e)` is the parent-edge entry implied by some node of the map
with a truthy `parentId`. -/
def impliedPair (nodes : JsMap GraphNode) (ke : String) (e : GraphEdge) : Prop :=
  ∃ p ∈ nodes, ∃ q, p.2.parentId = some q ∧ q ≠ ""
    ∧ ke = edgeIdFor q p.2.id ∧ e = mkEdge q p.2.id

/-- `(ke, e)` is implied by some node of the map other than the entry
keyed `k`. -/
def otherImplied (nodes : JsMap GraphNode) (k : String) (ke : String)
    (e : GraphEdge) : Prop :=
  ∃ p ∈ nodes, p.1 ≠ k ∧ ∃ q, p.2.parentId = some q ∧ q ≠ ""
    ∧ ke = edgeIdFor q p.2.id ∧ e = mkEdge q p.2.id

/-- The strengthened structural invariant carried through the
`ReachableFresh` induction: well-keyed maps, dash-free ids, and the edge
map being exactly the set implied by the truthy `parentId` fields. -/
def GraphInv (g : Graph) : Prop :=
  KeyedBy GraphNode.id g.nodes
  ∧ KeyedBy GraphEdge.id g.edges
  ∧ (∀ p ∈ g.nodes, noDash p.1)
  ∧ (∀ p ∈ g.nodes, ∀ q, p.2.parentId = some q → q ≠ "" → noDash q)
  ∧ (∀ ke e, (ke, e) ∈ g.edges ↔ impliedPair g.nodes ke e)

/-- The batch of child pushes one pop of the `removeNode` worklist makes:
the targets of the edges out of `current` that are not yet collected. -/
def subtreePushes (edges : JsMap GraphEdge) (td' : List String)
    (current : String) : List String :=
  ((JsMap.values edges).filter
    (fun e => e.source == current && !(td'.contains e.target))).map
    (fun e => e.target)

/-- Closure invariant of the worklist: every successor of a collected id
is collected or still queued. -/
def ClosureInv (E : List GraphEdge) (q td : List String) : Prop :=
  ∀ v ∈ td, ∀ e ∈ E, e.source = v → e.target ∈ td ∨ e.target ∈ q

/-- DFS-stack discipline of the worklist (the queue is popped from the
top, which is the head here): a queue entry that is already collected has
every successor collected or sitting strictly above it in the stack. -/
def StackInv (E : List GraphEdge) (q td : List String) : Prop :=
  ∀ (i : Nat) (v : String), q[i]? = some v → v ∈ td →
    ∀ e ∈ E, e.source = v →
      e.target ∈ td ∨ ∃ j, j < i ∧ q[j]? = some e.target

/-- Reachability from `root` along edges source→target (reflexive and
transitive) — the "transitive descendants" of C5. -/
inductive ReachesEdge (edges : List GraphEdge) (root : String) : String → Prop
  | refl : ReachesEdge edges root root
  | step {v t : String} : ReachesEdge edges root v →
      (∃ e ∈ edges, e.source = v ∧ e.target = t) → ReachesEdge edges root t

/-- A three-node chain r → c1 → c2 (the spec's concrete scenario) as a
graph literal. -/
def chainGraph : Graph :=
  { nodes := [("r", exNode "r" none), ("c1", exNode "c1" (some "r")),
              ("c2", exNode "c2" (some "c1"))]
    edges := [("r->c1", mkEdge "r" "c1"), ("c1->c2", mkEdge "c1" "c2")] }

/-- The chain graph after its first `addNode` call. -/
def gFr1 : Graph :=
  { nodes := [("r", exNode "r" none)], edges := [] }

/-- The chain graph after its second `addNode` call. -/
def gFr2 : Graph :=
  { nodes := [("r", exNode "r" none), ("c1", exNode "c1" (some "r"))],
    edges := [("r->c1", mkEdge "r" "c1")] }

/-- A graph with one node and one dangling edge targeting the absent id
`"x"`. -/
def danglingGraph : Graph :=
  { nodes := [("s", exNode "s" none)], edges := [("s->x", mkEdge "s" "x")] }

/-- Two disconnected root nodes. -/
def twoRootsGraph : Graph :=
  { nodes := [("r1", exNode "r1" none), ("r2", exNode "r2" none)], edges := [] }

/-- A layout config with a negative sibling separation. -/
def negSepConfig : LayoutConfig :=
  { nodeWidth := 380, nodeHeight := 220, rankSeparation := 480,
    nodeSeparation := -220, direction := .LR }

/-- A layout with no node entries. -/
def emptyLayout : Layout :=
  { nodes := [], algorithm := "dagre", computedAt := "t", isStale := true }

/- ============================================================
   Supporting lemmas
============================================================ -/

theorem addToSet_mem {s : List String} {x y : String} :
    y ∈ addToSet s x ↔ y ∈ s ∨ y = x := by
  unfold addToSet
  split
  · next h =>
      have hx : x ∈ s := by simpa using h
      constructor
      · exact fun hy => Or.inl hy
      · rintro (hy | rfl) <;> assumption
  · simp

theorem addToSet_nodup {s : List String} {x : String} (h : s.Nodup) :
    (addToSet s x).Nodup := by
  unfold addToSet
  split
  · exact h
  · next hc =>
      have hx : x ∉ s := by simpa using hc
      simpa [List.nodup_append] using ⟨h, hx⟩

theorem hasKey_iff {α : Type} (m : JsMap α) (k : String) :
    JsMap.hasKey m k = true ↔ ∃ p ∈ m, p.1 = k := by
  simp [JsMap.hasKey, List.any_eq_true]

theorem hasKey_eq_false_iff {α : Type} (m : JsMap α) (k : String) :
    JsMap.hasKey m k = false ↔ ∀ p ∈ m, p.1 ≠ k := by
  simp [JsMap.hasKey, List.any_eq_false]

theorem get?_some_hasKey {α : Type} {m : JsMap α} {k : String} {v : α}
    (h : JsMap.get? m k = some v) : JsMap.hasKey m k = true := by
  unfold JsMap.get? at h
  rcases Option.map_eq_some'.mp h with ⟨p, hp, rfl⟩
  have hmem := List.mem_of_find?_eq_some hp
  have hpred := List.find?_some hp
  rw [hasKey_iff]
  exact ⟨p, hmem, by simpa using hpred⟩

theorem hasKey_set_false {α : Type} (m : JsMap α) (k x : String) (v : α)
    (hm : JsMap.hasKey m x = false) (hxk : x ≠ k) :
    JsMap.hasKey (JsMap.set m k v) x = false := by
  rw [hasKey_eq_false_iff] at hm ⊢
  intro p hp
  unfold JsMap.set at hp
  split at hp
  · rcases List.mem_map.mp hp with ⟨q, hq, rfl⟩
    by_cases hqk : q.1 = k
    · rw [if_pos (by simp [hqk])]
      exact fun h' => hxk h'.symm
    · rw [if_neg (by simp [hqk])]
      exact hm q hq
  · rcases List.mem_append.mp hp with hq | hq
    · exact hm p hq
    · rcases List.mem_singleton.mp hq with rfl
      exact fun h' => hxk h'.symm

theorem hasKey_set_true {α : Type} (m : JsMap α) (k x : String) (v : α)
    (hm : JsMap.hasKey m x = true) :
    JsMap.hasKey (JsMap.set m k v) x = true := by
  rw [hasKey_iff] at hm ⊢
  rcases hm with ⟨p, hp, hpx⟩
  unfold JsMap.set
  split
  · refine ⟨(fun q => if q.1 == k then (k, v) else q) p, List.mem_map_of_mem _ hp, ?_⟩
    by_cases hpk : p.1 = k
    · show (if p.1 == k then (k, v) else p).1 = x
      rw [if_pos (by simp [hpk]), ← hpk]
      exact hpx
    · show (if p.1 == k then (k, v) else p).1 = x
      rw [if_neg (by simp [hpk])]
      exact hpx
  · exact ⟨p, List.mem_append_left _ hp, hpx⟩

theorem collectSubtree_zero (edges : JsMap GraphEdge) (q td : List String) :
    collectSubtree edges 0 q td = td := rfl

theorem collectSubtree_nil (edges : JsMap GraphEdge) (fuel : Nat)
    (td : List String) :
    collectSubtree edges (fuel + 1) [] td = td := rfl

/-- One unfolding of the `removeNode` worklist loop. -/
theorem collectSubtree_cons (edges : JsMap GraphEdge) (fuel : Nat)
    (current : String) (rest td : List String) :
    collectSubtree edges (fuel + 1) (current :: rest) td
      = collectSubtree edges fuel
          ((((JsMap.values edges).filter
              (fun e => e.source == current
                && !((addToSet td current).contains e.target))).map
            (fun e => e.target)).reverse ++ rest)
          (addToSet td current) := rfl

/-- If no edge of the map has `X` as its source, the worklist of
`removeNode` stops after the first pop: the collected set is `[X]`. -/
theorem collectSubtree_no_sources (edges : JsMap GraphEdge) (X : String)
    (fuel : Nat) (h : ∀ e ∈ JsMap.values edges, e.source ≠ X) :
    collectSubtree edges (fuel + 1) [X] [] = [X] := by
  have hfilter :
      (JsMap.values edges).filter
        (fun e => e.source == X && !((addToSet [] X).contains e.target)) = [] := by
    apply List.filter_eq_nil_iff.mpr
    intro e he
    simp [h e he]
  rw [collectSubtree_cons, hfilter]
  cases fuel with
  | zero => rfl
  | succ f => rfl

/- ============================================================
   C9 — calculateLayoutBounds
============================================================ -/

/-- C9: on a layout with no node entries, `calculateLayoutBounds` clamps
the four corner fields to 0 via `isFinite`, but computes `width` and
`height` from the raw fold results — the `±Infinity` sentinels — so both
come out `-Infinity` rather than the zero the spec promises.  (For
non-empty layouts the function does return the minimal covering
rectangle; the empty case contradicts the spec's "zero-rectangle"
claim.) -/
theorem calculateLayoutBounds_empty_eval :
    calculateLayoutBounds emptyLayout
      = { minX := .num 0, minY := .num 0, maxX := .num 0, maxY := .num 0,
          width := .negInf, height := .negInf } := by
  rfl

/- ============================================================
   C2 — determinism of computeLayout
============================================================ -/

/-- C2: `computeLayout` is deterministic: the only impurity of the source
function is the `new Date().toISOString()` read (modelled as the explicit
`now` argument), and it flows only into the `computedAt` field; the
per-node coordinate map of two calls on the same Graph and LayoutConfig is
identical. -/
theorem computeLayout_deterministic (g : Graph) (c : LayoutConfig)
    (t₁ t₂ : String) :
    (computeLayout g c t₁).nodes = (computeLayout g c t₂).nodes := by
  rfl

/- ============================================================
   C10 — removeNode on a missing id
============================================================ -/

/-- C10 counterexample: in a graph with a dangling edge `s->x` whose
target `x` is not a node, `removeNode g "x"` is not a no-op even though no
edge has `x` as its *source*: the edge-deletion pass also removes edges
whose *target* is in the collected set, so the dangling edge disappears. -/
theorem removeNode_missing_counterexample :
    JsMap.hasKey danglingGraph.nodes "x" = false
      ∧ (∀ e ∈ JsMap.values danglingGraph.edges, e.source ≠ "x")
      ∧ (removeNode danglingGraph "x").edges ≠ danglingGraph.edges := by
  refine ⟨by decide, by decide, by decide⟩

/-- C10 (amended): removing an id `X` that is not a node is a no-op
provided no edge of the graph has `X` as its source *or its target* (the
counterexample shows the original source-only proviso is not enough):
`removeNode` returns the graph unchanged. -/
theorem removeNode_missing_noop (g : Graph) (X : String)
    (hn : JsMap.hasKey g.nodes X = false)
    (he : ∀ e ∈ JsMap.values g.edges, e.source ≠ X ∧ e.target ≠ X) :
    removeNode g X = g := by
  have hsrc : ∀ e ∈ JsMap.values g.edges, e.source ≠ X :=
    fun e he' => (he e he').1
  have hcollect :
      collectSubtree g.edges ((g.edges.length + 2) * (g.edges.length + 2)) [X] []
        = [X] := by
    obtain ⟨k, hk⟩ : ∃ k, (g.edges.length + 2) * (g.edges.length + 2) = k + 1 := by
      refine ⟨(g.edges.length + 2) * (g.edges.length + 2) - 1, ?_⟩
      have : 0 < (g.edges.length + 2) * (g.edges.length + 2) :=
        Nat.mul_pos (by omega) (by omega)
      omega
    rw [hk]
    exact collectSubtree_no_sources g.edges X _ hsrc
  have hnodes : g.nodes.filter (fun p => !([X].contains p.1)) = g.nodes := by
    apply List.filter_eq_self.mpr
    intro p hp
    have := (hasKey_eq_false_iff g.nodes X).mp hn p hp
    simp [this]
  have hedges :
      g.edges.filter
        (fun p => !([X].contains p.2.source) && !([X].contains p.2.target))
        = g.edges := by
    apply List.filter_eq_self.mpr
    intro p hp
    have h1 := (he p.2 (List.mem_map_of_mem Prod.snd hp)).1
    have h2 := (he p.2 (List.mem_map_of_mem Prod.snd hp)).2
    simp [h1, h2]
  show Graph.mk _ _ = g
  rw [hcollect] at *
  rw [hnodes, hedges]

/- ============================================================
   C6 — error behaviour of addNode / updateNode
============================================================ -/

/-- C6 counterexample: `addNode` on an absent parent throws a *generic*
`Error` — the source executes `throw new Error(...)` — not a
`ReferenceError` as the claim states. -/
theorem dangling_parent_error_counterexample :
    addNode createGraph (exNode "b" (some "a"))
        = .error { name := .error
                   message := "addNode: parentId \"a\" does not exist in graph" }
      ∧ JsErrorName.error ≠ JsErrorName.referenceError := by
  exact ⟨rfl, by decide⟩

/-- C6 (amended): `addNode` throws a generic `Error` (not a
`ReferenceError`) exactly when the node's `parentId` is a non-empty
string naming an id absent from the graph, and `updateNode` throws a
generic `Error` when the update changes `parentId` to a non-empty string
naming an absent id; neither call throws when the referenced parent
exists. -/
theorem dangling_parent_error_spec :
    (∀ (g : Graph) (n : GraphNode) (p : String), n.parentId = some p → p ≠ "" →
        JsMap.hasKey g.nodes p = false →
        addNode g n = .error { name := .error
                               message := "addNode: parentId \"" ++ p
                                 ++ "\" does not exist in graph" })
    ∧ (∀ (g : Graph) (n : GraphNode),
        (∀ p : String, n.parentId = some p → p ≠ "" → JsMap.hasKey g.nodes p = true) →
        ∃ g', addNode g n = .ok g')
    ∧ (∀ (g : Graph) (nodeId : String) (u : NodeUpdates) (existing : GraphNode)
          (p : String),
        JsMap.get? g.nodes nodeId = some existing →
        u.parentId = some (some p) → some p ≠ existing.parentId → p ≠ "" →
        JsMap.hasKey g.nodes p = false →
        updateNode g nodeId u = .error { name := .error
                                         message := "updateNode: new parentId \"" ++ p
                                           ++ "\" does not exist" })
    ∧ (∀ (g : Graph) (nodeId : String) (u : NodeUpdates) (existing : GraphNode)
          (p : String),
        JsMap.get? g.nodes nodeId = some existing →
        u.parentId = some (some p) → JsMap.hasKey g.nodes p = true →
        ∃ g', updateNode g nodeId u = .ok g') := by
  refine ⟨?_, ?_, ?_, ?_⟩
  · intro g n p hp hpne hkey
    unfold addNode
    rw [hp]
    simp [strTruthy, hpne, hkey]
  · intro g n hpar
    match hn : n.parentId with
    | none => exact ⟨_, by simp [addNode, hn, strTruthy]; rfl⟩
    | some p =>
        by_cases hpe : p = ""
        · subst hpe
          exact ⟨_, by simp [addNode, hn, strTruthy]; rfl⟩
        · have := hpar p hn hpe
          exact ⟨_, by simp [addNode, hn, strTruthy, hpe, this]; rfl⟩
  · intro g nodeId u existing p hget hu hne hpne hkey
    have hnid : JsMap.hasKey g.nodes nodeId = true := get?_some_hasKey hget
    have hpnid : p ≠ nodeId := by
      intro h
      rw [h] at hkey
      rw [hnid] at hkey
      cases hkey
    have hk2 : JsMap.hasKey (JsMap.set g.nodes nodeId (applyUpdates existing u nodeId)) p
        = false := hasKey_set_false _ _ _ _ hkey hpnid
    simp only [updateNode, hget, hu]
    rw [if_neg hne]
    simp [hpne, hk2]
  · intro g nodeId u existing p hget hu hkey
    simp only [updateNode, hget, hu]
    by_cases hne : some p = existing.parentId
    · rw [if_pos hne]
      exact ⟨_, rfl⟩
    · rw [if_neg hne]
      by_cases hpe : p = ""
      · subst hpe
        exact ⟨_, by simp; rfl⟩
      · have hk2 : JsMap.hasKey (JsMap.set g.nodes nodeId (applyUpdates existing u nodeId)) p
            = true := hasKey_set_true _ _ _ _ hkey
        exact ⟨_, by simp [hpe, hk2]; rfl⟩

/-- C6 witness: concrete instantiations of all four conjuncts of the
amended statement. -/
theorem dangling_parent_error_spec_witness :
    (addNode createGraph (exNode "b" (some "a"))
        = .error { name := .error
                   message := "addNode: parentId \"a\" does not exist in graph" })
    ∧ (∃ g', addNode chainGraph (exNode "c3" (some "c2")) = .ok g')
    ∧ (updateNode chainGraph "c2" (parentUpdate (some "ghost"))
        = .error { name := .error
                   message := "updateNode: new parentId \"ghost\" does not exist" })
    ∧ (∃ g', updateNode chainGraph "c2" (parentUpdate (some "r")) = .ok g') := by
  refine ⟨?_, ?_, ?_, ?_⟩
  · exact dangling_parent_error_spec.1 createGraph (exNode "b" (some "a")) "a"
      rfl (by decide) (by decide)
  · refine dangling_parent_error_spec.2.1 chainGraph (exNode "c3" (some "c2")) ?_
    intro p hp hpne
    have hp' : some "c2" = some p := hp
    injection hp' with hp2
    subst hp2
    decide
  · exact dangling_parent_error_spec.2.2.1 chainGraph "c2" (parentUpdate (some "ghost"))
      (exNode "c2" (some "c1")) "ghost" (by decide) rfl (by decide) (by decide) (by decide)
  · exact dangling_parent_error_spec.2.2.2 chainGraph "c2" (parentUpdate (some "r"))
      (exNode "c2" (some "c1")) "r" (by decide) rfl (by decide)

/- ============================================================
   C8 — viewport culling
============================================================ -/

/-- Membership in the visible-id accumulator of `filterToViewport`. -/
theorem visibleIds_foldl_mem (layout : Layout) (bounds : ViewportBounds)
    (l : List RFNode) (s : List String) (x : String) :
    x ∈ l.foldl (fun s n =>
        match JsMap.get? layout.nodes n.id with
        | none => s
        | some nl => if isNodeVisible nl bounds then addToSet s n.id else s) s
      ↔ x ∈ s ∨ ∃ n ∈ l, n.id = x ∧ idVisible layout bounds x = true := by
  induction l generalizing s with
  | nil => simp
  | cons n rest ih =>
      rw [List.foldl_cons]
      cases hg : JsMap.get? layout.nodes n.id with
      | none =>
          simp only [hg]
          rw [ih]
          constructor
          · rintro (hs | ⟨m, hm, hmx, hv⟩)
            · exact Or.inl hs
            · exact Or.inr ⟨m, List.mem_cons_of_mem n hm, hmx, hv⟩
          · rintro (hs | ⟨m, hm, hmx, hv⟩)
            · exact Or.inl hs
            · rcases List.mem_cons.mp hm with rfl | hm'
              · exfalso
                rw [← hmx] at hv
                simp only [idVisible, hg] at hv
                exact Bool.false_ne_true hv
              · exact Or.inr ⟨m, hm', hmx, hv⟩
      | some nl =>
          cases hv : isNodeVisible nl bounds with
          | false =>
              simp only [hg, hv, if_false]
              rw [ih]
              constructor
              · rintro (hs | ⟨m, hm, hmx, hvx⟩)
                · exact Or.inl hs
                · exact Or.inr ⟨m, List.mem_cons_of_mem n hm, hmx, hvx⟩
              · rintro (hs | ⟨m, hm, hmx, hvx⟩)
                · exact Or.inl hs
                · rcases List.mem_cons.mp hm with rfl | hm'
                  · exfalso
                    rw [← hmx] at hvx
                    simp only [idVisible, hg, hv] at hvx
                    exact Bool.false_ne_true hvx
                  · exact Or.inr ⟨m, hm', hmx, hvx⟩
          | true =>
              simp only [hg, hv, if_true]
              rw [ih]
              constructor
              · rintro (hs | ⟨m, hm, hmx, hvx⟩)
                · rcases addToSet_mem.mp hs with hs' | rfl
                  · exact Or.inl hs'
                  · refine Or.inr ⟨n, List.mem_cons_self n rest, rfl, ?_⟩
                    simp only [idVisible, hg, hv]
                · exact Or.inr ⟨m, List.mem_cons_of_mem n hm, hmx, hvx⟩
              · rintro (hs | ⟨m, hm, hmx, hvx⟩)
                · exact Or.inl (addToSet_mem.mpr (Or.inl hs))
                · rcases List.mem_cons.mp hm with rfl | hm'
                  · exact Or.inl (addToSet_mem.mpr (Or.inr hmx.symm))
                  · exact Or.inr ⟨m, hm', hmx, hvx⟩

/-- Membership in `visibleIdsOf`. -/
theorem visibleIdsOf_mem (allNodes : List RFNode) (layout : Layout)
    (bounds : ViewportBounds) (x : String) :
    x ∈ visibleIdsOf allNodes layout bounds
      ↔ ∃ n ∈ allNodes, n.id = x ∧ idVisible layout bounds x = true := by
  rw [visibleIdsOf, visibleIds_foldl_mem]
  simp

theorem filterToViewport_fst (allNodes : List RFNode) (allEdges : List RFEdge)
    (layout : Layout) (bounds : ViewportBounds) :
    (filterToViewport allNodes allEdges layout bounds).1
      = allNodes.filter
          (fun n => (visibleIdsOf allNodes layout bounds).contains n.id) := rfl

theorem filterToViewport_snd (allNodes : List RFNode) (allEdges : List RFEdge)
    (layout : Layout) (bounds : ViewportBounds) :
    (filterToViewport allNodes allEdges layout bounds).2
      = allEdges.filter
          (fun e => (visibleIdsOf allNodes layout bounds).contains e.source
            && (visibleIdsOf allNodes layout bounds).contains e.target) := rfl

/-- C8: a node is in the `visibleNodes` output of `filterToViewport` iff
it is an input node whose id has a layout entry whose axis-aligned
bounding box intersects the bounds rectangle (the closed intersection test
of `isNodeVisible`); an edge is in the `visibleEdges` output iff it is an
input edge and both its source and its target are ids of visible output
nodes. -/
theorem filterToViewport_spec (allNodes : List RFNode) (allEdges : List RFEdge)
    (layout : Layout) (bounds : ViewportBounds) :
    (∀ n : RFNode, n ∈ (filterToViewport allNodes allEdges layout bounds).1 ↔
        n ∈ allNodes ∧ ∃ nl, JsMap.get? layout.nodes n.id = some nl
          ∧ isNodeVisible nl bounds = true)
    ∧ (∀ e : RFEdge, e ∈ (filterToViewport allNodes allEdges layout bounds).2 ↔
        e ∈ allEdges
          ∧ (∃ n ∈ (filterToViewport allNodes allEdges layout bounds).1, n.id = e.source)
          ∧ (∃ n ∈ (filterToViewport allNodes allEdges layout bounds).1, n.id = e.target)) := by
  have hvis : ∀ x : String,
      idVisible layout bounds x = true ↔
        ∃ nl, JsMap.get? layout.nodes x = some nl ∧ isNodeVisible nl bounds = true := by
    intro x
    cases hg : JsMap.get? layout.nodes x with
    | none => simp [idVisible, hg]
    | some nl => simp [idVisible, hg]
  have hnode : ∀ n : RFNode, n ∈ (filterToViewport allNodes allEdges layout bounds).1 ↔
      n ∈ allNodes ∧ ∃ nl, JsMap.get? layout.nodes n.id = some nl
        ∧ isNodeVisible nl bounds = true := by
    intro n
    rw [filterToViewport_fst, List.mem_filter]
    constructor
    · rintro ⟨hn, hc⟩
      refine ⟨hn, ?_⟩
      have hmem : n.id ∈ visibleIdsOf allNodes layout bounds := by
        simpa using hc
      rcases (visibleIdsOf_mem allNodes layout bounds n.id).mp hmem with ⟨m, _, _, hv⟩
      exact (hvis n.id).mp hv
    · rintro ⟨hn, nl, hget, hv⟩
      refine ⟨hn, ?_⟩
      have hvx : idVisible layout bounds n.id = true := (hvis n.id).mpr ⟨nl, hget, hv⟩
      have hmem : n.id ∈ visibleIdsOf allNodes layout bounds :=
        (visibleIdsOf_mem allNodes layout bounds n.id).mpr ⟨n, hn, rfl, hvx⟩
      simpa using hmem
  refine ⟨hnode, ?_⟩
  intro e
  have hcont : ∀ y : String,
      y ∈ visibleIdsOf allNodes layout bounds
        ↔ ∃ n ∈ (filterToViewport allNodes allEdges layout bounds).1, n.id = y := by
    intro y
    rw [visibleIdsOf_mem]
    constructor
    · rintro ⟨m, hm, hmy, hv⟩
      refine ⟨m, ?_, hmy⟩
      rw [hnode m]
      exact ⟨hm, (hvis m.id).mp (by rw [hmy]; exact hv)⟩
    · rintro ⟨m, hm, hmy⟩
      rcases (hnode m).mp hm with ⟨hmem, nl, hget, hv⟩
      refine ⟨m, hmem, hmy, ?_⟩
      rw [← hmy]
      exact (hvis m.id).mpr ⟨nl, hget, hv⟩
  rw [filterToViewport_snd, List.mem_filter]
  constructor
  · rintro ⟨he, hc⟩
    rw [Bool.and_eq_true] at hc
    refine ⟨he, ?_, ?_⟩
    · exact (hcont e.source).mp (by simpa using hc.1)
    · exact (hcont e.target).mp (by simpa using hc.2)
  · rintro ⟨he, hs, ht⟩
    refine ⟨he, ?_⟩
    rw [Bool.and_eq_true]
    constructor
    · simpa using (hcont e.source).mpr hs
    · simpa using (hcont e.target).mpr ht

/-- C10 witness: a concrete instantiation of the amended no-op theorem. -/
theorem removeNode_missing_noop_witness :
    JsMap.hasKey twoRootsGraph.nodes "zzz" = false
      ∧ removeNode twoRootsGraph "zzz" = twoRootsGraph :=
  ⟨by decide, removeNode_missing_noop twoRootsGraph "zzz" (by decide) (by decide)⟩

/- ============================================================
   C3 — serialization round-trip
============================================================ -/

theorem keyed_mem_unique {α : Type} {m : JsMap α} (hnd : (m.map Prod.fst).Nodup)
    {k : String} {a b : α} (ha : (k, a) ∈ m) (hb : (k, b) ∈ m) : a = b := by
  induction m with
  | nil => cases ha
  | cons p rest ih =>
      obtain ⟨pk, pv⟩ := p
      have hnd' : (rest.map Prod.fst).Nodup := (List.nodup_cons.mp hnd).2
      have hhead : pk ∉ rest.map Prod.fst := by
        simpa using (List.nodup_cons.mp hnd).1
      rcases List.mem_cons.mp ha with ha0 | ha'
      · rcases List.mem_cons.mp hb with hb0 | hb'
        · have h1 : a = pv := congrArg Prod.snd ha0
          have h2 : b = pv := congrArg Prod.snd hb0
          rw [h1, h2]
        · exfalso
          have hk : pk = k := (congrArg Prod.fst ha0).symm
          exact hhead (hk ▸ List.mem_map_of_mem Prod.fst hb')
      · rcases List.mem_cons.mp hb with hb0 | hb'
        · exfalso
          have hk : pk = k := (congrArg Prod.fst hb0).symm
          exact hhead (hk ▸ List.mem_map_of_mem Prod.fst ha')
        · exact ih hnd' ha' hb'

theorem hasKey_append {α : Type} (m l : JsMap α) (k : String) :
    JsMap.hasKey (m ++ l) k = (JsMap.hasKey m k || JsMap.hasKey l k) :=
  List.any_append

theorem set_fresh {α : Type} (m : JsMap α) (k : String) (v : α)
    (h : JsMap.hasKey m k = false) :
    JsMap.set m k v = m ++ [(k, v)] := by
  unfold JsMap.set
  rw [if_neg]
  unfold JsMap.hasKey at h
  simp [h]

/-- Folding `set` over values with pairwise-fresh keys appends the keyed
entries in order. -/
theorem foldl_set_by_key {α : Type} (f : α → String) (vs : List α) (m : JsMap α)
    (hfresh : ∀ v ∈ vs, JsMap.hasKey m (f v) = false)
    (hnd : (vs.map f).Nodup) :
    vs.foldl (fun acc v => JsMap.set acc (f v) v) m
      = m ++ vs.map (fun v => (f v, v)) := by
  induction vs generalizing m with
  | nil => simp
  | cons v rest ih =>
      rw [List.foldl_cons, set_fresh m (f v) v (hfresh v (List.mem_cons_self v rest))]
      rw [ih (m ++ [(f v, v)]) ?_ ((List.nodup_cons.mp hnd).2)]
      · simp
      · intro w hw
        rw [hasKey_append]
        have h1 : JsMap.hasKey m (f w) = false :=
          hfresh w (List.mem_cons_of_mem v hw)
        have h2 : JsMap.hasKey [(f v, v)] (f w) = false := by
          have : f v ≠ f w := by
            intro hEq
            exact (List.nodup_cons.mp hnd).1 (hEq ▸ List.mem_map_of_mem f hw)
          simp [JsMap.hasKey, this]
        rw [h1, h2]
        rfl

theorem map_self_keyed {α : Type} (f : α → String) (m : JsMap α)
    (h : ∀ p ∈ m, p.1 = f p.2) :
    m.map (fun p => (f p.2, p.2)) = m := by
  induction m with
  | nil => rfl
  | cons p rest ih =>
      rw [List.map_cons, ih (fun q hq => h q (List.mem_cons_of_mem p hq))]
      have hp := h p (List.mem_cons_self p rest)
      rw [← hp]

theorem values_ids_nodup {α : Type} (f : α → String) (m : JsMap α)
    (h : KeyedBy f m) : ((JsMap.values m).map f).Nodup := by
  unfold JsMap.values
  rw [List.map_map]
  have heq : m.map (f ∘ Prod.snd) = m.map Prod.fst :=
    List.map_congr_left (fun p hp => (h.2 p hp).symm)
  rw [heq]
  exact h.1

theorem mem_impliedList {nodes : List GraphNode} {e : GraphEdge} :
    e ∈ impliedList nodes
      ↔ ∃ n ∈ nodes, ∃ p, n.parentId = some p ∧ p ≠ "" ∧ e = mkEdge p n.id := by
  rw [impliedList, List.mem_filterMap]
  constructor
  · rintro ⟨n, hn, hfn⟩
    cases hp : n.parentId with
    | none => simp only [hp] at hfn; cases hfn
    | some p =>
        simp only [hp] at hfn
        by_cases hpe : p = ""
        · subst hpe
          simp at hfn
        · rw [if_pos (by simp [hpe])] at hfn
          exact ⟨n, hn, p, hp, hpe, (Option.some_injective _ hfn).symm⟩
  · rintro ⟨n, hn, p, hp, hpe, rfl⟩
    refine ⟨n, hn, ?_⟩
    simp only [hp]
    rw [if_pos (by simp [hpe])]

theorem impliedList_cons_none {n : GraphNode} {rest : List GraphNode}
    (hp : n.parentId = none) :
    impliedList (n :: rest) = impliedList rest := by
  rw [impliedList, List.filterMap_cons]
  simp only [hp]
  rfl

theorem impliedList_cons_empty {n : GraphNode} {rest : List GraphNode}
    (hp : n.parentId = some "") :
    impliedList (n :: rest) = impliedList rest := by
  rw [impliedList, List.filterMap_cons]
  simp only [hp]
  rw [if_neg (by simp)]
  rfl

theorem impliedList_cons_some {n : GraphNode} {rest : List GraphNode}
    {p : String} (hp : n.parentId = some p) (hpe : p ≠ "") :
    impliedList (n :: rest) = mkEdge p n.id :: impliedList rest := by
  rw [impliedList, List.filterMap_cons]
  simp only [hp]
  rw [if_pos (by simp [hpe])]
  rfl

/-- The fallback loop of `deserializeGraph` is the keyed fold over
`impliedList`. -/
theorem fallback_fold_eq_impliedList (nodes : List GraphNode) (m : JsMap GraphEdge) :
    nodes.foldl (fun m node =>
      match node.parentId with
      | some p =>
          if p != "" then JsMap.set m (edgeIdFor p node.id) (mkEdge p node.id)
          else m
      | none => m) m
    = (impliedList nodes).foldl (fun acc e => JsMap.set acc (GraphEdge.id e) e) m := by
  induction nodes generalizing m with
  | nil => rfl
  | cons n rest ih =>
      simp only [List.foldl_cons]
      cases hp : n.parentId with
      | none =>
          rw [impliedList_cons_none hp]
          simp only [hp]
          exact ih m
      | some p =>
          by_cases hpe : p = ""
          · subst hpe
            rw [impliedList_cons_empty hp]
            simp only [hp]
            simp only [bne_self_eq_false, Bool.false_eq_true, if_false]
            exact ih m
          · rw [impliedList_cons_some hp hpe]
            simp only [hp]
            rw [if_pos (by simp [hpe])]
            simp only [List.foldl_cons]
            exact ih _

/-- When no node has a truthy parentId, the fallback loop adds nothing. -/
theorem fallback_fold_nil (nodes : List GraphNode) (m : JsMap GraphEdge)
    (h : ∀ n ∈ nodes, ∀ p, n.parentId = some p → p = "") :
    nodes.foldl (fun m node =>
      match node.parentId with
      | some p =>
          if p != "" then JsMap.set m (edgeIdFor p node.id) (mkEdge p node.id)
          else m
      | none => m) m = m := by
  rw [fallback_fold_eq_impliedList]
  have hempty : impliedList nodes = [] := by
    rw [impliedList, List.filterMap_eq_nil_iff]
    intro n hn
    cases hp : n.parentId with
    | none => simp only [hp]
    | some p =>
        have hpe := h n hn p hp
        subst hpe
        simp only [hp]
        simp
  rw [hempty]
  rfl

/-- Under the hypotheses of C3, the implied edges have pairwise distinct
ids. -/
theorem impliedList_ids_nodup (g : Graph)
    (hn : KeyedBy GraphNode.id g.nodes) (he : KeyedBy GraphEdge.id g.edges)
    (himp2 : ∀ n ∈ JsMap.values g.nodes, nodeEdgeOk g n = true) :
    ((impliedList (JsMap.values g.nodes)).map GraphEdge.id).Nodup := by
  have hvals : ((JsMap.values g.nodes).map GraphNode.id).Nodup :=
    values_ids_nodup GraphNode.id g.nodes hn
  have hpw : (JsMap.values g.nodes).Pairwise
      (fun n1 n2 => GraphNode.id n1 ≠ GraphNode.id n2) :=
    List.pairwise_map.mp hvals
  rw [List.Nodup, List.pairwise_map, impliedList, List.pairwise_filterMap]
  refine List.Pairwise.imp_of_mem ?_ hpw
  intro n1 n2 h1 h2 hne
  intro e1 he1 e2 he2
  have hmk1 : ∃ p, n1.parentId = some p ∧ p ≠ "" ∧ e1 = mkEdge p n1.id := by
    cases hp : n1.parentId with
    | none =>
        simp only [hp] at he1
        exact absurd he1 (by simp)
    | some p =>
        simp only [hp] at he1
        by_cases hpe : p = ""
        · subst hpe; simp at he1
        · rw [if_pos (by simp [hpe])] at he1
          rw [Option.mem_def] at he1
          exact ⟨p, rfl, hpe, (Option.some_injective _ he1).symm⟩
  have hmk2 : ∃ p, n2.parentId = some p ∧ p ≠ "" ∧ e2 = mkEdge p n2.id := by
    cases hp : n2.parentId with
    | none =>
        simp only [hp] at he2
        exact absurd he2 (by simp)
    | some p =>
        simp only [hp] at he2
        by_cases hpe : p = ""
        · subst hpe; simp at he2
        · rw [if_pos (by simp [hpe])] at he2
          rw [Option.mem_def] at he2
          exact ⟨p, rfl, hpe, (Option.some_injective _ he2).symm⟩
  obtain ⟨p1, hp1, hpe1, rfl⟩ := hmk1
  obtain ⟨p2, hp2, hpe2, rfl⟩ := hmk2
  intro hid
  have hin1 : (edgeIdFor p1 n1.id, mkEdge p1 n1.id) ∈ g.edges := by
    have hok := himp2 n1 h1
    simp only [nodeEdgeOk, hp1] at hok
    rw [if_pos (by simp [hpe1])] at hok
    exact of_decide_eq_true hok
  have hin2 : (edgeIdFor p2 n2.id, mkEdge p2 n2.id) ∈ g.edges := by
    have hok := himp2 n2 h2
    simp only [nodeEdgeOk, hp2] at hok
    rw [if_pos (by simp [hpe2])] at hok
    exact of_decide_eq_true hok
  have hkey : edgeIdFor p1 n1.id = edgeIdFor p2 n2.id := hid
  rw [hkey] at hin1
  have : mkEdge p1 n1.id = mkEdge p2 n2.id := keyed_mem_unique he.1 hin1 hin2
  have : n1.id = n2.id := congrArg GraphEdge.target this
  exact hne this

/-- C3: for a well-keyed Graph whose edge map is exactly the set implied
by the nodes' truthy `parentId` fields, `deserializeGraph ∘ serializeGraph`
is the identity (so node set and edge set are preserved), and the fallback
path — deserializing the same payload with its edge list emptied —
reconstructs exactly the same edge entries as the fast path. -/
theorem serialize_roundtrip (g : Graph)
    (hn : KeyedBy GraphNode.id g.nodes)
    (he : KeyedBy GraphEdge.id g.edges)
    (himp1 : ∀ q ∈ g.edges, impliedEdgeB (JsMap.values g.nodes) q.2 = true)
    (himp2 : ∀ n ∈ JsMap.values g.nodes, nodeEdgeOk g n = true) :
    deserializeGraph (serializeGraph g) = g
    ∧ (∀ q : String × GraphEdge,
        q ∈ (deserializeGraph
              { nodes := (serializeGraph g).nodes, edges := [] }).edges
          ↔ q ∈ g.edges) := by
  have hnodes :
      (JsMap.values g.nodes).foldl (fun m node => JsMap.set m node.id node) []
        = g.nodes := by
    rw [show (fun (m : JsMap GraphNode) (node : GraphNode) => JsMap.set m node.id node)
          = fun acc v => JsMap.set acc (GraphNode.id v) v from rfl]
    rw [foldl_set_by_key GraphNode.id (JsMap.values g.nodes) []
      (fun v _ => rfl) (values_ids_nodup GraphNode.id g.nodes hn)]
    rw [List.nil_append]
    unfold JsMap.values
    rw [List.map_map]
    exact map_self_keyed GraphNode.id g.nodes hn.2
  have hfallback :
      (JsMap.values g.nodes).foldl (fun m node =>
          match node.parentId with
          | some p =>
              if p != "" then JsMap.set m (edgeIdFor p node.id) (mkEdge p node.id)
              else m
          | none => m) []
        = (impliedList (JsMap.values g.nodes)).map (fun e => (GraphEdge.id e, e)) := by
    rw [fallback_fold_eq_impliedList]
    rw [foldl_set_by_key GraphEdge.id (impliedList (JsMap.values g.nodes)) []
      (fun v _ => rfl) (impliedList_ids_nodup g hn he himp2)]
    rw [List.nil_append]
  have hfb_mem : ∀ q : String × GraphEdge,
      q ∈ (impliedList (JsMap.values g.nodes)).map (fun e => (GraphEdge.id e, e))
        ↔ q ∈ g.edges := by
    intro q
    rw [List.mem_map]
    constructor
    · rintro ⟨e, hei, rfl⟩
      rcases mem_impliedList.mp hei with ⟨n, hnm, p, hp, hpe, rfl⟩
      have hok := himp2 n hnm
      simp only [nodeEdgeOk, hp] at hok
      rw [if_pos (by simp [hpe])] at hok
      exact of_decide_eq_true hok
    · intro hq
      refine ⟨q.2, ?_, ?_⟩
      · have hB := himp1 q hq
        rw [impliedEdgeB, List.any_eq_true] at hB
        rcases hB with ⟨n, hnm, hmatch⟩
        cases hp : n.parentId with
        | none =>
            simp only [hp] at hmatch
            exact (Bool.false_ne_true hmatch).elim
        | some p =>
            simp only [hp] at hmatch
            rw [Bool.and_eq_true] at hmatch
            have hpe : p ≠ "" := by simpa using hmatch.1
            have hqe : q.2 = mkEdge p n.id := by
              have := hmatch.2
              exact eq_of_beq this
            exact mem_impliedList.mpr ⟨n, hnm, p, hp, hpe, hqe⟩
      · have hk : q.1 = GraphEdge.id q.2 := he.2 q hq
        rw [← hk]
  have hedges_fast :
      (if (JsMap.values g.edges).length > 0 then
          (JsMap.values g.edges).foldl (fun m e => JsMap.set m e.id e) []
        else
          (JsMap.values g.nodes).foldl (fun m node =>
            match node.parentId with
            | some p =>
                if p != "" then JsMap.set m (edgeIdFor p node.id) (mkEdge p node.id)
                else m
            | none => m) [])
        = g.edges := by
    by_cases hlen : (JsMap.values g.edges).length > 0
    · rw [if_pos hlen]
      rw [show (fun (m : JsMap GraphEdge) (e : GraphEdge) => JsMap.set m e.id e)
            = fun acc v => JsMap.set acc (GraphEdge.id v) v from rfl]
      rw [foldl_set_by_key GraphEdge.id (JsMap.values g.edges) []
        (fun v _ => rfl) (values_ids_nodup GraphEdge.id g.edges he)]
      rw [List.nil_append]
      unfold JsMap.values
      rw [List.map_map]
      exact map_self_keyed GraphEdge.id g.edges he.2
    · have hge : g.edges = [] := by
        have hz : (JsMap.values g.edges).length = 0 := by omega
        unfold JsMap.values at hz
        rw [List.length_map] at hz
        exact List.length_eq_zero.mp hz
      rw [if_neg hlen, hge]
      have hno : ∀ n ∈ JsMap.values g.nodes, ∀ p, n.parentId = some p → p = "" := by
        intro n hnm p hp
        by_contra hpe
        have hok := himp2 n hnm
        simp only [nodeEdgeOk, hp] at hok
        rw [if_pos (by simp [hpe])] at hok
        have hmem := of_decide_eq_true hok
        rw [hge] at hmem
        cases hmem
      exact fallback_fold_nil (JsMap.values g.nodes) [] hno
  constructor
  · have hred2 : deserializeGraph (serializeGraph g)
        = Graph.mk
            ((JsMap.values g.nodes).foldl (fun m node => JsMap.set m node.id node) [])
            (if (JsMap.values g.edges).length > 0 then
                (JsMap.values g.edges).foldl (fun m e => JsMap.set m e.id e) []
              else
                (JsMap.values g.nodes).foldl (fun m node =>
                  match node.parentId with
                  | some p =>
                      if p != "" then
                        JsMap.set m (edgeIdFor p node.id) (mkEdge p node.id)
                      else m
                  | none => m) []) := rfl
    rw [hred2, hnodes, hedges_fast]
  · intro q
    have hred :
        (deserializeGraph { nodes := (serializeGraph g).nodes, edges := [] }).edges
          = (JsMap.values g.nodes).foldl (fun m node =>
              match node.parentId with
              | some p =>
                  if p != "" then JsMap.set m (edgeIdFor p node.id) (mkEdge p node.id)
                  else m
              | none => m) [] := rfl
    rw [hred, hfallback]
    exact hfb_mem q

/- ============================================================
   C1 — no overlapping rectangles
============================================================ -/

theorem foldl_addToSet_nodup (l : List String) (s : List String) (h : s.Nodup) :
    (l.foldl addToSet s).Nodup := by
  induction l generalizing s with
  | nil => exact h
  | cons a t ih => exact ih _ (addToSet_nodup h)

theorem firstDedup_nodup (l : List String) : (firstDedup l).Nodup :=
  foldl_addToSet_nodup l [] List.nodup_nil

theorem foldl_max_init_le (l : List ℕ) (b : ℕ) : b ≤ l.foldl max b := by
  induction l generalizing b with
  | nil => exact le_refl b
  | cons a t ih => exact le_trans (le_max_left b a) (ih (max b a))

theorem mem_le_foldl_max {l : List ℕ} {a : ℕ} (h : a ∈ l) (b : ℕ) :
    a ≤ l.foldl max b := by
  induction l generalizing b with
  | nil => cases h
  | cons x t ih =>
      rw [List.foldl_cons]
      rcases List.mem_cons.mp h with rfl | h'
      · exact le_trans (le_max_right b a) (foldl_max_init_le t (max b a))
      · exact ih h' (max b x)

theorem natCast_abs_ge_one {p q : ℕ} (h : p ≠ q) : 1 ≤ |(p : ℚ) - (q : ℚ)| := by
  rcases lt_or_gt_of_ne h with hlt | hgt
  · have h1 : (p : ℚ) + 1 ≤ (q : ℚ) := by exact_mod_cast Nat.succ_le_of_lt hlt
    calc (1 : ℚ) ≤ (q : ℚ) - (p : ℚ) := by linarith
    _ ≤ |(p : ℚ) - (q : ℚ)| := by rw [abs_sub_comm]; exact le_abs_self _
  · have h1 : (q : ℚ) + 1 ≤ (p : ℚ) := by exact_mod_cast Nat.succ_le_of_lt hgt
    calc (1 : ℚ) ≤ (p : ℚ) - (q : ℚ) := by linarith
    _ ≤ |(p : ℚ) - (q : ℚ)| := le_abs_self _

theorem mirror_abs_ge_one {ru rv M : ℕ} (hu : ru ≤ M) (hv : rv ≤ M)
    (hne : ru ≠ rv) :
    1 ≤ |((M - ru : ℕ) : ℚ) - ((M - rv : ℕ) : ℚ)| := by
  rw [Nat.cast_sub hu, Nat.cast_sub hv]
  have heq : ((M : ℚ) - ru) - ((M : ℚ) - rv) = (rv : ℚ) - (ru : ℚ) := by ring
  rw [heq]
  exact natCast_abs_ge_one (Ne.symm hne)

/-- Two equal-size intervals placed at grid positions at least one slot
apart (slot = size + separation) do not strictly overlap. -/
theorem axis_no_overlap (m i j size sep : ℚ) (habs : 1 ≤ |i - j|)
    (hsz : 0 ≤ size) (hsep : 0 ≤ sep) :
    ¬(m + i * (size + sep) < m + j * (size + sep) + size
      ∧ m + j * (size + sep) < m + i * (size + sep) + size) := by
  rintro ⟨h1, h2⟩
  rcases le_abs.mp habs with hd | hd
  · have hmul : 1 * (size + sep) ≤ (i - j) * (size + sep) :=
      mul_le_mul_of_nonneg_right hd (by linarith)
    nlinarith
  · have hd' : 1 ≤ j - i := by linarith [hd, neg_sub i j]
    have hmul : 1 * (size + sep) ≤ (j - i) * (size + sep) :=
      mul_le_mul_of_nonneg_right hd' (by linarith)
    nlinarith

/-- Distinct nodes of the same rank occupy distinct order slots. -/
theorem order_ne (ids : List String) (rank : String → Nat) {u v : String}
    (hu : u ∈ ids) (hv : v ∈ ids) (hne : u ≠ v) (hrk : rank u = rank v) :
    dagreOrder ids rank u ≠ dagreOrder ids rank v := by
  unfold dagreOrder
  simp only [hrk]
  intro hEq
  have hu' : u ∈ ids.filter (fun w => rank w == rank v) :=
    List.mem_filter.mpr ⟨hu, by simp [hrk]⟩
  have hv' : v ∈ ids.filter (fun w => rank w == rank v) :=
    List.mem_filter.mpr ⟨hv, by simp⟩
  exact hne ((List.indexOf_inj hu' hv').mp hEq)

theorem rank_le_maxRank (ids : List String) (edges : List (String × String))
    {u : String} (hu : u ∈ ids) :
    dagreRankOf edges u ≤ dagreMaxRank ids edges :=
  mem_le_foldl_max (List.mem_map_of_mem _ hu) 0

theorem rankIdx_abs (ids : List String) (edges : List (String × String))
    (c : LayoutConfig) {u v : String} (hu : u ∈ ids) (hv : v ∈ ids)
    (hrk : dagreRankOf edges u ≠ dagreRankOf edges v) :
    1 ≤ |rankIdxQ ids edges c u - rankIdxQ ids edges c v| := by
  cases hdir : c.direction with
  | LR =>
      simp only [rankIdxQ, hdir]
      exact natCast_abs_ge_one hrk
  | TB =>
      simp only [rankIdxQ, hdir]
      exact natCast_abs_ge_one hrk
  | RL =>
      simp only [rankIdxQ, hdir]
      exact mirror_abs_ge_one (rank_le_maxRank ids edges hu)
        (rank_le_maxRank ids edges hv) hrk
  | BT =>
      simp only [rankIdxQ, hdir]
      exact mirror_abs_ge_one (rank_le_maxRank ids edges hu)
        (rank_le_maxRank ids edges hv) hrk

theorem orderIdx_abs (ids : List String) (edges : List (String × String))
    {u v : String} (hu : u ∈ ids) (hv : v ∈ ids) (hne : u ≠ v)
    (hrk : dagreRankOf edges u = dagreRankOf edges v) :
    1 ≤ |orderIdxQ ids edges u - orderIdxQ ids edges v| := by
  unfold orderIdxQ
  exact natCast_abs_ge_one (order_ne ids (dagreRankOf edges) hu hv hne hrk)

/-- The central geometric fact: two distinct laid-out nodes never pass
both halves of the AABB overlap test, for any nonnegative config. -/
theorem rects_separated (ids : List String) (edges : List (String × String))
    (c : LayoutConfig) (hw : 0 ≤ c.nodeWidth) (hh : 0 ≤ c.nodeHeight)
    (hrs : 0 ≤ c.rankSeparation) (hns : 0 ≤ c.nodeSeparation)
    {u v : String} (hu : u ∈ ids) (hv : v ∈ ids) (hne : u ≠ v) :
    (overlapX (rectOf ids edges c u) (rectOf ids edges c v)
      && overlapY (rectOf ids edges c u) (rectOf ids edges c v)) = false := by
  rcases eq_or_ne (dagreRankOf edges u) (dagreRankOf edges v) with hrk | hrk
  · -- same rank: the order axis separates them
    have habs := orderIdx_abs ids edges hu hv hne hrk
    cases hdir : c.direction with
    | LR =>
        have hyf : overlapY (rectOf ids edges c u) (rectOf ids edges c v) = false := by
          rw [Bool.eq_false_iff]
          intro htrue
          rw [overlapY, Bool.and_eq_true, decide_eq_true_eq, decide_eq_true_eq] at htrue
          obtain ⟨h1, h2⟩ := htrue
          simp only [rectOf, dagreCenter, hdir] at h1 h2
          exact axis_no_overlap 40 (orderIdxQ ids edges u) (orderIdxQ ids edges v)
            c.nodeHeight c.nodeSeparation habs hh hns ⟨by linarith, by linarith⟩
        rw [hyf, Bool.and_false]
    | RL =>
        have hyf : overlapY (rectOf ids edges c u) (rectOf ids edges c v) = false := by
          rw [Bool.eq_false_iff]
          intro htrue
          rw [overlapY, Bool.and_eq_true, decide_eq_true_eq, decide_eq_true_eq] at htrue
          obtain ⟨h1, h2⟩ := htrue
          simp only [rectOf, dagreCenter, hdir] at h1 h2
          exact axis_no_overlap 40 (orderIdxQ ids edges u) (orderIdxQ ids edges v)
            c.nodeHeight c.nodeSeparation habs hh hns ⟨by linarith, by linarith⟩
        rw [hyf, Bool.and_false]
    | TB =>
        have hxf : overlapX (rectOf ids edges c u) (rectOf ids edges c v) = false := by
          rw [Bool.eq_false_iff]
          intro htrue
          rw [overlapX, Bool.and_eq_true, decide_eq_true_eq, decide_eq_true_eq] at htrue
          obtain ⟨h1, h2⟩ := htrue
          simp only [rectOf, dagreCenter, hdir] at h1 h2
          exact axis_no_overlap 40 (orderIdxQ ids edges u) (orderIdxQ ids edges v)
            c.nodeWidth c.nodeSeparation habs hw hns ⟨by linarith, by linarith⟩
        rw [hxf, Bool.false_and]
    | BT =>
        have hxf : overlapX (rectOf ids edges c u) (rectOf ids edges c v) = false := by
          rw [Bool.eq_false_iff]
          intro htrue
          rw [overlapX, Bool.and_eq_true, decide_eq_true_eq, decide_eq_true_eq] at htrue
          obtain ⟨h1, h2⟩ := htrue
          simp only [rectOf, dagreCenter, hdir] at h1 h2
          exact axis_no_overlap 40 (orderIdxQ ids edges u) (orderIdxQ ids edges v)
            c.nodeWidth c.nodeSeparation habs hw hns ⟨by linarith, by linarith⟩
        rw [hxf, Bool.false_and]
  · -- different ranks: the rank axis separates them
    have habs := rankIdx_abs ids edges c hu hv hrk
    cases hdir : c.direction with
    | LR =>
        have hxf : overlapX (rectOf ids edges c u) (rectOf ids edges c v) = false := by
          rw [Bool.eq_false_iff]
          intro htrue
          rw [overlapX, Bool.and_eq_true, decide_eq_true_eq, decide_eq_true_eq] at htrue
          obtain ⟨h1, h2⟩ := htrue
          simp only [rectOf, dagreCenter, hdir] at h1 h2
          exact axis_no_overlap 40 (rankIdxQ ids edges c u) (rankIdxQ ids edges c v)
            c.nodeWidth c.rankSeparation habs hw hrs ⟨by linarith, by linarith⟩
        rw [hxf, Bool.false_and]
    | RL =>
        have hxf : overlapX (rectOf ids edges c u) (rectOf ids edges c v) = false := by
          rw [Bool.eq_false_iff]
          intro htrue
          rw [overlapX, Bool.and_eq_true, decide_eq_true_eq, decide_eq_true_eq] at htrue
          obtain ⟨h1, h2⟩ := htrue
          simp only [rectOf, dagreCenter, hdir] at h1 h2
          exact axis_no_overlap 40 (rankIdxQ ids edges c u) (rankIdxQ ids edges c v)
            c.nodeWidth c.rankSeparation habs hw hrs ⟨by linarith, by linarith⟩
        rw [hxf, Bool.false_and]
    | TB =>
        have hyf : overlapY (rectOf ids edges c u) (rectOf ids edges c v) = false := by
          rw [Bool.eq_false_iff]
          intro htrue
          rw [overlapY, Bool.and_eq_true, decide_eq_true_eq, decide_eq_true_eq] at htrue
          obtain ⟨h1, h2⟩ := htrue
          simp only [rectOf, dagreCenter, hdir] at h1 h2
          exact axis_no_overlap 40 (rankIdxQ ids edges c u) (rankIdxQ ids edges c v)
            c.nodeHeight c.rankSeparation habs hh hrs ⟨by linarith, by linarith⟩
        rw [hyf, Bool.and_false]
    | BT =>
        have hyf : overlapY (rectOf ids edges c u) (rectOf ids edges c v) = false := by
          rw [Bool.eq_false_iff]
          intro htrue
          rw [overlapY, Bool.and_eq_true, decide_eq_true_eq, decide_eq_true_eq] at htrue
          obtain ⟨h1, h2⟩ := htrue
          simp only [rectOf, dagreCenter, hdir] at h1 h2
          exact axis_no_overlap 40 (rankIdxQ ids edges c u) (rankIdxQ ids edges c v)
            c.nodeHeight c.rankSeparation habs hh hrs ⟨by linarith, by linarith⟩
        rw [hyf, Bool.and_false]

/-- `checkOverlaps`'s double loop reports nothing on a pairwise
non-overlapping entry list. -/
theorem overlapsAux_eq_nil {l : List (String × NodeLayout)}
    (h : l.Pairwise (fun p q => (overlapX p.2 q.2 && overlapY p.2 q.2) = false)) :
    overlapsAux l = [] := by
  induction l with
  | nil => rfl
  | cons p rest ih =>
      obtain ⟨hhead, htail⟩ := List.pairwise_cons.mp h
      obtain ⟨id1, a⟩ := p
      show (rest.filterMap (fun q =>
          if overlapX a q.2 && overlapY a q.2 then some (id1, q.1) else none))
          ++ overlapsAux rest = []
      rw [List.append_eq_nil]
      constructor
      · rw [List.filterMap_eq_nil_iff]
        intro q hq
        rw [hhead q hq]
        rfl
      · exact ih htail

/-- C1 (amended): for every Graph and every LayoutConfig whose node
width, node height, rank separation and node separation are all
nonnegative, `checkOverlaps (computeLayout graph config)` is empty: the
spec-modelled dagre places distinct nodes at least one full slot apart on
the rank axis or on the order axis.  (The counterexample shows the
original "every LayoutConfig" fails for a negative separation.) -/
theorem computeLayout_no_overlap (g : Graph) (c : LayoutConfig) (now : String)
    (hw : 0 ≤ c.nodeWidth) (hh : 0 ≤ c.nodeHeight)
    (hrs : 0 ≤ c.rankSeparation) (hns : 0 ≤ c.nodeSeparation) :
    checkOverlaps (computeLayout g c now) = [] := by
  rw [checkOverlaps]
  have hred : (computeLayout g c now).nodes
      = (firstDedup (g.nodes.map Prod.fst)).map
          (fun v => (v, rectOf (firstDedup (g.nodes.map Prod.fst))
            ((JsMap.values g.edges).map (fun e => (e.source, e.target))) c v)) := rfl
  rw [hred]
  apply overlapsAux_eq_nil
  rw [List.pairwise_map]
  have hnd := firstDedup_nodup (g.nodes.map Prod.fst)
  refine List.Pairwise.imp_of_mem ?_ hnd
  intro u v hu hv hne
  exact rects_separated _ _ c hw hh hrs hns hu hv hne

/-- C1 counterexample: with a negative `nodeSeparation` the claim "for
any LayoutConfig" fails — two root nodes of the same rank end up closer
than a node height and `checkOverlaps ∘ computeLayout` reports the pair. -/
theorem computeLayout_overlap_counterexample :
    checkOverlaps (computeLayout twoRootsGraph negSepConfig "t") = [("r1", "r2")]
      ∧ checkOverlaps (computeLayout twoRootsGraph negSepConfig "t") ≠ [] := by
  have hids : firstDedup (twoRootsGraph.nodes.map Prod.fst) = ["r1", "r2"] := by
    decide
  have hr1 : rectOf ["r1", "r2"] [] negSepConfig "r1"
      = { x := 40, y := 40, width := 380, height := 220 } := by
    norm_num [rectOf, dagreCenter, negSepConfig, rankIdxQ, orderIdxQ, dagreRankOf,
      dagreRank, dagreOrder, dagreMaxRank]
  have hr2 : rectOf ["r1", "r2"] [] negSepConfig "r2"
      = { x := 40, y := 40, width := 380, height := 220 } := by
    norm_num [rectOf, dagreCenter, negSepConfig, rankIdxQ, orderIdxQ, dagreRankOf,
      dagreRank, dagreOrder, dagreMaxRank]
  have hform : (computeLayout twoRootsGraph negSepConfig "t").nodes
      = [("r1", rectOf ["r1", "r2"] [] negSepConfig "r1"),
         ("r2", rectOf ["r1", "r2"] [] negSepConfig "r2")] := by
    have hstep : (computeLayout twoRootsGraph negSepConfig "t").nodes
        = (firstDedup (twoRootsGraph.nodes.map Prod.fst)).map
            (fun v => (v, rectOf (firstDedup (twoRootsGraph.nodes.map Prod.fst))
              ((JsMap.values twoRootsGraph.edges).map (fun e => (e.source, e.target)))
              negSepConfig v)) := rfl
    rw [hstep, hids]
    rfl
  have hmain : checkOverlaps (computeLayout twoRootsGraph negSepConfig "t")
      = [("r1", "r2")] := by
    rw [checkOverlaps, hform, hr1, hr2]
    norm_num [overlapsAux, overlapX, overlapY, List.filterMap_cons, List.filterMap_nil]
  refine ⟨hmain, by rw [hmain]; exact fun h => List.cons_ne_nil _ _ h⟩

/-- C1 witness: the amended no-overlap theorem at the three-node chain
and the default config. -/
theorem computeLayout_no_overlap_witness :
    (0 : ℚ) ≤ DEFAULT_LAYOUT_CONFIG.nodeWidth
      ∧ checkOverlaps (computeLayout chainGraph DEFAULT_LAYOUT_CONFIG "t") = [] :=
  ⟨by decide,
   computeLayout_no_overlap chainGraph DEFAULT_LAYOUT_CONFIG "t"
     (by decide) (by decide) (by decide) (by decide)⟩

/- ============================================================
   C5 — removeNode cascade delete
============================================================ -/

theorem mem_subtreePushes {edges : JsMap GraphEdge} {td' : List String}
    {current t : String} :
    t ∈ subtreePushes edges td' current
      ↔ ∃ e ∈ JsMap.values edges,
          e.source = current ∧ e.target = t ∧ ¬ t ∈ td' := by
  unfold subtreePushes
  rw [List.mem_map]
  constructor
  · rintro ⟨e, he, rfl⟩
    rcases List.mem_filter.mp he with ⟨hein, hcond⟩
    rw [Bool.and_eq_true] at hcond
    refine ⟨e, hein, by simpa using hcond.1, rfl, ?_⟩
    have h2 := hcond.2
    simpa using h2
  · rintro ⟨e, hein, hsrc, rfl, hnot⟩
    exact ⟨e, List.mem_filter.mpr ⟨hein, by simp [hsrc, hnot]⟩, rfl⟩

/-- One unfolding of the worklist, phrased with `subtreePushes`. -/
theorem collectSubtree_cons' (edges : JsMap GraphEdge) (fuel : Nat)
    (current : String) (rest td : List String) :
    collectSubtree edges (fuel + 1) (current :: rest) td
      = collectSubtree edges fuel
          ((subtreePushes edges (addToSet td current) current).reverse ++ rest)
          (addToSet td current) := rfl

/-- Soundness of the worklist: everything collected satisfies any
property that holds on the seeds and is closed under edge successors. -/
theorem collectSubtree_sound (edges : JsMap GraphEdge) (P : String → Prop)
    (hstep : ∀ v t, P v →
      (∃ e ∈ JsMap.values edges, e.source = v ∧ e.target = t) → P t) :
    ∀ (fuel : Nat) (q td : List String), (∀ v ∈ q, P v) → (∀ v ∈ td, P v) →
      ∀ y ∈ collectSubtree edges fuel q td, P y := by
  intro fuel
  induction fuel with
  | zero =>
      intro q td _ htd y hy
      rw [collectSubtree_zero] at hy
      exact htd y hy
  | succ f ih =>
      intro q td hq htd y hy
      cases q with
      | nil =>
          rw [collectSubtree_nil] at hy
          exact htd y hy
      | cons current rest =>
          rw [collectSubtree_cons'] at hy
          refine ih _ _ ?_ ?_ y hy
          · intro v hv
            rcases List.mem_append.mp hv with hv1 | hv2
            · rw [List.mem_reverse] at hv1
              rcases mem_subtreePushes.mp hv1 with ⟨e, he, hsrc, htgt, _⟩
              exact hstep current v (hq current (List.mem_cons_self _ _))
                ⟨e, he, hsrc, htgt⟩
            · exact hq v (List.mem_cons_of_mem _ hv2)
          · intro v hv
            rcases addToSet_mem.mp hv with hv1 | rfl
            · exact htd v hv1
            · exact hq v (List.mem_cons_self _ _)

/-- Completeness of the worklist: with the closure and stack invariants
and enough fuel, the result contains the seeds, contains the queue, and
is closed under edge successors. -/
theorem collectSubtree_complete (edges : JsMap GraphEdge) (U : Finset String) :
    ∀ (fuel : Nat) (q td : List String),
      (∀ v ∈ q, v ∈ U) →
      (∀ e ∈ JsMap.values edges, e.target ∈ U) →
      ClosureInv (JsMap.values edges) q td →
      StackInv (JsMap.values edges) q td →
      q.length + ((JsMap.values edges).length + 1) * (U \ td.toFinset).card < fuel →
      (∀ v ∈ td, v ∈ collectSubtree edges fuel q td)
      ∧ (∀ v ∈ q, v ∈ collectSubtree edges fuel q td)
      ∧ (∀ v ∈ collectSubtree edges fuel q td, ∀ e ∈ JsMap.values edges,
          e.source = v → e.target ∈ collectSubtree edges fuel q td) := by
  intro fuel
  induction fuel with
  | zero =>
      intro q td _ _ _ _ hfuel
      exact absurd hfuel (by omega)
  | succ f ih =>
      intro q td hqU heU hclo hstk hfuel
      cases q with
      | nil =>
          rw [collectSubtree_nil]
          refine ⟨fun v hv => hv, fun v hv => (List.not_mem_nil v hv).elim, ?_⟩
          intro v hv e he hsrc
          rcases hclo v hv e he hsrc with h | h
          · exact h
          · exact (List.not_mem_nil _ h).elim
      | cons current rest =>
          rw [collectSubtree_cons']
          by_cases hcur : current ∈ td
          · -- the popped id was already collected: td unchanged, no pushes
            have htd' : addToSet td current = td := by
              unfold addToSet
              rw [if_pos (by simpa using hcur)]
            have hsucc : ∀ e ∈ JsMap.values edges, e.source = current →
                e.target ∈ td := by
              intro e he hsrc
              rcases hstk 0 current (by simp) hcur e he hsrc with h | ⟨j, hj, _⟩
              · exact h
              · omega
            have hpush : subtreePushes edges (addToSet td current) current = [] := by
              rw [htd']
              unfold subtreePushes
              have hfil : (JsMap.values edges).filter
                  (fun e => e.source == current && !(td.contains e.target)) = [] := by
                apply List.filter_eq_nil_iff.mpr
                intro e he
                by_cases hsrc : e.source = current
                · have hmem := hsucc e he hsrc
                  simp [hsrc, hmem]
                · simp [hsrc]
              rw [hfil]
              rfl
            rw [hpush, htd']
            simp only [List.reverse_nil, List.nil_append]
            have hfuel' : rest.length
                + ((JsMap.values edges).length + 1) * (U \ td.toFinset).card < f := by
              simp only [List.length_cons] at hfuel
              omega
            have hclo' : ClosureInv (JsMap.values edges) rest td := by
              intro v hv e he hsrc
              rcases hclo v hv e he hsrc with h | h
              · exact Or.inl h
              · rcases List.mem_cons.mp h with heq | h'
                · exact Or.inl (heq ▸ hcur)
                · exact Or.inr h'
            have hstk' : StackInv (JsMap.values edges) rest td := by
              intro i v hiv hvtd e he hsrc
              rcases hstk (i + 1) v (by rw [List.getElem?_cons_succ]; exact hiv)
                  hvtd e he hsrc with h | ⟨j, hj, hjv⟩
              · exact Or.inl h
              · cases j with
                | zero =>
                    rw [List.getElem?_cons_zero] at hjv
                    have heqc : e.target = current := by
                      injection hjv with h2
                      exact h2.symm
                    exact Or.inl (heqc ▸ hcur)
                | succ k =>
                    rw [List.getElem?_cons_succ] at hjv
                    exact Or.inr ⟨k, by omega, hjv⟩
            obtain ⟨ih1, ih2, ih3⟩ := ih rest td
              (fun v hv => hqU v (List.mem_cons_of_mem _ hv)) heU hclo' hstk' hfuel'
            refine ⟨fun v hv => ih1 v hv, ?_, fun v hv => ih3 v hv⟩
            intro v hv
            rcases List.mem_cons.mp hv with heq | hv'
            · exact heq ▸ ih1 current hcur
            · exact ih2 v hv'
          · -- a fresh id is collected
            have htd' : addToSet td current = td ++ [current] := by
              unfold addToSet
              rw [if_neg (by simpa using hcur)]
            have hmemtd' : ∀ x, x ∈ addToSet td current ↔ x ∈ td ∨ x = current := by
              intro x
              rw [htd']
              simp
            have hPmem : ∀ t ∈ (subtreePushes edges (addToSet td current) current).reverse,
                ∃ e ∈ JsMap.values edges,
                  e.source = current ∧ e.target = t ∧ ¬ t ∈ addToSet td current := by
              intro t ht
              rw [List.mem_reverse] at ht
              exact mem_subtreePushes.mp ht
            have hPlen : (subtreePushes edges (addToSet td current) current).reverse.length
                ≤ (JsMap.values edges).length := by
              rw [List.length_reverse]
              unfold subtreePushes
              rw [List.length_map]
              exact List.length_filter_le _ _
            have hqU' : ∀ v ∈ (subtreePushes edges (addToSet td current) current).reverse
                ++ rest, v ∈ U := by
              intro v hv
              rcases List.mem_append.mp hv with hv1 | hv2
              · rcases hPmem v hv1 with ⟨e, he, _, htgt, _⟩
                exact htgt ▸ heU e he
              · exact hqU v (List.mem_cons_of_mem _ hv2)
            have hcurU : current ∈ U := hqU current (List.mem_cons_self _ _)
            have hcurUd : current ∈ U \ td.toFinset :=
              Finset.mem_sdiff.mpr ⟨hcurU, by simpa [List.mem_toFinset] using hcur⟩
            have hcard : (U \ (addToSet td current).toFinset).card
                = (U \ td.toFinset).card - 1 := by
              have hset : (addToSet td current).toFinset = insert current td.toFinset := by
                rw [htd']
                ext x
                simp [List.mem_toFinset, or_comm]
              rw [hset, Finset.sdiff_insert, Finset.card_erase_of_mem hcurUd]
            have hpos : 1 ≤ (U \ td.toFinset).card :=
              Finset.card_pos.mpr ⟨current, hcurUd⟩
            have hfuel' : ((subtreePushes edges (addToSet td current) current).reverse
                ++ rest).length
                + ((JsMap.values edges).length + 1)
                  * (U \ (addToSet td current).toFinset).card < f := by
              rw [List.length_append, hcard]
              obtain ⟨s, hs⟩ : ∃ s, (U \ td.toFinset).card = s + 1 :=
                ⟨(U \ td.toFinset).card - 1, by omega⟩
              rw [hs]
              simp only [Nat.add_sub_cancel]
              rw [hs, Nat.mul_succ] at hfuel
              simp only [List.length_cons] at hfuel
              set W := ((JsMap.values edges).length + 1) * s with hW
              omega
            have hclo' : ClosureInv (JsMap.values edges)
                ((subtreePushes edges (addToSet td current) current).reverse ++ rest)
                (addToSet td current) := by
              intro v hv e he hsrc
              rcases (hmemtd' v).mp hv with hvtd | heq
              · rcases hclo v hvtd e he hsrc with h | h
                · exact Or.inl ((hmemtd' _).mpr (Or.inl h))
                · rcases List.mem_cons.mp h with heq2 | h'
                  · exact Or.inl ((hmemtd' _).mpr (Or.inr heq2))
                  · exact Or.inr (List.mem_append_right _ h')
              · by_cases htgt : e.target ∈ addToSet td current
                · exact Or.inl htgt
                · refine Or.inr (List.mem_append_left _ ?_)
                  rw [List.mem_reverse]
                  exact mem_subtreePushes.mpr ⟨e, he, heq ▸ hsrc, rfl, htgt⟩
            have hstk' : StackInv (JsMap.values edges)
                ((subtreePushes edges (addToSet td current) current).reverse ++ rest)
                (addToSet td current) := by
              intro i v hiv hvtd e he hsrc
              rcases Nat.lt_or_ge i
                  (subtreePushes edges (addToSet td current) current).reverse.length
                  with hiP | hiP
              · exfalso
                rw [List.getElem?_append, if_pos hiP] at hiv
                rcases List.getElem?_eq_some.mp hiv with ⟨hlt, hget⟩
                have hvP : v ∈ (subtreePushes edges (addToSet td current) current).reverse :=
                  hget ▸ List.getElem_mem hlt
                rcases hPmem v hvP with ⟨_, _, _, _, hnot⟩
                exact hnot hvtd
              · have hiv' : rest[i - (subtreePushes edges (addToSet td current)
                    current).reverse.length]? = some v := by
                  rw [List.getElem?_append, if_neg (by omega)] at hiv
                  exact hiv
                rcases (hmemtd' v).mp hvtd with hvtd0 | heq
                · rcases hstk (i - (subtreePushes edges (addToSet td current)
                      current).reverse.length + 1) v
                      (by rw [List.getElem?_cons_succ]; exact hiv') hvtd0 e he hsrc
                      with h | ⟨j, hj, hjv⟩
                  · exact Or.inl ((hmemtd' _).mpr (Or.inl h))
                  · cases j with
                    | zero =>
                        rw [List.getElem?_cons_zero] at hjv
                        have heqc : e.target = current := by
                          injection hjv with h2
                          exact h2.symm
                        exact Or.inl ((hmemtd' _).mpr (Or.inr heqc))
                    | succ j' =>
                        rw [List.getElem?_cons_succ] at hjv
                        refine Or.inr ⟨(subtreePushes edges (addToSet td current)
                          current).reverse.length + j', by omega, ?_⟩
                        rw [List.getElem?_append, if_neg (by omega)]
                        have harith : (subtreePushes edges (addToSet td current)
                            current).reverse.length + j'
                            - (subtreePushes edges (addToSet td current)
                              current).reverse.length = j' := by omega
                        rw [harith]
                        exact hjv
                · by_cases htgt : e.target ∈ addToSet td current
                  · exact Or.inl htgt
                  · have htP : e.target ∈ (subtreePushes edges
                        (addToSet td current) current).reverse := by
                      rw [List.mem_reverse]
                      exact mem_subtreePushes.mpr ⟨e, he, heq ▸ hsrc, rfl, htgt⟩
                    rcases List.getElem_of_mem htP with ⟨j, hjlen, hjeq⟩
                    refine Or.inr ⟨j, by omega, ?_⟩
                    rw [List.getElem?_append, if_pos hjlen,
                      List.getElem?_eq_getElem hjlen, hjeq]
            obtain ⟨ih1, ih2, ih3⟩ := ih
              ((subtreePushes edges (addToSet td current) current).reverse ++ rest)
              (addToSet td current) hqU' heU hclo' hstk' hfuel'
            refine ⟨?_, ?_, fun v hv => ih3 v hv⟩
            · intro v hv
              exact ih1 v ((hmemtd' v).mpr (Or.inl hv))
            · intro v hv
              rcases List.mem_cons.mp hv with heq | hv'
              · exact heq ▸ ih1 current ((hmemtd' current).mpr (Or.inr rfl))
              · exact ih2 v (List.mem_append_right _ hv')

/-- `removeNode`'s worklist, at the fuel `removeNode` passes, collects
exactly the ids reachable from the start id along edges. -/
theorem collectSubtree_spec (g : Graph) (X : String) :
    ∀ y, y ∈ collectSubtree g.edges
        ((g.edges.length + 2) * (g.edges.length + 2)) [X] []
      ↔ ReachesEdge (JsMap.values g.edges) X y := by
  have hvlen : (JsMap.values g.edges).length = g.edges.length := by
    unfold JsMap.values
    exact List.length_map _ _
  intro y
  constructor
  · intro hy
    refine collectSubtree_sound g.edges (ReachesEdge (JsMap.values g.edges) X)
      (fun v t hv hex => ReachesEdge.step hv hex) _ [X] [] ?_ ?_ y hy
    · intro v hv
      rcases List.mem_singleton.mp hv with rfl
      exact ReachesEdge.refl
    · intro v hv
      cases hv
  · intro hy
    have hcomp := collectSubtree_complete g.edges
      (insert X ((JsMap.values g.edges).map GraphEdge.target).toFinset)
      ((g.edges.length + 2) * (g.edges.length + 2)) [X] []
      (fun v hv => by
        rcases List.mem_singleton.mp hv with rfl
        exact Finset.mem_insert_self _ _)
      (fun e he => Finset.mem_insert_of_mem
        (List.mem_toFinset.mpr (List.mem_map_of_mem _ he)))
      (fun v hv => (List.not_mem_nil v hv).elim)
      (fun i v _ hvtd => (List.not_mem_nil v hvtd).elim)
      ?_
    · obtain ⟨_, h2, h3⟩ := hcomp
      induction hy with
      | refl => exact h2 X (List.mem_singleton_self X)
      | step hv hex ihv =>
          rcases hex with ⟨e, he, hsrc, htgt⟩
          exact htgt ▸ h3 _ ihv e he hsrc
    · -- the fuel bound
      have hUcard : (insert X ((JsMap.values g.edges).map GraphEdge.target).toFinset).card
          ≤ g.edges.length + 1 := by
        calc (insert X ((JsMap.values g.edges).map GraphEdge.target).toFinset).card
            ≤ ((JsMap.values g.edges).map GraphEdge.target).toFinset.card + 1 :=
              Finset.card_insert_le _ _
        _ ≤ ((JsMap.values g.edges).map GraphEdge.target).length + 1 := by
              have hle := List.toFinset_card_le
                ((JsMap.values g.edges).map GraphEdge.target)
              omega
        _ = g.edges.length + 1 := by rw [List.length_map, hvlen]
      have hempty : (([] : List String).toFinset : Finset String) = ∅ := rfl
      rw [hempty, Finset.sdiff_empty, hvlen]
      set E := g.edges.length with hE
      have hmul : (E + 1) * (insert X ((JsMap.values g.edges).map
          GraphEdge.target).toFinset).card ≤ (E + 1) * (E + 1) :=
        Nat.mul_le_mul_left _ hUcard
      have hring : (E + 2) * (E + 2) = (E + 1) * (E + 1) + 2 * E + 3 := by ring
      set A := (E + 1) * (E + 1) with hA
      set W := (E + 1) * (insert X ((JsMap.values g.edges).map
        GraphEdge.target).toFinset).card with hW
      rw [hring]
      simp only [List.length_singleton]
      omega

theorem find?_filter_of_imp {α : Type} (l : List α) (pr keep : α → Bool)
    (h : ∀ a ∈ l, pr a = true → keep a = true) :
    (l.filter keep).find? pr = l.find? pr := by
  induction l with
  | nil => rfl
  | cons a t ih =>
      have ih' := ih (fun x hx => h x (List.mem_cons_of_mem _ hx))
      by_cases hpr : pr a = true
      · rw [List.filter_cons, if_pos (h a (List.mem_cons_self _ _) hpr)]
        rw [List.find?_cons_of_pos _ hpr, List.find?_cons_of_pos _ hpr]
      · have hpr' : pr a = false := by
          cases hv : pr a
          · rfl
          · exact absurd hv hpr
        rw [List.filter_cons]
        cases hkeep : keep a
        · rw [if_neg (by simp)]
          rw [ih', List.find?_cons_of_neg _ (by simp [hpr'])]
        · rw [if_pos rfl]
          rw [List.find?_cons_of_neg _ (by simp [hpr']),
            List.find?_cons_of_neg _ (by simp [hpr'])]
          exact ih'

/-- C5: for a Graph containing the node `X`, `removeNode g X` (i) keeps a
node entry iff its id is not reachable from `X` along edges (so the node
set is exactly the old one minus `X` and its transitive descendants),
(ii) keeps no edge whose source or target is a removed (reachable) id,
and (iii) leaves every node outside the removed subtree unchanged. -/
theorem removeNode_cascade (g : Graph) (X : String)
    (hX : JsMap.hasKey g.nodes X = true) :
    (∀ p : String × GraphNode, p ∈ (removeNode g X).nodes
        ↔ p ∈ g.nodes ∧ ¬ ReachesEdge (JsMap.values g.edges) X p.1)
    ∧ (∀ q ∈ (removeNode g X).edges,
        ¬ ReachesEdge (JsMap.values g.edges) X q.2.source
          ∧ ¬ ReachesEdge (JsMap.values g.edges) X q.2.target)
    ∧ (∀ k : String, ¬ ReachesEdge (JsMap.values g.edges) X k →
        JsMap.get? (removeNode g X).nodes k = JsMap.get? g.nodes k) := by
  have hspec := collectSubtree_spec g X
  have hnred : (removeNode g X).nodes
      = g.nodes.filter (fun p => !((collectSubtree g.edges
          ((g.edges.length + 2) * (g.edges.length + 2)) [X] []).contains p.1)) := rfl
  have hered : (removeNode g X).edges
      = g.edges.filter (fun p => !((collectSubtree g.edges
          ((g.edges.length + 2) * (g.edges.length + 2)) [X] []).contains p.2.source)
          && !((collectSubtree g.edges
          ((g.edges.length + 2) * (g.edges.length + 2)) [X] []).contains p.2.target)) := rfl
  refine ⟨?_, ?_, ?_⟩
  · intro p
    rw [hnred, List.mem_filter]
    constructor
    · rintro ⟨hp, hc⟩
      refine ⟨hp, fun hreach => ?_⟩
      have hmem : p.1 ∈ collectSubtree g.edges
          ((g.edges.length + 2) * (g.edges.length + 2)) [X] [] :=
        (hspec p.1).mpr hreach
      simp [hmem] at hc
    · rintro ⟨hp, hnreach⟩
      refine ⟨hp, ?_⟩
      have hmem : p.1 ∉ collectSubtree g.edges
          ((g.edges.length + 2) * (g.edges.length + 2)) [X] [] :=
        fun h => hnreach ((hspec p.1).mp h)
      simp [hmem]
  · intro q hq
    rw [hered, List.mem_filter] at hq
    obtain ⟨_, hq2⟩ := hq
    rw [Bool.and_eq_true] at hq2
    constructor
    · intro hreach
      have hmem : q.2.source ∈ collectSubtree g.edges
          ((g.edges.length + 2) * (g.edges.length + 2)) [X] [] :=
        (hspec _).mpr hreach
      have := hq2.1
      simp [hmem] at this
    · intro hreach
      have hmem : q.2.target ∈ collectSubtree g.edges
          ((g.edges.length + 2) * (g.edges.length + 2)) [X] [] :=
        (hspec _).mpr hreach
      have := hq2.2
      simp [hmem] at this
  · intro k hnreach
    have hk : k ∉ collectSubtree g.edges
        ((g.edges.length + 2) * (g.edges.length + 2)) [X] [] :=
      fun h => hnreach ((hspec k).mp h)
    rw [hnred]
    unfold JsMap.get?
    rw [find?_filter_of_imp]
    intro a _ hpr
    have hak : a.1 = k := by simpa using hpr
    simp [hak, hk]

/-- C5 witness: the cascade characterization applied to the concrete
three-node chain at its middle node. -/
theorem removeNode_cascade_witness :
    JsMap.hasKey chainGraph.nodes "c1" = true
      ∧ ((∀ p : String × GraphNode, p ∈ (removeNode chainGraph "c1").nodes
            ↔ p ∈ chainGraph.nodes
              ∧ ¬ ReachesEdge (JsMap.values chainGraph.edges) "c1" p.1)
        ∧ (∀ q ∈ (removeNode chainGraph "c1").edges,
            ¬ ReachesEdge (JsMap.values chainGraph.edges) "c1" q.2.source
              ∧ ¬ ReachesEdge (JsMap.values chainGraph.edges) "c1" q.2.target)
        ∧ (∀ k : String, ¬ ReachesEdge (JsMap.values chainGraph.edges) "c1" k →
            JsMap.get? (removeNode chainGraph "c1").nodes k
              = JsMap.get? chainGraph.nodes k)) :=
  ⟨by decide, removeNode_cascade chainGraph "c1" (by decide)⟩

/-- C3 witness: the round trip at the concrete three-node chain graph. -/
theorem serialize_roundtrip_witness :
    KeyedBy GraphNode.id chainGraph.nodes
    ∧ (deserializeGraph (serializeGraph chainGraph) = chainGraph
        ∧ ∀ q : String × GraphEdge,
            q ∈ (deserializeGraph
                  { nodes := (serializeGraph chainGraph).nodes, edges := [] }).edges
              ↔ q ∈ chainGraph.edges) :=
  ⟨⟨by decide, by decide⟩,
   serialize_roundtrip chainGraph ⟨by decide, by decide⟩ ⟨by decide, by decide⟩
     (by decide) (by decide)⟩

/- ============================================================
   C4 — the edge-set invariant
============================================================ -/

theorem split_at_dash : ∀ {A C X Y : List Char}, '-' ∉ A → '-' ∉ C →
    A ++ '-' :: X = C ++ '-' :: Y → A = C ∧ X = Y := by
  intro A
  induction A with
  | nil =>
      intro C X Y _ hC h
      cases C with
      | nil =>
          simp only [List.nil_append] at h
          injection h with _ h2
          exact ⟨rfl, h2⟩
      | cons c C' =>
          simp only [List.nil_append, List.cons_append] at h
          injection h with h1 _
          exact absurd (by rw [h1]; exact List.mem_cons_self c C') hC
  | cons a A' ih =>
      intro C X Y hA hC h
      cases C with
      | nil =>
          simp only [List.cons_append, List.nil_append] at h
          injection h with h1 _
          exact absurd (by rw [← h1]; exact List.mem_cons_self a A') hA
      | cons c C' =>
          simp only [List.cons_append] at h
          injection h with h1 h2
          have hA' : '-' ∉ A' := fun hx => hA (List.mem_cons_of_mem a hx)
          have hC' : '-' ∉ C' := fun hx => hC (List.mem_cons_of_mem c hx)
          obtain ⟨hAC, hXY⟩ := ih hA' hC' h2
          exact ⟨by rw [h1, hAC], hXY⟩

/-- With dash-free source ids, the deterministic edge id determines both
endpoints. -/
theorem edgeIdFor_inj {a x c y : String} (ha : noDash a) (hc : noDash c)
    (h : edgeIdFor a x = edgeIdFor c y) : a = c ∧ x = y := by
  have hd := congrArg String.data h
  unfold edgeIdFor at hd
  rw [String.data_append, String.data_append, String.data_append,
    String.data_append] at hd
  have harr : ("->" : String).data = ['-', '>'] := rfl
  rw [harr, List.append_assoc, List.append_assoc] at hd
  simp only [List.cons_append, List.nil_append] at hd
  obtain ⟨h1, h2⟩ := split_at_dash ha hc hd
  refine ⟨String.ext h1, ?_⟩
  injection h2 with _ h3
  exact String.ext h3

theorem get?_eq_some_mem {α : Type} {m : JsMap α} {k : String} {v : α}
    (h : JsMap.get? m k = some v) : (k, v) ∈ m := by
  unfold JsMap.get? at h
  rcases Option.map_eq_some'.mp h with ⟨p, hp, hsnd⟩
  obtain ⟨p1, p2⟩ := p
  have hmem := List.mem_of_find?_eq_some hp
  have hpred := List.find?_some hp
  have hk : p1 = k := by simpa using hpred
  have hv : p2 = v := hsnd
  subst hk
  subst hv
  exact hmem

/-- Membership in `set` when the key is already present (in-place
replacement). -/
theorem mem_set_present {α : Type} {m : JsMap α} {k : String} (v : α)
    (hk : JsMap.hasKey m k = true) {k' : String} {w : α} :
    (k', w) ∈ JsMap.set m k v ↔ ((k' = k ∧ w = v) ∨ ((k', w) ∈ m ∧ k' ≠ k)) := by
  unfold JsMap.set
  rw [if_pos (show (m.any fun p => p.1 == k) = true from hk)]
  constructor
  · intro h
    rcases List.mem_map.mp h with ⟨q, hq, heq⟩
    by_cases hqk : q.1 = k
    · rw [if_pos (by simp [hqk])] at heq
      exact Or.inl ⟨(congrArg Prod.fst heq).symm, (congrArg Prod.snd heq).symm⟩
    · rw [if_neg (by simp [hqk])] at heq
      subst heq
      exact Or.inr ⟨hq, hqk⟩
  · rintro (⟨rfl, rfl⟩ | ⟨hm, hne⟩)
    · rcases (hasKey_iff m k').mp hk with ⟨q, hq, hqk⟩
      refine List.mem_map.mpr ⟨q, hq, ?_⟩
      rw [if_pos (by simp [hqk])]
    · refine List.mem_map.mpr ⟨(k', w), hm, ?_⟩
      rw [if_neg (by simp [hne])]

/-- `set` on a present key keeps the key sequence unchanged. -/
theorem keys_set_present {α : Type} (m : JsMap α) (k : String) (v : α)
    (hk : JsMap.hasKey m k = true) :
    (JsMap.set m k v).map Prod.fst = m.map Prod.fst := by
  unfold JsMap.set
  rw [if_pos (show (m.any fun p => p.1 == k) = true from hk), List.map_map]
  apply List.map_congr_left
  intro q _
  by_cases hqk : q.1 = k
  · show (if q.1 == k then (k, v) else q).1 = q.1
    rw [if_pos (by simp [hqk]), hqk]
  · show (if q.1 == k then (k, v) else q).1 = q.1
    rw [if_neg (by simp [hqk])]

theorem keyedBy_set_present {α : Type} {f : α → String} {m : JsMap α}
    {k : String} {v : α} (h : KeyedBy f m) (hk : JsMap.hasKey m k = true)
    (hv : f v = k) : KeyedBy f (JsMap.set m k v) := by
  refine ⟨by rw [keys_set_present m k v hk]; exact h.1, ?_⟩
  intro p hp
  obtain ⟨pk, pv⟩ := p
  rcases (mem_set_present v hk).mp hp with ⟨rfl, rfl⟩ | ⟨hm, _⟩
  · exact hv.symm
  · exact h.2 _ hm

theorem keyedBy_append_fresh {α : Type} {f : α → String} {m : JsMap α}
    {k : String} {v : α} (h : KeyedBy f m) (hk : JsMap.hasKey m k = false)
    (hv : f v = k) : KeyedBy f (m ++ [(k, v)]) := by
  constructor
  · rw [List.map_append, List.nodup_append]
    refine ⟨h.1, by simp, ?_⟩
    intro x hx hx2
    have hxk : x = k := by simpa using hx2
    rcases List.mem_map.mp hx with ⟨p, hp, hpx⟩
    exact (hasKey_eq_false_iff m k).mp hk p hp (hpx.trans hxk)
  · intro p hp
    rcases List.mem_append.mp hp with h1 | h1
    · exact h.2 p h1
    · rcases List.mem_singleton.mp h1 with rfl
      exact hv.symm

theorem keyedBy_filter {α : Type} {f : α → String} {m : JsMap α}
    (h : KeyedBy f m) (pred : String × α → Bool) :
    KeyedBy f (m.filter pred) := by
  constructor
  · exact h.1.sublist (List.Sublist.map Prod.fst (List.filter_sublist m))
  · intro p hp
    exact h.2 p (List.mem_filter.mp hp).1

theorem keyedBy_delete {α : Type} {f : α → String} {m : JsMap α}
    (h : KeyedBy f m) (k : String) : KeyedBy f (JsMap.delete m k) :=
  keyedBy_filter h _

theorem mem_delete {α : Type} {m : JsMap α} {k k' : String} {w : α} :
    (k', w) ∈ JsMap.delete m k ↔ ((k', w) ∈ m ∧ k' ≠ k) := by
  unfold JsMap.delete
  rw [List.mem_filter]
  simp [bne_iff_ne]

/-- Splitting the implied-edge predicate at a distinguished map entry. -/
theorem implied_entry_cases {m : JsMap GraphNode} (hnd : (m.map Prod.fst).Nodup)
    {k : String} {v0 : GraphNode} (hmem : (k, v0) ∈ m) (ke : String) (e : GraphEdge) :
    impliedPair m ke e ↔
      ((∃ q, v0.parentId = some q ∧ q ≠ "" ∧ ke = edgeIdFor q v0.id ∧ e = mkEdge q v0.id)
        ∨ otherImplied m k ke e) := by
  constructor
  · rintro ⟨p, hp, q, hq, hne, hke, he⟩
    by_cases hpk : p.1 = k
    · left
      obtain ⟨p1, p2⟩ := p
      have hp2 : p2 = v0 := keyed_mem_unique hnd (hpk ▸ hp) hmem
      subst hp2
      exact ⟨q, hq, hne, hke, he⟩
    · exact Or.inr ⟨p, hp, hpk, q, hq, hne, hke, he⟩
  · rintro (⟨q, hq, hne, hke, he⟩ | ⟨p, hp, _, q, hq, hne, hke, he⟩)
    · exact ⟨(k, v0), hmem, q, hq, hne, hke, he⟩
    · exact ⟨p, hp, q, hq, hne, hke, he⟩

/-- Splitting the implied-edge predicate after replacing the entry keyed
`k`. -/
theorem implied_set_cases {m : JsMap GraphNode} {k : String} (newv : GraphNode)
    (hk : JsMap.hasKey m k = true) (ke : String) (e : GraphEdge) :
    impliedPair (JsMap.set m k newv) ke e ↔
      ((∃ q, newv.parentId = some q ∧ q ≠ ""
          ∧ ke = edgeIdFor q newv.id ∧ e = mkEdge q newv.id)
        ∨ otherImplied m k ke e) := by
  constructor
  · rintro ⟨p, hp, q, hq, hne, hke, he⟩
    obtain ⟨p1, p2⟩ := p
    rcases (mem_set_present newv hk).mp hp with ⟨rfl, rfl⟩ | ⟨hm, hpk⟩
    · exact Or.inl ⟨q, hq, hne, hke, he⟩
    · exact Or.inr ⟨(p1, p2), hm, hpk, q, hq, hne, hke, he⟩
  · rintro (⟨q, hq, hne, hke, he⟩ | ⟨p, hp, hpk, q, hq, hne, hke, he⟩)
    · exact ⟨(k, newv), (mem_set_present newv hk).mpr (Or.inl ⟨rfl, rfl⟩),
        q, hq, hne, hke, he⟩
    · obtain ⟨p1, p2⟩ := p
      exact ⟨(p1, p2), (mem_set_present newv hk).mpr (Or.inr ⟨hp, hpk⟩),
        q, hq, hne, hke, he⟩

theorem implied_set_of_truthy {m : JsMap GraphNode} {k : String}
    {newv : GraphNode} {p : String}
    (hk : JsMap.hasKey m k = true) (hp : newv.parentId = some p) (hpe : p ≠ "")
    (ke : String) (e : GraphEdge) :
    impliedPair (JsMap.set m k newv) ke e
      ↔ ((ke = edgeIdFor p newv.id ∧ e = mkEdge p newv.id)
          ∨ otherImplied m k ke e) := by
  rw [implied_set_cases newv hk]
  constructor
  · rintro (⟨q, hq, hqe, hke, he⟩ | hother)
    · rw [hp] at hq
      injection hq with hq
      subst hq
      exact Or.inl ⟨hke, he⟩
    · exact Or.inr hother
  · rintro (⟨hke, he⟩ | hother)
    · exact Or.inl ⟨p, hp, hpe, hke, he⟩
    · exact Or.inr hother

theorem implied_set_of_falsy {m : JsMap GraphNode} {k : String} {newv : GraphNode}
    (hk : JsMap.hasKey m k = true) (hf : strTruthy newv.parentId = false)
    (ke : String) (e : GraphEdge) :
    impliedPair (JsMap.set m k newv) ke e ↔ otherImplied m k ke e := by
  rw [implied_set_cases newv hk]
  constructor
  · rintro (⟨q, hq, hqe, hke, he⟩ | hother)
    · exfalso
      rw [hq] at hf
      simp [strTruthy] at hf
      exact hqe hf
    · exact hother
  · exact Or.inr

/-- Deleting the old parent edge of the entry keyed `nodeId` leaves
exactly the edges implied by the other nodes. -/
theorem delete_old_edge_spec {g : Graph} {nodeId : String} {existing : GraphNode}
    {oldP : String}
    (hkN : KeyedBy GraphNode.id g.nodes)
    (hdP : ∀ p ∈ g.nodes, ∀ q, p.2.parentId = some q → q ≠ "" → noDash q)
    (hImp : ∀ ke e, (ke, e) ∈ g.edges ↔ impliedPair g.nodes ke e)
    (hmemN : (nodeId, existing) ∈ g.nodes)
    (hex : existing.parentId = some oldP) (hoe : oldP ≠ "") :
    ∀ ke e, (ke, e) ∈ JsMap.delete g.edges (edgeIdFor oldP nodeId)
      ↔ otherImplied g.nodes nodeId ke e := by
  intro ke e
  rw [mem_delete, hImp ke e, implied_entry_cases hkN.1 hmemN]
  constructor
  · rintro ⟨hor, hne⟩
    rcases hor with ⟨q, hq, _, hke, _⟩ | hother
    · exfalso
      rw [hex] at hq
      injection hq with hq
      subst hq
      have hid : nodeId = existing.id := hkN.2 (nodeId, existing) hmemN
      rw [← hid] at hke
      exact hne hke
    · exact hother
  · intro hother
    refine ⟨Or.inr hother, ?_⟩
    rcases hother with ⟨p, hp, hpk, q, hq, hqe, hke, _⟩
    intro hkeq
    rw [hkeq] at hke
    have hdq : noDash q := hdP p hp q hq hqe
    have hdold : noDash oldP := hdP (nodeId, existing) hmemN oldP hex hoe
    obtain ⟨_, h2⟩ := edgeIdFor_inj hdold hdq hke
    exact hpk ((hkN.2 p hp).trans h2.symm)

/-- When the entry keyed `nodeId` has a falsy `parentId`, the edge map is
exactly the edges implied by the other nodes. -/
theorem falsy_old_edge_spec {g : Graph} {nodeId : String} {existing : GraphNode}
    (hkN : KeyedBy GraphNode.id g.nodes)
    (hImp : ∀ ke e, (ke, e) ∈ g.edges ↔ impliedPair g.nodes ke e)
    (hmemN : (nodeId, existing) ∈ g.nodes)
    (hfx : strTruthy existing.parentId = false) :
    ∀ ke e, (ke, e) ∈ g.edges ↔ otherImplied g.nodes nodeId ke e := by
  intro ke e
  rw [hImp ke e, implied_entry_cases hkN.1 hmemN]
  constructor
  · rintro (⟨q, hq, hqe, _, _⟩ | hother)
    · exfalso
      rw [hq] at hfx
      simp [strTruthy] at hfx
      exact hqe hfx
    · exact hother
  · exact Or.inr

/-- The rewired parent-edge id is fresh in any edge map containing only
edges implied by the other nodes. -/
theorem newEdge_fresh {g : Graph} {nodeId p : String} {E1 : JsMap GraphEdge}
    (hkN : KeyedBy GraphNode.id g.nodes)
    (hdP : ∀ pp ∈ g.nodes, ∀ q, pp.2.parentId = some q → q ≠ "" → noDash q)
    (hE1 : ∀ ke e, (ke, e) ∈ E1 ↔ otherImplied g.nodes nodeId ke e)
    (hdp : noDash p) :
    JsMap.hasKey E1 (edgeIdFor p nodeId) = false := by
  cases hk : JsMap.hasKey E1 (edgeIdFor p nodeId) with
  | false => rfl
  | true =>
      exfalso
      rcases (hasKey_iff _ _).mp hk with ⟨q0, hq0, hq0k⟩
      obtain ⟨ke0, e0⟩ := q0
      rcases (hE1 ke0 e0).mp hq0 with ⟨pp, hpp, hppk, q, hq, hqe, hke, _⟩
      have hq0k' : ke0 = edgeIdFor p nodeId := hq0k
      obtain ⟨_, h2⟩ := edgeIdFor_inj hdp (hdP pp hpp q hq hqe)
        (hq0k'.symm.trans hke)
      exact hppk ((hkN.2 pp hpp).trans h2.symm)

theorem graphInv_create : GraphInv createGraph := by
  refine ⟨⟨?_, ?_⟩, ⟨?_, ?_⟩, ?_, ?_, ?_⟩ <;>
    simp [createGraph, impliedPair]

theorem graphInv_add {g g' : Graph} {n : GraphNode} (hg : GraphInv g)
    (hfresh : JsMap.hasKey g.nodes n.id = false) (hdash : noDash n.id)
    (hok : addNode g n = .ok g') : GraphInv g' := by
  obtain ⟨hkN, hkE, hdN, hdP, hImp⟩ := hg
  unfold addNode at hok
  by_cases hguard :
      (strTruthy n.parentId && !(JsMap.hasKey g.nodes (n.parentId.getD ""))) = true
  · rw [if_pos hguard] at hok
    exact Except.noConfusion hok
  · rw [if_neg hguard] at hok
    injection hok with hok
    subst hok
    cases hpid : n.parentId with
    | none =>
        simp only [hpid]
        rw [set_fresh g.nodes n.id n hfresh]
        refine ⟨keyedBy_append_fresh hkN hfresh rfl, hkE, ?_, ?_, ?_⟩
        · intro p hp
          rcases List.mem_append.mp hp with h1 | h1
          · exact hdN p h1
          · rcases List.mem_singleton.mp h1 with rfl
            exact hdash
        · intro p hp q hq hne
          rcases List.mem_append.mp hp with h1 | h1
          · exact hdP p h1 q hq hne
          · rcases List.mem_singleton.mp h1 with rfl
            simp only [hpid] at hq
            exact Option.noConfusion hq
        · intro ke e
          rw [hImp ke e]
          constructor
          · rintro ⟨p, hp, q, hq, hne, hke, he⟩
            exact ⟨p, List.mem_append_left _ hp, q, hq, hne, hke, he⟩
          · rintro ⟨p, hp, q, hq, hne, hke, he⟩
            rcases List.mem_append.mp hp with h1 | h1
            · exact ⟨p, h1, q, hq, hne, hke, he⟩
            · rcases List.mem_singleton.mp h1 with rfl
              simp only [hpid] at hq
              exact Option.noConfusion hq
    | some p =>
        by_cases hpe : p = ""
        · subst hpe
          simp only [hpid]
          rw [if_neg (by decide)]
          rw [set_fresh g.nodes n.id n hfresh]
          refine ⟨keyedBy_append_fresh hkN hfresh rfl, hkE, ?_, ?_, ?_⟩
          · intro pp hpp
            rcases List.mem_append.mp hpp with h1 | h1
            · exact hdN pp h1
            · rcases List.mem_singleton.mp h1 with rfl
              exact hdash
          · intro pp hpp q hq hne
            rcases List.mem_append.mp hpp with h1 | h1
            · exact hdP pp h1 q hq hne
            · rcases List.mem_singleton.mp h1 with rfl
              simp only [hpid] at hq
              injection hq with hq
              exact absurd hq.symm hne
          · intro ke e
            rw [hImp ke e]
            constructor
            · rintro ⟨pp, hpp, q, hq, hne, hke, he⟩
              exact ⟨pp, List.mem_append_left _ hpp, q, hq, hne, hke, he⟩
            · rintro ⟨pp, hpp, q, hq, hne, hke, he⟩
              rcases List.mem_append.mp hpp with h1 | h1
              · exact ⟨pp, h1, q, hq, hne, hke, he⟩
              · rcases List.mem_singleton.mp h1 with rfl
                simp only [hpid] at hq
                injection hq with hq
                exact absurd hq.symm hne
        · -- truthy parent
          have hpar : JsMap.hasKey g.nodes p = true := by
            cases hk : JsMap.hasKey g.nodes p with
            | true => rfl
            | false =>
                exfalso
                apply hguard
                rw [hpid]
                simp [strTruthy, hpe, hk]
          have hpnodash : noDash p := by
            rcases (hasKey_iff _ _).mp hpar with ⟨pp, hpp, hppk⟩
            exact hppk ▸ hdN pp hpp
          have hefresh : JsMap.hasKey g.edges (edgeIdFor p n.id) = false := by
            cases hk : JsMap.hasKey g.edges (edgeIdFor p n.id) with
            | false => rfl
            | true =>
                exfalso
                rcases (hasKey_iff _ _).mp hk with ⟨q0, hq0, hq0k⟩
                obtain ⟨ke0, e0⟩ := q0
                rcases (hImp ke0 e0).mp hq0 with ⟨p', hp', q', hq', hne', hke', _⟩
                obtain ⟨_, hid⟩ := edgeIdFor_inj (hdP p' hp' q' hq' hne') hpnodash
                  (hke'.symm.trans hq0k)
                have hkey : JsMap.hasKey g.nodes n.id = true :=
                  (hasKey_iff _ _).mpr ⟨p', hp', (hkN.2 p' hp').trans hid⟩
                rw [hfresh] at hkey
                exact Bool.noConfusion hkey
          simp only [hpid]
          rw [if_pos (by simp [hpe])]
          rw [set_fresh g.nodes n.id n hfresh, set_fresh g.edges _ _ hefresh]
          refine ⟨keyedBy_append_fresh hkN hfresh rfl,
            keyedBy_append_fresh hkE hefresh rfl, ?_, ?_, ?_⟩
          · intro pp hpp
            rcases List.mem_append.mp hpp with h1 | h1
            · exact hdN pp h1
            · rcases List.mem_singleton.mp h1 with rfl
              exact hdash
          · intro pp hpp q hq hne
            rcases List.mem_append.mp hpp with h1 | h1
            · exact hdP pp h1 q hq hne
            · rcases List.mem_singleton.mp h1 with rfl
              simp only [hpid] at hq
              injection hq with hq
              subst hq
              exact hpnodash
          · intro ke e
            constructor
            · intro hmem
              rcases List.mem_append.mp hmem with h1 | h1
              · rcases (hImp ke e).mp h1 with ⟨pp, hpp, q, hq, hne, hke, he⟩
                exact ⟨pp, List.mem_append_left _ hpp, q, hq, hne, hke, he⟩
              · rcases List.mem_singleton.mp h1 with h1
                have hke : ke = edgeIdFor p n.id := congrArg Prod.fst h1
                have he : e = mkEdge p n.id := congrArg Prod.snd h1
                exact ⟨(n.id, n), List.mem_append_right _ (List.mem_singleton_self _),
                  p, by simp [hpid], hpe, hke, he⟩
            · rintro ⟨pp, hpp, q, hq, hne, hke, he⟩
              rcases List.mem_append.mp hpp with h1 | h1
              · exact List.mem_append_left _
                  ((hImp ke e).mpr ⟨pp, h1, q, hq, hne, hke, he⟩)
              · rcases List.mem_singleton.mp h1 with rfl
                simp only [hpid] at hq
                injection hq with hq
                subst hq
                refine List.mem_append_right _ (List.mem_singleton.mpr ?_)
                rw [hke, he]

theorem graphInv_remove {g : Graph} (hg : GraphInv g) (nodeId : String) :
    GraphInv (removeNode g nodeId) := by
  obtain ⟨hkN, hkE, hdN, hdP, hImp⟩ := hg
  have hspec := collectSubtree_spec g nodeId
  have hnred : (removeNode g nodeId).nodes
      = g.nodes.filter (fun p => !((collectSubtree g.edges
          ((g.edges.length + 2) * (g.edges.length + 2)) [nodeId] []).contains p.1)) := rfl
  have hered : (removeNode g nodeId).edges
      = g.edges.filter (fun p => !((collectSubtree g.edges
          ((g.edges.length + 2) * (g.edges.length + 2)) [nodeId] []).contains p.2.source)
          && !((collectSubtree g.edges
          ((g.edges.length + 2) * (g.edges.length + 2)) [nodeId] []).contains p.2.target)) := rfl
  refine ⟨?_, ?_, ?_, ?_, ?_⟩
  · rw [hnred]
    exact keyedBy_filter hkN _
  · rw [hered]
    exact keyedBy_filter hkE _
  · rw [hnred]
    intro p hp
    exact hdN p (List.mem_filter.mp hp).1
  · rw [hnred]
    intro p hp
    exact hdP p (List.mem_filter.mp hp).1
  · intro ke e
    rw [hered, hnred]
    rw [List.mem_filter]
    constructor
    · rintro ⟨hmem, hcond⟩
      rcases (hImp ke e).mp hmem with ⟨pp, hpp, q, hq, hne, hke, he⟩
      rw [Bool.and_eq_true] at hcond
      refine ⟨pp, List.mem_filter.mpr ⟨hpp, ?_⟩, q, hq, hne, hke, he⟩
      have htgt : e.target = pp.1 := by
        rw [he]
        exact (hkN.2 pp hpp).symm
      have h2 := hcond.2
      rw [htgt] at h2
      exact h2
    · rintro ⟨pp, hpp', q, hq, hne, hke, he⟩
      rcases List.mem_filter.mp hpp' with ⟨hpp, hcond1⟩
      have hmem := (hImp ke e).mpr ⟨pp, hpp, q, hq, hne, hke, he⟩
      refine ⟨hmem, ?_⟩
      rw [Bool.and_eq_true]
      have hkey : pp.1 = pp.2.id := hkN.2 pp hpp
      have htgtn : pp.2.id ∉ collectSubtree g.edges
          ((g.edges.length + 2) * (g.edges.length + 2)) [nodeId] [] := by
        intro hmem2
        have hmem3 : pp.1 ∈ collectSubtree g.edges
            ((g.edges.length + 2) * (g.edges.length + 2)) [nodeId] [] :=
          hkey ▸ hmem2
        simp [hmem3] at hcond1
      constructor
      · have hsrc : e.source = q := by rw [he]; rfl
        rw [hsrc]
        have hqn : q ∉ collectSubtree g.edges
            ((g.edges.length + 2) * (g.edges.length + 2)) [nodeId] [] := by
          intro hqmem
          apply htgtn
          apply (hspec pp.2.id).mpr
          refine ReachesEdge.step ((hspec q).mp hqmem) ⟨e, ?_, ?_, ?_⟩
          · exact List.mem_map_of_mem Prod.snd hmem
          · rw [he]; rfl
          · rw [he]; rfl
        simp [hqn]
      · have htgt : e.target = pp.2.id := by rw [he]; rfl
        rw [htgt]
        simp [htgtn]

theorem graphInv_update {g g' : Graph} {nodeId : String} {u : NodeUpdates}
    (hg : GraphInv g) (hok : updateNode g nodeId u = .ok g') : GraphInv g' := by
  obtain ⟨hkN, hkE, hdN, hdP, hImp⟩ := hg
  unfold updateNode at hok
  cases hget : JsMap.get? g.nodes nodeId with
  | none =>
      simp only [hget] at hok
      exact Except.noConfusion hok
  | some existing =>
      simp only [hget] at hok
      have hmemN : (nodeId, existing) ∈ g.nodes := get?_eq_some_mem hget
      have hkeyTrue : JsMap.hasKey g.nodes nodeId = true := get?_some_hasKey hget
      have hidEx : nodeId = existing.id := hkN.2 (nodeId, existing) hmemN
      have hkN' : KeyedBy GraphNode.id
          (JsMap.set g.nodes nodeId (applyUpdates existing u nodeId)) :=
        keyedBy_set_present hkN hkeyTrue rfl
      have hdN' : ∀ p ∈ JsMap.set g.nodes nodeId (applyUpdates existing u nodeId),
          noDash p.1 := by
        intro p hp
        obtain ⟨p1, p2⟩ := p
        rcases (mem_set_present _ hkeyTrue).mp hp with ⟨heq1, _⟩ | ⟨hm, _⟩
        · show noDash p1
          rw [heq1]
          exact hdN (nodeId, existing) hmemN
        · exact hdN (p1, p2) hm
      have hkeyDash : ∀ x, JsMap.hasKey
          (JsMap.set g.nodes nodeId (applyUpdates existing u nodeId)) x = true →
          noDash x := by
        intro x hx
        rcases (hasKey_iff _ _).mp hx with ⟨pp, hpp, hppx⟩
        exact hppx ▸ hdN' pp hpp
      cases hup : u.parentId with
      | none =>
          simp only [hup] at hok
          injection hok with hok
          subst hok
          have hupd : (applyUpdates existing u nodeId).parentId
              = existing.parentId := by
            simp [applyUpdates, hup]
          refine ⟨hkN', hkE, hdN', ?_, ?_⟩
          · intro p hp q hq hne
            obtain ⟨p1, p2⟩ := p
            rcases (mem_set_present _ hkeyTrue).mp hp with ⟨_, heq2⟩ | ⟨hm, _⟩
            · subst heq2
              simp only [hupd] at hq
              exact hdP (nodeId, existing) hmemN q hq hne
            · exact hdP (p1, p2) hm q hq hne
          · intro ke e
            rw [hImp ke e, implied_set_cases _ hkeyTrue,
              implied_entry_cases hkN.1 hmemN]
            have hid : (applyUpdates existing u nodeId).id = existing.id := hidEx
            rw [hupd, hid]
      | some newPid =>
          simp only [hup] at hok
          have hupd : (applyUpdates existing u nodeId).parentId = newPid := by
            simp [applyUpdates, hup]
          by_cases hsame : newPid = existing.parentId
          · rw [if_pos hsame] at hok
            injection hok with hok
            subst hok
            refine ⟨hkN', hkE, hdN', ?_, ?_⟩
            · intro p hp q hq hne
              obtain ⟨p1, p2⟩ := p
              rcases (mem_set_present _ hkeyTrue).mp hp with ⟨_, heq2⟩ | ⟨hm, _⟩
              · subst heq2
                simp only [hupd] at hq
                rw [hsame] at hq
                exact hdP (nodeId, existing) hmemN q hq hne
              · exact hdP (p1, p2) hm q hq hne
            · intro ke e
              rw [hImp ke e, implied_set_cases _ hkeyTrue,
                implied_entry_cases hkN.1 hmemN]
              have hid : (applyUpdates existing u nodeId).id = existing.id := hidEx
              rw [hupd, hsame, hid]
          · rw [if_neg hsame] at hok
            -- assemble the result for a falsy new parentId over any
            -- intermediate edge map containing exactly the other edges
            have hAsmF : ∀ E1 : JsMap GraphEdge, KeyedBy GraphEdge.id E1 →
                (∀ ke e, (ke, e) ∈ E1 ↔ otherImplied g.nodes nodeId ke e) →
                strTruthy newPid = false →
                GraphInv { nodes := JsMap.set g.nodes nodeId
                            (applyUpdates existing u nodeId), edges := E1 } := by
              intro E1 hkE1 hE1 hfal
              refine ⟨hkN', hkE1, hdN', ?_, ?_⟩
              · intro p hp q hq hne
                obtain ⟨p1, p2⟩ := p
                rcases (mem_set_present _ hkeyTrue).mp hp with ⟨_, heq2⟩ | ⟨hm, _⟩
                · subst heq2
                  simp only [hupd] at hq
                  rw [hq] at hfal
                  simp [strTruthy] at hfal
                  exact absurd hfal hne
                · exact hdP (p1, p2) hm q hq hne
              · intro ke e
                rw [hE1 ke e,
                  implied_set_of_falsy hkeyTrue (by rw [hupd]; exact hfal) ke e]
            -- assemble the result for a truthy new parentId
            have hAsmT : ∀ (p : String) (E1 : JsMap GraphEdge),
                KeyedBy GraphEdge.id E1 →
                (∀ ke e, (ke, e) ∈ E1 ↔ otherImplied g.nodes nodeId ke e) →
                newPid = some p → p ≠ "" →
                JsMap.hasKey (JsMap.set g.nodes nodeId
                  (applyUpdates existing u nodeId)) p = true →
                GraphInv { nodes := JsMap.set g.nodes nodeId
                            (applyUpdates existing u nodeId),
                           edges := JsMap.set E1 (edgeIdFor p nodeId)
                            (mkEdge p nodeId) } := by
              intro p E1 hkE1 hE1 hnp hpe hbp
              have hdp : noDash p := hkeyDash p hbp
              have hfreshE : JsMap.hasKey E1 (edgeIdFor p nodeId) = false :=
                newEdge_fresh hkN hdP hE1 hdp
              rw [set_fresh E1 _ _ hfreshE]
              refine ⟨hkN', keyedBy_append_fresh hkE1 hfreshE rfl, hdN', ?_, ?_⟩
              · intro pp hpp q hq hne
                obtain ⟨p1, p2⟩ := pp
                rcases (mem_set_present _ hkeyTrue).mp hpp with ⟨_, heq2⟩ | ⟨hm, _⟩
                · subst heq2
                  simp only [hupd, hnp] at hq
                  injection hq with hq
                  subst hq
                  exact hdp
                · exact hdP (p1, p2) hm q hq hne
              · intro ke e
                constructor
                · intro hmem
                  rcases List.mem_append.mp hmem with h1 | h1
                  · exact (implied_set_of_truthy hkeyTrue
                      (by rw [hupd, hnp]) hpe ke e).mpr
                      (Or.inr ((hE1 ke e).mp h1))
                  · rcases List.mem_singleton.mp h1 with h1
                    have hke : ke = edgeIdFor p nodeId := congrArg Prod.fst h1
                    have he : e = mkEdge p nodeId := congrArg Prod.snd h1
                    exact (implied_set_of_truthy hkeyTrue
                      (by rw [hupd, hnp]) hpe ke e).mpr (Or.inl ⟨hke, he⟩)
                · intro himplied
                  rcases (implied_set_of_truthy hkeyTrue
                      (by rw [hupd, hnp]) hpe ke e).mp himplied with
                    ⟨hke, he⟩ | hother
                  · refine List.mem_append_right _ (List.mem_singleton.mpr ?_)
                    rw [hke, he]
                    rfl
                  · exact List.mem_append_left _ ((hE1 ke e).mpr hother)
            -- dispatch on the old parentId to pick the intermediate edge
            -- map, then on the new parentId to finish
            have hdisp : ∀ E1 : JsMap GraphEdge, KeyedBy GraphEdge.id E1 →
                (∀ ke e, (ke, e) ∈ E1 ↔ otherImplied g.nodes nodeId ke e) →
                ∀ hok2 : (match newPid with
                  | some p =>
                      if p != "" then
                        if !(JsMap.hasKey (JsMap.set g.nodes nodeId
                            (applyUpdates existing u nodeId)) p) then
                          (Except.error
                            { name := .error,
                              message := "updateNode: new parentId \"" ++ p
                                ++ "\" does not exist" } : Except JsError Graph)
                        else
                          Except.ok
                            { nodes := JsMap.set g.nodes nodeId
                                          (applyUpdates existing u nodeId),
                              edges := JsMap.set E1 (edgeIdFor p nodeId)
                                          (mkEdge p nodeId) }
                      else
                        Except.ok
                          { nodes := JsMap.set g.nodes nodeId
                                        (applyUpdates existing u nodeId),
                            edges := E1 }
                  | none =>
                      Except.ok
                        { nodes := JsMap.set g.nodes nodeId
                                      (applyUpdates existing u nodeId),
                          edges := E1 }) = Except.ok g',
                GraphInv g' := by
              intro E1 hkE1 hE1 hok2
              cases hnp : newPid with
              | none =>
                  simp only [hnp] at hok2
                  injection hok2 with hok2
                  subst hok2
                  exact hAsmF E1 hkE1 hE1 (by rw [hnp]; rfl)
              | some p =>
                  by_cases hpe : p = ""
                  · subst hpe
                    simp only [hnp] at hok2
                    rw [if_neg (by decide)] at hok2
                    injection hok2 with hok2
                    subst hok2
                    exact hAsmF E1 hkE1 hE1 (by rw [hnp]; rfl)
                  · simp only [hnp] at hok2
                    rw [if_pos (by simp [hpe])] at hok2
                    cases hbp : JsMap.hasKey (JsMap.set g.nodes nodeId
                        (applyUpdates existing u nodeId)) p with
                    | false =>
                        rw [hbp] at hok2
                        rw [if_pos (by decide)] at hok2
                        exact Except.noConfusion hok2
                    | true =>
                        rw [hbp] at hok2
                        rw [if_neg (by decide)] at hok2
                        injection hok2 with hok2
                        subst hok2
                        exact hAsmT p E1 hkE1 hE1 hnp hpe hbp
            cases hex : existing.parentId with
            | none =>
                simp only [hex] at hok
                exact hdisp g.edges hkE
                  (falsy_old_edge_spec hkN hImp hmemN (by rw [hex]; rfl)) hok
            | some oldP =>
                by_cases hoe : oldP = ""
                · subst hoe
                  simp only [hex] at hok
                  rw [if_neg (by decide)] at hok
                  exact hdisp g.edges hkE
                    (falsy_old_edge_spec hkN hImp hmemN (by rw [hex]; rfl)) hok
                · simp only [hex] at hok
                  rw [if_pos (by simp [hoe])] at hok
                  exact hdisp (JsMap.delete g.edges (edgeIdFor oldP nodeId))
                    (keyedBy_delete hkE _)
                    (delete_old_edge_spec hkN hdP hImp hmemN hex hoe) hok

/-- Every graph reachable by fresh dash-free additions, removals, and
updates satisfies the structural invariant. -/
theorem reachableFresh_inv {g : Graph} (h : ReachableFresh g) : GraphInv g := by
  induction h with
  | init => exact graphInv_create
  | add _ hfresh hdash hok ih => exact graphInv_add ih hfresh hdash hok
  | remove nodeId _ ih => exact graphInv_remove ih nodeId
  | update _ hok ih => exact graphInv_update ih hok

/-- C4 counterexample: the invariant as claimed (over every sequence of
successful calls, with the non-`null` reading of `parentId`) fails.
Adding node `c` with parent `a` and then again with parent `b` succeeds
twice, overwrites the node entry, and leaves the stale edge `a->c` in the
map, which no node's `parentId` implies any more. -/
theorem edge_invariant_counterexample :
    Except.map edgeInvNonNullB (runOps
      [GraphOp.add (exNode "a" none), GraphOp.add (exNode "b" none),
       GraphOp.add (exNode "c" (some "a")), GraphOp.add (exNode "c" (some "b"))])
      = .ok false := rfl

/-- C4 (amended): for every Graph reachable from `createGraph()` by
successful `addNode`, `removeNode` and `updateNode` calls in which every
added node has a fresh, dash-free id, the edge map is exactly the set of
edges implied by the nodes' truthy `parentId` fields: an entry `(ke, e)`
is present iff some node `p` with `parentId = some q`, `q ≠ ""`, induces
it, with `ke = "q->id"` and `e` the corresponding edge object. -/
theorem edge_invariant_fresh (g : Graph) (h : ReachableFresh g) :
    ∀ ke e, (ke, e) ∈ g.edges ↔
      ∃ p ∈ g.nodes, ∃ q, p.2.parentId = some q ∧ q ≠ ""
        ∧ ke = edgeIdFor q p.2.id ∧ e = mkEdge q p.2.id :=
  (reachableFresh_inv h).2.2.2.2

/-- C4 witness: the amended invariant at the concrete three-node chain,
built by three fresh `addNode` calls, evaluated at its first edge entry. -/
theorem edge_invariant_fresh_witness :
    ("r->c1", mkEdge "r" "c1") ∈ chainGraph.edges ↔
      ∃ p ∈ chainGraph.nodes, ∃ q, p.2.parentId = some q ∧ q ≠ ""
        ∧ "r->c1" = edgeIdFor q p.2.id ∧ mkEdge "r" "c1" = mkEdge q p.2.id := by
  have h0 : ReachableFresh createGraph := ReachableFresh.init
  have h1 : ReachableFresh gFr1 :=
    @ReachableFresh.add createGraph gFr1 (exNode "r" none) h0 (by decide)
      (by unfold noDash; decide) rfl
  have h2 : ReachableFresh gFr2 :=
    @ReachableFresh.add gFr1 gFr2 (exNode "c1" (some "r")) h1 (by decide)
      (by unfold noDash; decide) rfl
  have h3 : ReachableFresh chainGraph :=
    @ReachableFresh.add gFr2 chainGraph (exNode "c2" (some "c1")) h2 (by decide)
      (by unfold noDash; decide) rfl
  exact edge_invariant_fresh chainGraph h3 "r->c1" (mkEdge "r" "c1")

/- ============================================================
   C7 — hydrate
============================================================ -/

theorem get?_eq_of_mem {α : Type} {m : JsMap α} (hnd : (m.map Prod.fst).Nodup)
    {k : String} {v : α} (hmem : (k, v) ∈ m) : JsMap.get? m k = some v := by
  induction m with
  | nil => cases hmem
  | cons p rest ih =>
      obtain ⟨pk, pv⟩ := p
      rcases List.mem_cons.mp hmem with heq | hmem'
      · have hk : pk = k := (congrArg Prod.fst heq).symm
        have hv : pv = v := (congrArg Prod.snd heq).symm
        unfold JsMap.get?
        rw [List.find?_cons_of_pos _ (by simp [hk])]
        simp [hv]
      · have hne : pk ≠ k := by
          intro hEq
          have h1 : pk ∈ rest.map Prod.fst :=
            hEq ▸ List.mem_map_of_mem Prod.fst hmem'
          exact (List.nodup_cons.mp hnd).1 h1
        unfold JsMap.get?
        rw [List.find?_cons_of_neg _ (by simp [hne])]
        exact ih (List.nodup_cons.mp hnd).2 hmem'

theorem selfKeys_eq {nodes : List GraphNode} :
    (nodes.map (fun n => (n.id, n))).map Prod.fst = nodes.map GraphNode.id := by
  rw [List.map_map]
  rfl

theorem get?_map_self_of_mem {nodes : List GraphNode}
    (hnd : (nodes.map GraphNode.id).Nodup) {n : GraphNode} (hmem : n ∈ nodes) :
    JsMap.get? (nodes.map (fun n => (n.id, n))) n.id = some n := by
  apply get?_eq_of_mem
  · rw [selfKeys_eq]
    exact hnd
  · exact List.mem_map_of_mem _ hmem

theorem nodup_id_inj {nodes : List GraphNode} (hnd : (nodes.map GraphNode.id).Nodup)
    {a b : GraphNode} (ha : a ∈ nodes) (hb : b ∈ nodes) (hid : a.id = b.id) :
    a = b :=
  List.inj_on_of_nodup_map hnd ha hb hid

theorem find?_replace_self {α : Type} (k : String) (v : α) :
    ∀ m : JsMap α, (m.any fun p => p.1 == k) = true →
      (m.map (fun p => if p.1 == k then (k, v) else p)).find? (fun p => p.1 == k)
        = some (k, v) := by
  intro m
  induction m with
  | nil =>
      intro h
      exact absurd h (by simp)
  | cons p rest ih =>
      intro h
      rw [List.map_cons]
      by_cases hpk : p.1 = k
      · rw [if_pos (by simp [hpk]), List.find?_cons_of_pos _ (by simp)]
      · rw [if_neg (by simp [hpk]), List.find?_cons_of_neg _ (by simp [hpk])]
        apply ih
        rw [List.any_cons] at h
        simpa [hpk] using h

theorem find?_replace_ne {α : Type} (k : String) (v : α) {k' : String}
    (hne : k' ≠ k) :
    ∀ m : JsMap α,
      (m.map (fun p => if p.1 == k then (k, v) else p)).find? (fun p => p.1 == k')
        = m.find? (fun p => p.1 == k') := by
  intro m
  induction m with
  | nil => rfl
  | cons p rest ih =>
      rw [List.map_cons]
      by_cases hpk : p.1 = k
      · rw [if_pos (by simp [hpk])]
        rw [List.find?_cons_of_neg _ (by simp [Ne.symm hne])]
        rw [List.find?_cons_of_neg _ (by simp [hpk, Ne.symm hne])]
        exact ih
      · rw [if_neg (by simp [hpk])]
        by_cases hpk' : p.1 = k'
        · rw [List.find?_cons_of_pos _ (by simp [hpk']),
            List.find?_cons_of_pos _ (by simp [hpk'])]
        · rw [List.find?_cons_of_neg _ (by simp [hpk']),
            List.find?_cons_of_neg _ (by simp [hpk'])]
          exact ih

theorem get?_set_self {α : Type} (m : JsMap α) (k : String) (v : α) :
    JsMap.get? (JsMap.set m k v) k = some v := by
  unfold JsMap.set
  by_cases h : (m.any fun p => p.1 == k) = true
  · rw [if_pos h]
    unfold JsMap.get?
    rw [find?_replace_self k v m h]
    rfl
  · rw [if_neg h]
    unfold JsMap.get?
    rw [List.find?_append]
    have h1 : m.find? (fun p => p.1 == k) = none := by
      rw [List.find?_eq_none]
      intro x hx hx2
      simp only [List.any_eq_true] at h
      exact h ⟨x, hx, hx2⟩
    rw [h1]
    simp

theorem get?_set_ne {α : Type} (m : JsMap α) (k : String) (v : α) {k' : String}
    (hne : k' ≠ k) : JsMap.get? (JsMap.set m k v) k' = JsMap.get? m k' := by
  unfold JsMap.set
  by_cases h : (m.any fun p => p.1 == k) = true
  · rw [if_pos h]
    unfold JsMap.get?
    rw [find?_replace_ne k v hne m]
  · rw [if_neg h]
    unfold JsMap.get?
    rw [List.find?_append]
    have h2 : List.find? (fun p => p.1 == k') [(k, v)] = none := by
      simp [Ne.symm hne]
    rw [h2]
    simp

theorem mem_childNodes {nodes : List GraphNode} {p : String} {n : GraphNode} :
    n ∈ childNodes nodes p ↔ n ∈ nodes ∧ n.parentId = some p ∧ p ≠ "" := by
  unfold childNodes
  rw [List.mem_filter]
  constructor
  · rintro ⟨hn, hpred⟩
    cases hq : n.parentId with
    | none =>
        simp only [hq] at hpred
        exact absurd hpred (by simp)
    | some q =>
        simp only [hq] at hpred
        rw [Bool.and_eq_true] at hpred
        have h1 : q ≠ "" := by simpa using hpred.1
        have h2 : q = p := by simpa using hpred.2
        refine ⟨hn, ?_, ?_⟩
        · rw [h2]
        · rw [← h2]
          exact h1
  · rintro ⟨hn, hq, hpe⟩
    refine ⟨hn, ?_⟩
    simp [hq, hpe]

theorem childNodes_ids_nodup {nodes : List GraphNode}
    (hnd : (nodes.map GraphNode.id).Nodup) (p : String) :
    ((childNodes nodes p).map GraphNode.id).Nodup :=
  hnd.sublist (List.Sublist.map GraphNode.id (List.filter_sublist nodes))

/-- The accumulator fold building `childrenOf`, characterized through
`childList`. -/
theorem childFold_getD :
    ∀ (nodes : List GraphNode) (m : JsMap (List String)) (p : String),
      (JsMap.get? (nodes.foldl (fun m n =>
          match n.parentId with
          | some q =>
              if q != "" then JsMap.set m q ((JsMap.get? m q).getD [] ++ [n.id])
              else m
          | none => m) m) p).getD []
        = (JsMap.get? m p).getD [] ++ childList nodes p := by
  intro nodes
  induction nodes with
  | nil =>
      intro m p
      simp [childList, childNodes]
  | cons n rest ih =>
      intro m p
      rw [List.foldl_cons]
      cases hq : n.parentId with
      | none =>
          simp only [hq]
          rw [ih]
          have hcl : childList (n :: rest) p = childList rest p := by
            unfold childList childNodes
            rw [List.filter_cons]
            simp [hq]
          rw [hcl]
      | some q =>
          by_cases hqe : q = ""
          · subst hqe
            simp only [hq]
            rw [if_neg (by decide)]
            rw [ih]
            have hcl : childList (n :: rest) p = childList rest p := by
              unfold childList childNodes
              rw [List.filter_cons]
              simp [hq]
            rw [hcl]
          · simp only [hq]
            rw [if_pos (by simp [hqe])]
            rw [ih]
            by_cases hqp : q = p
            · subst hqp
              rw [get?_set_self]
              have hcl : childList (n :: rest) q = n.id :: childList rest q := by
                unfold childList childNodes
                rw [List.filter_cons]
                rw [if_pos (by simp [hq, hqe])]
                rw [List.map_cons]
              rw [hcl]
              simp
            · rw [get?_set_ne _ _ _ (fun h => hqp h.symm)]
              have hcl : childList (n :: rest) p = childList rest p := by
                unfold childList childNodes
                rw [List.filter_cons]
                rw [if_neg (by simp [hq, hqp])]
              rw [hcl]

/-- The `nodeMap` fold of `topologicalSort` is the self-keyed map when
ids are pairwise distinct. -/
theorem nodeMapOf_eq (nodes : List GraphNode)
    (hnd : (nodes.map GraphNode.id).Nodup) :
    nodes.foldl (fun m n => JsMap.set m n.id n) ([] : JsMap GraphNode)
      = nodes.map (fun n => (n.id, n)) := by
  have h := foldl_set_by_key GraphNode.id nodes [] (fun v _ => rfl) hnd
  simpa using h

/-- Resolving the child-id list through the self-keyed node map yields
the child nodes themselves. -/
theorem resolve_childList (nodes : List GraphNode)
    (hnd : (nodes.map GraphNode.id).Nodup) (p : String) :
    (childList nodes p).filterMap
        (fun cid => JsMap.get? (nodes.map (fun n => (n.id, n))) cid)
      = childNodes nodes p := by
  unfold childList
  rw [List.filterMap_map]
  have hsub : ∀ l : List GraphNode, (∀ x ∈ l, x ∈ nodes) →
      l.filterMap (fun n => JsMap.get? (nodes.map (fun n => (n.id, n))) n.id)
        = l := by
    intro l
    induction l with
    | nil => intro _; rfl
    | cons x xs ih =>
        intro hmem
        rw [List.filterMap_cons]
        rw [get?_map_self_of_mem hnd (hmem x (List.mem_cons_self _ _))]
        rw [ih (fun y hy => hmem y (List.mem_cons_of_mem _ hy))]
  exact hsub _ (fun x hx => (mem_childNodes.mp hx).1)

theorem nodup_subset_length_le {l l' : List String} (hnd : l.Nodup)
    (hsub : ∀ x ∈ l, x ∈ l') : l.length ≤ l'.length := by
  have h1 : l.toFinset.card = l.length := List.toFinset_card_of_nodup hnd
  have h2 : l.toFinset ⊆ l'.toFinset := by
    intro x hx
    rw [List.mem_toFinset] at hx ⊢
    exact hsub x hx
  calc l.length = l.toFinset.card := h1.symm
  _ ≤ l'.toFinset.card := Finset.card_le_card h2
  _ ≤ l'.length := List.toFinset_card_le l'

/-- One step of the BFS loop. -/
theorem bfsSort_cons (nm : JsMap GraphNode) (co : JsMap (List String)) (f : Nat)
    (c : GraphNode) (rest sorted : List GraphNode) :
    bfsSort nm co (f + 1) (c :: rest) sorted
      = bfsSort nm co f
          (rest ++ ((JsMap.get? co c.id).getD []).filterMap
            (fun cid => JsMap.get? nm cid))
          (sorted ++ [c]) := rfl

/-- The BFS loop of `topologicalSort`, run on the self-keyed node map of
a duplicate-free node list with enough fuel: the result contains exactly
the processed and reachable nodes, keeps ids distinct, and lists every
truthy parent before its children. -/
theorem bfs_run (nodes : List GraphNode) (hnd : (nodes.map GraphNode.id).Nodup)
    (co : JsMap (List String))
    (hco : ∀ p, (JsMap.get? co p).getD [] = childList nodes p) :
    ∀ (fuel : Nat) (queue sorted : List GraphNode),
      (∀ n ∈ sorted, n ∈ nodes) →
      (∀ n ∈ queue, n ∈ nodes) →
      ((sorted ++ queue).map GraphNode.id).Nodup →
      (∀ n ∈ nodes, strTruthy n.parentId = true →
        ((n ∈ sorted ∨ n ∈ queue) ↔ ∃ m ∈ sorted, n.parentId = some m.id)) →
      (∀ (i : Nat) (n : GraphNode), sorted[i]? = some n →
        strTruthy n.parentId = true →
        ∃ j, j < i ∧ ∃ m, sorted[j]? = some m ∧ n.parentId = some m.id) →
      nodes.length < fuel + sorted.length →
      (∀ n ∈ bfsSort (nodes.map (fun n => (n.id, n))) co fuel queue sorted,
          n ∈ nodes)
      ∧ ((bfsSort (nodes.map (fun n => (n.id, n))) co fuel queue sorted).map
          GraphNode.id).Nodup
      ∧ (∀ n ∈ sorted,
          n ∈ bfsSort (nodes.map (fun n => (n.id, n))) co fuel queue sorted)
      ∧ (∀ n ∈ queue,
          n ∈ bfsSort (nodes.map (fun n => (n.id, n))) co fuel queue sorted)
      ∧ (∀ n ∈ nodes, strTruthy n.parentId = true →
          (n ∈ bfsSort (nodes.map (fun n => (n.id, n))) co fuel queue sorted
            ↔ ∃ m ∈ bfsSort (nodes.map (fun n => (n.id, n))) co fuel queue sorted,
                n.parentId = some m.id))
      ∧ (∀ (i : Nat) (n : GraphNode),
          (bfsSort (nodes.map (fun n => (n.id, n))) co fuel queue sorted)[i]?
            = some n →
          strTruthy n.parentId = true →
          ∃ j, j < i ∧ ∃ m, (bfsSort (nodes.map (fun n => (n.id, n))) co fuel
            queue sorted)[j]? = some m ∧ n.parentId = some m.id) := by
  intro fuel
  induction fuel with
  | zero =>
      intro queue sorted hs hq hnodup hI2 hI3 hfuel
      exfalso
      have hnds : (sorted.map GraphNode.id).Nodup := by
        rw [List.map_append] at hnodup
        exact (List.nodup_append.mp hnodup).1
      have hsub : ∀ x ∈ sorted.map GraphNode.id, x ∈ nodes.map GraphNode.id := by
        intro x hx
        rcases List.mem_map.mp hx with ⟨n, hn, rfl⟩
        exact List.mem_map_of_mem _ (hs n hn)
      have hlen := nodup_subset_length_le hnds hsub
      rw [List.length_map, List.length_map] at hlen
      omega
  | succ f ih =>
      intro queue sorted hs hq hnodup hI2 hI3 hfuel
      cases queue with
      | nil =>
          rw [show bfsSort (nodes.map (fun n => (n.id, n))) co (f + 1) [] sorted
            = sorted from rfl]
          refine ⟨hs, ?_, fun n hn => hn,
            fun n hn => (List.not_mem_nil n hn).elim, ?_, hI3⟩
          · rw [List.append_nil] at hnodup
            exact hnodup
          · intro n hn ht
            have h := hI2 n hn ht
            simpa using h
      | cons c rest =>
          rw [bfsSort_cons]
          have hpush : ((JsMap.get? co c.id).getD []).filterMap
              (fun cid => JsMap.get? (nodes.map (fun n => (n.id, n))) cid)
              = childNodes nodes c.id := by
            rw [hco]
            exact resolve_childList nodes hnd c.id
          rw [hpush]
          have hcnode : c ∈ nodes := hq c (List.mem_cons_self _ _)
          -- ids of the old sorted/queue split
          have hnodup' : (((sorted ++ [c]) ++ rest).map GraphNode.id).Nodup := by
            rw [← List.append_cons]
            exact hnodup
          -- disjointness of sorted ids and (c :: rest) ids
          have hdisj : ∀ x, x ∈ sorted.map GraphNode.id →
              x ∈ (c :: rest).map GraphNode.id → False := by
            intro x hx1 hx2
            rw [List.map_append] at hnodup
            exact (List.nodup_append.mp hnodup).2.2 hx1 hx2
          -- the pushes are fresh: not already in sorted, c, or rest
          have hfreshPush : ∀ x, x ∈ ((sorted ++ [c]) ++ rest).map GraphNode.id →
              x ∈ (childNodes nodes c.id).map GraphNode.id → False := by
            intro x hx1 hx2
            rcases List.mem_map.mp hx1 with ⟨m1, hm1, hx1e⟩
            rcases List.mem_map.mp hx2 with ⟨m2, hm2, hx2e⟩
            rcases mem_childNodes.mp hm2 with ⟨hm2n, hm2p, hm2e⟩
            have hm1n : m1 ∈ nodes := by
              rcases List.mem_append.mp hm1 with h1 | h1
              · rcases List.mem_append.mp h1 with h2 | h2
                · exact hs m1 h2
                · rcases List.mem_singleton.mp h2 with rfl
                  exact hcnode
              · exact hq m1 (List.mem_cons_of_mem _ h1)
            have hmeq : m1 = m2 := nodup_id_inj hnd hm1n hm2n (hx1e.trans hx2e.symm)
            subst hmeq
            -- m1 has truthy parentId c.id, and is in sorted ∪ (c :: rest)
            have ht1 : strTruthy m1.parentId = true := by
              rw [hm2p]
              simpa [strTruthy] using hm2e
            have hmem1 : m1 ∈ sorted ∨ m1 ∈ c :: rest := by
              rcases List.mem_append.mp hm1 with h1 | h1
              · rcases List.mem_append.mp h1 with h2 | h2
                · exact Or.inl h2
                · rcases List.mem_singleton.mp h2 with rfl
                  exact Or.inr (List.mem_cons_self _ _)
              · exact Or.inr (List.mem_cons_of_mem _ h1)
            rcases (hI2 m1 hm1n ht1).mp hmem1 with ⟨m, hm, hmp⟩
            -- m ∈ sorted has id c.id, clashing with c in the queue
            have hmid : m.id = c.id := by
              rw [hm2p] at hmp
              exact (Option.some_injective _ hmp).symm
            exact hdisj c.id (hmid ▸ List.mem_map_of_mem _ hm)
              (List.mem_map_of_mem _ (List.mem_cons_self c rest))
          have inv1 : ∀ n ∈ sorted ++ [c], n ∈ nodes := by
            intro n hn
            rcases List.mem_append.mp hn with h1 | h1
            · exact hs n h1
            · rcases List.mem_singleton.mp h1 with rfl
              exact hcnode
          have inv2 : ∀ n ∈ rest ++ childNodes nodes c.id, n ∈ nodes := by
            intro n hn
            rcases List.mem_append.mp hn with h1 | h1
            · exact hq n (List.mem_cons_of_mem _ h1)
            · exact (mem_childNodes.mp h1).1
          have inv3 : (((sorted ++ [c]) ++ (rest ++ childNodes nodes c.id)).map
              GraphNode.id).Nodup := by
            rw [← List.append_assoc, List.map_append, List.nodup_append]
            refine ⟨hnodup', childNodes_ids_nodup hnd c.id, hfreshPush⟩
          have inv4 : ∀ n ∈ nodes, strTruthy n.parentId = true →
              ((n ∈ sorted ++ [c] ∨ n ∈ rest ++ childNodes nodes c.id)
                ↔ ∃ m ∈ sorted ++ [c], n.parentId = some m.id) := by
            intro n hn ht
            constructor
            · intro hmem
              rcases hmem with h1 | h1
              · rcases List.mem_append.mp h1 with h2 | h2
                · rcases (hI2 n hn ht).mp (Or.inl h2) with ⟨m, hm, hmp⟩
                  exact ⟨m, List.mem_append_left _ hm, hmp⟩
                · rcases List.mem_singleton.mp h2 with rfl
                  rcases (hI2 n hn ht).mp (Or.inr (List.mem_cons_self _ _)) with
                    ⟨m, hm, hmp⟩
                  exact ⟨m, List.mem_append_left _ hm, hmp⟩
              · rcases List.mem_append.mp h1 with h2 | h2
                · rcases (hI2 n hn ht).mp (Or.inr (List.mem_cons_of_mem _ h2)) with
                    ⟨m, hm, hmp⟩
                  exact ⟨m, List.mem_append_left _ hm, hmp⟩
                · rcases mem_childNodes.mp h2 with ⟨_, hp, _⟩
                  exact ⟨c, List.mem_append_right _ (List.mem_singleton_self _), hp⟩
            · rintro ⟨m, hm, hmp⟩
              rcases List.mem_append.mp hm with h2 | h2
              · rcases (hI2 n hn ht).mpr ⟨m, h2, hmp⟩ with h3 | h3
                · exact Or.inl (List.mem_append_left _ h3)
                · rcases List.mem_cons.mp h3 with heq | h4
                  · exact Or.inl (List.mem_append_right _
                      (heq ▸ List.mem_singleton_self _))
                  · exact Or.inr (List.mem_append_left _ h4)
              · rcases List.mem_singleton.mp h2 with rfl
                refine Or.inr (List.mem_append_right _ ?_)
                rw [mem_childNodes]
                refine ⟨hn, hmp, ?_⟩
                intro hce
                rw [hmp, hce] at ht
                simp [strTruthy] at ht
          have inv5 : ∀ (i : Nat) (n : GraphNode), (sorted ++ [c])[i]? = some n →
              strTruthy n.parentId = true →
              ∃ j, j < i ∧ ∃ m, (sorted ++ [c])[j]? = some m
                ∧ n.parentId = some m.id := by
            intro i n hin ht
            rcases Nat.lt_or_ge i sorted.length with hi | hi
            · rw [List.getElem?_append, if_pos hi] at hin
              rcases hI3 i n hin ht with ⟨j, hj, m, hjm, hmp⟩
              refine ⟨j, hj, m, ?_, hmp⟩
              rw [List.getElem?_append, if_pos (by omega)]
              exact hjm
            · have hile : i < sorted.length + 1 := by
                by_contra habs
                rw [List.getElem?_append, if_neg (by omega)] at hin
                have hnone : ([c] : List GraphNode)[i - sorted.length]? = none := by
                  rw [List.getElem?_eq_none]
                  simp only [List.length_singleton]
                  omega
                rw [hnone] at hin
                exact Option.noConfusion hin
              have hieq : i = sorted.length := by omega
              subst hieq
              rw [List.getElem?_append, if_neg (by omega)] at hin
              have hsub0 : sorted.length - sorted.length = 0 := by omega
              rw [hsub0] at hin
              rw [List.getElem?_cons_zero] at hin
              have hceq : c = n := Option.some_injective _ hin
              subst hceq
              rcases (hI2 c hcnode ht).mp (Or.inr (List.mem_cons_self _ _)) with
                ⟨m, hm, hmp⟩
              rcases List.getElem_of_mem hm with ⟨j, hjlen, hje⟩
              refine ⟨j, hjlen, m, ?_, hmp⟩
              rw [List.getElem?_append, if_pos hjlen,
                List.getElem?_eq_getElem hjlen, hje]
          have inv6 : nodes.length < f + (sorted ++ [c]).length := by
            rw [List.length_append, List.length_singleton]
            omega
          obtain ⟨g1, g2, g3, g4, g5, g6⟩ :=
            ih (rest ++ childNodes nodes c.id) (sorted ++ [c])
              inv1 inv2 inv3 inv4 inv5 inv6
          refine ⟨g1, g2, ?_, ?_, g5, g6⟩
          · intro n hn
            exact g3 n (List.mem_append_left _ hn)
          · intro n hn
            rcases List.mem_cons.mp hn with heq | hn'
            · exact heq ▸ g3 c (List.mem_append_right _ (List.mem_singleton_self _))
            · exact g4 n (List.mem_append_left _ hn')

/-- `topologicalSort` on a duplicate-free node list without empty-string
parentIds: every output element is an input node or a parentId-nulled
input node, ids are preserved exactly, truthy parents precede their
children, and a node whose parentId names an absent id is appended with
its parentId nulled. -/
theorem topologicalSort_spec (nodes : List GraphNode)
    (hnd : (nodes.map GraphNode.id).Nodup)
    (hne : ∀ n ∈ nodes, n.parentId ≠ some "") :
    (∀ n ∈ topologicalSort nodes,
        n ∈ nodes ∨ ∃ m ∈ nodes, n = { m with parentId := none })
    ∧ ((topologicalSort nodes).map GraphNode.id).Nodup
    ∧ (∀ n ∈ nodes, n.id ∈ (topologicalSort nodes).map GraphNode.id)
    ∧ (∀ (i : Nat) (n : GraphNode), (topologicalSort nodes)[i]? = some n →
        strTruthy n.parentId = true →
        ∃ j, j < i ∧ ∃ m, (topologicalSort nodes)[j]? = some m
          ∧ n.parentId = some m.id)
    ∧ (∀ n ∈ nodes, ∀ p, n.parentId = some p → (∀ m ∈ nodes, m.id ≠ p) →
        { n with parentId := none } ∈ topologicalSort nodes) := by
  have hcoSpec : ∀ p, (JsMap.get? (nodes.foldl (fun m n =>
      match n.parentId with
      | some q =>
          if q != "" then JsMap.set m q ((JsMap.get? m q).getD [] ++ [n.id])
          else m
      | none => m) ([] : JsMap (List String))) p).getD [] = childList nodes p := by
    intro p
    have h := childFold_getD nodes [] p
    simpa using h
  have hrootmem : ∀ n ∈ nodes.filter (fun n => !(strTruthy n.parentId)), n ∈ nodes :=
    fun n hn => (List.mem_filter.mp hn).1
  obtain ⟨g1, g2, g3, g4, g5, g6⟩ :=
    bfs_run nodes hnd _ hcoSpec (nodes.length + 1)
      (nodes.filter (fun n => !(strTruthy n.parentId))) []
      (fun n hn => (List.not_mem_nil n hn).elim)
      hrootmem
      (by
        rw [List.nil_append]
        exact hnd.sublist (List.Sublist.map GraphNode.id (List.filter_sublist nodes)))
      (by
        intro n hn ht
        constructor
        · rintro (h | h)
          · exact (List.not_mem_nil n h).elim
          · have hpred := (List.mem_filter.mp h).2
            rw [ht] at hpred
            exact absurd hpred (by decide)
        · rintro ⟨m, hm, _⟩
          exact (List.not_mem_nil m hm).elim)
      (by
        intro i n hin
        rw [List.getElem?_nil] at hin
        exact Option.noConfusion hin)
      (by simp)
  have hTS : topologicalSort nodes =
      (if (bfsSort (nodes.map (fun n => (n.id, n)))
            (nodes.foldl (fun m n =>
              match n.parentId with
              | some p =>
                  if p != "" then
                    JsMap.set m p ((JsMap.get? m p).getD [] ++ [n.id])
                  else m
              | none => m) [])
            (nodes.length + 1)
            (nodes.filter (fun n => !(strTruthy n.parentId))) []).length
          < nodes.length then
        (bfsSort (nodes.map (fun n => (n.id, n)))
            (nodes.foldl (fun m n =>
              match n.parentId with
              | some p =>
                  if p != "" then
                    JsMap.set m p ((JsMap.get? m p).getD [] ++ [n.id])
                  else m
              | none => m) [])
            (nodes.length + 1)
            (nodes.filter (fun n => !(strTruthy n.parentId))) [])
          ++ (nodes.filter (fun n =>
              !(((bfsSort (nodes.map (fun n => (n.id, n)))
                  (nodes.foldl (fun m n =>
                    match n.parentId with
                    | some p =>
                        if p != "" then
                          JsMap.set m p ((JsMap.get? m p).getD [] ++ [n.id])
                        else m
                    | none => m) [])
                  (nodes.length + 1)
                  (nodes.filter (fun n => !(strTruthy n.parentId))) []).map
                    (fun n => n.id)).contains n.id))).map
              (fun n => { n with parentId := none })
      else
        bfsSort (nodes.map (fun n => (n.id, n)))
          (nodes.foldl (fun m n =>
            match n.parentId with
            | some p =>
                if p != "" then
                  JsMap.set m p ((JsMap.get? m p).getD [] ++ [n.id])
                else m
            | none => m) [])
          (nodes.length + 1)
          (nodes.filter (fun n => !(strTruthy n.parentId))) []) := by
    unfold topologicalSort
    rw [nodeMapOf_eq nodes hnd]
  rw [hTS]
  set S := bfsSort (nodes.map (fun n => (n.id, n)))
      (nodes.foldl (fun m n =>
        match n.parentId with
        | some p =>
            if p != "" then JsMap.set m p ((JsMap.get? m p).getD [] ++ [n.id])
            else m
        | none => m) [])
      (nodes.length + 1)
      (nodes.filter (fun n => !(strTruthy n.parentId))) [] with hSdef
  -- basic facts about S
  have hSsub : ∀ n ∈ S, n ∈ nodes := g1
  have hSnd : (S.map GraphNode.id).Nodup := g2
  have hSids : S.map (fun n => n.id) = S.map GraphNode.id := rfl
  have hSlen : S.length ≤ nodes.length := by
    have hsub : ∀ x ∈ S.map GraphNode.id, x ∈ nodes.map GraphNode.id := by
      intro x hx
      rcases List.mem_map.mp hx with ⟨n, hn, rfl⟩
      exact List.mem_map_of_mem _ (hSsub n hn)
    have h := nodup_subset_length_le hSnd hsub
    rw [List.length_map, List.length_map] at h
    exact h
  have hSmissing : ∀ n ∈ nodes, n.id ∉ S.map GraphNode.id →
      S.length < nodes.length := by
    intro n hn hnin
    have hndc : (n.id :: S.map GraphNode.id).Nodup :=
      List.nodup_cons.mpr ⟨hnin, hSnd⟩
    have hsub : ∀ x ∈ n.id :: S.map GraphNode.id, x ∈ nodes.map GraphNode.id := by
      intro x hx
      rcases List.mem_cons.mp hx with rfl | hx'
      · exact List.mem_map_of_mem _ hn
      · rcases List.mem_map.mp hx' with ⟨m, hm, rfl⟩
        exact List.mem_map_of_mem _ (hSsub m hm)
    have h := nodup_subset_length_le hndc hsub
    rw [List.length_cons, List.length_map, List.length_map] at h
    omega
  have hSid_mem : ∀ {n : GraphNode}, n ∈ nodes → n.id ∈ S.map GraphNode.id →
      n ∈ S := by
    intro n hn hid
    rcases List.mem_map.mp hid with ⟨s, hsS, hsid⟩
    have : s = n := nodup_id_inj hnd (hSsub s hsS) hn hsid
    exact this ▸ hsS
  -- the absent-parent nodes are not reached by the BFS
  have hAbsent : ∀ n ∈ nodes, ∀ p, n.parentId = some p →
      (∀ m ∈ nodes, m.id ≠ p) → n ∉ S := by
    intro n hn p hp habs hnS
    have hpe : p ≠ "" := by
      intro h
      exact hne n hn (h ▸ hp)
    have ht : strTruthy n.parentId = true := by
      rw [hp]
      simpa [strTruthy] using hpe
    rcases (g5 n hn ht).mp hnS with ⟨m, hmS, hmp⟩
    rw [hp] at hmp
    exact habs m (hSsub m hmS) (Option.some_injective _ hmp).symm
  by_cases hbr : S.length < nodes.length
  · rw [if_pos hbr]
    have hAmem : ∀ n, n ∈ (nodes.filter (fun n =>
        !((S.map (fun n => n.id)).contains n.id))).map
          (fun n => { n with parentId := none }) ↔
        ∃ m ∈ nodes, m.id ∉ S.map GraphNode.id ∧ n = { m with parentId := none } := by
      intro n
      rw [List.mem_map]
      constructor
      · rintro ⟨m, hm, rfl⟩
        rcases List.mem_filter.mp hm with ⟨hmn, hpred⟩
        refine ⟨m, hmn, ?_, rfl⟩
        intro hmem
        rw [hSids] at hpred
        simp [hmem] at hpred
      · rintro ⟨m, hmn, hnin, rfl⟩
        refine ⟨m, List.mem_filter.mpr ⟨hmn, ?_⟩, rfl⟩
        rw [hSids]
        simp [hnin]
    refine ⟨?_, ?_, ?_, ?_, ?_⟩
    · intro n hn
      rcases List.mem_append.mp hn with h1 | h1
      · exact Or.inl (hSsub n h1)
      · rcases (hAmem n).mp h1 with ⟨m, hmn, _, rfl⟩
        exact Or.inr ⟨m, hmn, rfl⟩
    · rw [List.map_append, List.nodup_append]
      refine ⟨hSnd, ?_, ?_⟩
      · rw [List.map_map]
        have hcomp : (GraphNode.id ∘ fun n => { n with parentId := none })
            = fun n : GraphNode => n.id := rfl
        rw [hcomp]
        exact hnd.sublist (List.Sublist.map _ (List.filter_sublist nodes))
      · intro x hx1 hx2
        rcases List.mem_map.mp hx2 with ⟨n, hnA, hnid⟩
        rcases (hAmem n).mp hnA with ⟨m, _, hmnin, rfl⟩
        exact hmnin (hnid ▸ hx1)
    · intro n hn
      by_cases hid : n.id ∈ S.map GraphNode.id
      · rw [List.map_append]
        exact List.mem_append_left _ hid
      · rw [List.map_append]
        refine List.mem_append_right _ ?_
        have hmem : ({ n with parentId := none } : GraphNode) ∈ (nodes.filter (fun n =>
            !((S.map (fun n => n.id)).contains n.id))).map
              (fun n => { n with parentId := none }) :=
          (hAmem _).mpr ⟨n, hn, hid, rfl⟩
        have h2 := List.mem_map_of_mem GraphNode.id hmem
        exact h2
    · intro i n hin ht
      rcases Nat.lt_or_ge i S.length with hi | hi
      · rw [List.getElem?_append, if_pos hi] at hin
        rcases g6 i n hin ht with ⟨j, hj, m, hjm, hmp⟩
        refine ⟨j, hj, m, ?_, hmp⟩
        rw [List.getElem?_append, if_pos (by omega)]
        exact hjm
      · exfalso
        rw [List.getElem?_append, if_neg (by omega)] at hin
        have hmem : n ∈ (nodes.filter (fun n =>
            !((S.map (fun n => n.id)).contains n.id))).map
              (fun n => { n with parentId := none }) := by
          rcases List.getElem?_eq_some.mp hin with ⟨hlt, hget⟩
          exact hget ▸ List.getElem_mem hlt
        rcases (hAmem n).mp hmem with ⟨m, _, _, rfl⟩
        exact absurd ht (by simp [strTruthy])
    · intro n hn p hp habs
      have hnin : n.id ∉ S.map GraphNode.id := by
        intro hmem
        exact hAbsent n hn p hp habs (hSid_mem hn hmem)
      exact List.mem_append_right _ ((hAmem _).mpr ⟨n, hn, hnin, rfl⟩)
  · rw [if_neg hbr]
    have hAll : ∀ n ∈ nodes, n.id ∈ S.map GraphNode.id := by
      intro n hn
      by_contra hnin
      exact hbr (hSmissing n hn hnin)
    refine ⟨fun n hn => Or.inl (hSsub n hn), hSnd, hAll, g6, ?_⟩
    · intro n hn p hp habs
      exact absurd (hSid_mem hn (hAll n hn)) (hAbsent n hn p hp habs)

theorem impliedList_append (a b : List GraphNode) :
    impliedList (a ++ b) = impliedList a ++ impliedList b := by
  unfold impliedList
  exact List.filterMap_append _ _ _

/-- In a list whose truthy parents precede their children, every truthy
parent of a member is itself a member's id. -/
theorem parent_mem_of_order {P L : List GraphNode}
    (hI3 : ∀ (i : Nat) (n : GraphNode), (P ++ L)[i]? = some n →
      strTruthy n.parentId = true →
      ∃ j, j < i ∧ ∃ m, (P ++ L)[j]? = some m ∧ n.parentId = some m.id) :
    ∀ n ∈ P, ∀ q, n.parentId = some q → q ≠ "" → ∃ m ∈ P, m.id = q := by
  intro n hn q hq hqe
  rcases List.getElem_of_mem hn with ⟨i, hilen, hie⟩
  have hin : (P ++ L)[i]? = some n := by
    rw [List.getElem?_append, if_pos hilen, List.getElem?_eq_getElem hilen, hie]
  have ht : strTruthy n.parentId = true := by
    rw [hq]
    simpa [strTruthy] using hqe
  rcases hI3 i n hin ht with ⟨j, hj, m, hjm, hmp⟩
  rw [List.getElem?_append, if_pos (by omega)] at hjm
  rcases List.getElem?_eq_some.mp hjm with ⟨hjlen, hje⟩
  refine ⟨m, hje ▸ List.getElem_mem hjlen, ?_⟩
  rw [hq] at hmp
  exact (Option.some_injective _ hmp).symm

/-- Folding `addNode` over a node list whose ids are fresh, dash-free and
parent-ordered never throws and produces exactly the self-keyed node map
and the keyed implied edge list. -/
theorem hydrate_fold :
    ∀ (L P : List GraphNode),
      ((P ++ L).map GraphNode.id).Nodup →
      (∀ n ∈ P ++ L, n.parentId ≠ some "") →
      (∀ n ∈ P ++ L, noDash n.id) →
      (∀ (i : Nat) (n : GraphNode), (P ++ L)[i]? = some n →
        strTruthy n.parentId = true →
        ∃ j, j < i ∧ ∃ m, (P ++ L)[j]? = some m ∧ n.parentId = some m.id) →
      L.foldlM (fun g n => addNode g n)
          { nodes := P.map (fun n => (n.id, n)),
            edges := (impliedList P).map (fun e => (e.id, e)) }
        = .ok { nodes := (P ++ L).map (fun n => (n.id, n)),
                edges := (impliedList (P ++ L)).map (fun e => (e.id, e)) } := by
  intro L
  induction L with
  | nil =>
      intro P _ _ _ _
      rw [List.append_nil]
      rfl
  | cons n L' ih =>
      intro P hnd hne hdash hI3
      have hmemn : n ∈ P ++ n :: L' :=
        List.mem_append_right _ (List.mem_cons_self _ _)
      have hdisj : n.id ∉ P.map GraphNode.id := by
        intro hmem
        rw [List.map_append, List.nodup_append] at hnd
        exact hnd.2.2 hmem (List.mem_map_of_mem _ (List.mem_cons_self n L'))
      have hfreshN : JsMap.hasKey (P.map (fun n => (n.id, n))) n.id = false := by
        cases hk : JsMap.hasKey (P.map (fun n => (n.id, n))) n.id with
        | false => rfl
        | true =>
            exfalso
            rcases (hasKey_iff _ _).mp hk with ⟨pp, hpp, hppk⟩
            rcases List.mem_map.mp hpp with ⟨m, hm, rfl⟩
            exact hdisj (hppk ▸ List.mem_map_of_mem GraphNode.id hm)
      have hparents := parent_mem_of_order hI3
      -- the step
      have hstep : addNode
            { nodes := P.map (fun n => (n.id, n)),
              edges := (impliedList P).map (fun e => (e.id, e)) } n
          = .ok { nodes := (P ++ [n]).map (fun n => (n.id, n)),
                  edges := (impliedList (P ++ [n])).map (fun e => (e.id, e)) } := by
        cases hp : n.parentId with
        | none =>
            unfold addNode
            rw [if_neg (by simp [hp, strTruthy])]
            simp only [hp]
            rw [set_fresh _ _ _ hfreshN]
            rw [impliedList_append, impliedList_cons_none hp]
            simp [impliedList]
        | some q =>
            have hqe : q ≠ "" := by
              intro h
              exact hne n hmemn (h ▸ hp)
            have ht : strTruthy n.parentId = true := by
              rw [hp]
              simpa [strTruthy] using hqe
            -- the parent is an earlier id
            have hqmem : ∃ m ∈ P, m.id = q := by
              have hin : (P ++ n :: L')[P.length]? = some n := by
                rw [List.getElem?_append, if_neg (by omega)]
                have h0 : P.length - P.length = 0 := by omega
                rw [h0, List.getElem?_cons_zero]
              rcases hI3 P.length n hin ht with ⟨j, hj, m, hjm, hmp⟩
              rw [List.getElem?_append, if_pos (by omega)] at hjm
              rcases List.getElem?_eq_some.mp hjm with ⟨hjlen, hje⟩
              refine ⟨m, hje ▸ List.getElem_mem hjlen, ?_⟩
              rw [hp] at hmp
              exact (Option.some_injective _ hmp).symm
            have hkeyq : JsMap.hasKey (P.map (fun n => (n.id, n))) q = true := by
              rcases hqmem with ⟨m, hm, hmid⟩
              exact (hasKey_iff _ _).mpr ⟨(m.id, m), List.mem_map_of_mem _ hm, hmid⟩
            have hdq : noDash q := by
              rcases hqmem with ⟨mq, hmq, hmqid⟩
              exact hmqid ▸ hdash mq (List.mem_append_left _ hmq)
            have hfreshE : JsMap.hasKey ((impliedList P).map (fun e => (e.id, e)))
                (edgeIdFor q n.id) = false := by
              cases hk : JsMap.hasKey ((impliedList P).map (fun e => (e.id, e)))
                  (edgeIdFor q n.id) with
              | false => rfl
              | true =>
                  exfalso
                  rcases (hasKey_iff _ _).mp hk with ⟨pp, hpp, hppk⟩
                  rcases List.mem_map.mp hpp with ⟨e, heP, rfl⟩
                  rcases mem_impliedList.mp heP with ⟨m', hm', q', hq', hq'e, rfl⟩
                  have hkeq : edgeIdFor q' m'.id = edgeIdFor q n.id := hppk
                  rcases hparents m' hm' q' hq' hq'e with ⟨mq, hmq, hmqid⟩
                  have hdq' : noDash q' :=
                    hmqid ▸ hdash mq (List.mem_append_left _ hmq)
                  obtain ⟨_, hid⟩ := edgeIdFor_inj hdq' hdq hkeq
                  exact hdisj (hid ▸ List.mem_map_of_mem GraphNode.id hm')
            unfold addNode
            rw [if_neg (by simp [hp, strTruthy, hqe, hkeyq])]
            simp only [hp]
            rw [if_pos (by simp [hqe])]
            rw [set_fresh _ _ _ hfreshN, set_fresh _ _ _ hfreshE]
            rw [impliedList_append, impliedList_cons_some hp hqe]
            rw [List.map_append, List.map_append]
            rfl
      rw [List.append_cons] at hnd hne hdash hI3 ⊢
      rw [List.foldlM_cons, hstep]
      exact ih (P ++ [n]) hnd hne hdash hI3

theorem values_keyed_map {α : Type} (f : α → String) (l : List α) :
    JsMap.values (l.map (fun e => (f e, e))) = l := by
  unfold JsMap.values
  rw [List.map_map]
  exact List.map_id l

theorem indexOf_of_getElem? {l : List String} (hnd : l.Nodup) {i : Nat} {x : String}
    (h : l[i]? = some x) : l.indexOf x = i := by
  rcases List.getElem?_eq_some.mp h with ⟨hlt, hget⟩
  have hmem : x ∈ l := hget ▸ List.getElem_mem hlt
  have hidx : l.indexOf x < l.length := List.indexOf_lt_length.mpr hmem
  have hgeti : l[l.indexOf x] = x := List.getElem_indexOf hidx
  exact (List.Nodup.getElem_inj_iff hnd).mp (hgeti.trans hget.symm)

/-- No implied edge targets an id outside the list. -/
theorem filter_target_nil (rest : List GraphNode) (x : String)
    (hx : x ∉ rest.map GraphNode.id) :
    (impliedList rest).filter (fun e => e.target == x) = [] := by
  rw [List.filter_eq_nil_iff]
  intro e he
  rcases mem_impliedList.mp he with ⟨m, hm, q, _, _, rfl⟩
  have hmx : m.id ≠ x := fun h => hx (h ▸ List.mem_map_of_mem _ hm)
  simp [mkEdge, hmx]

/-- In a duplicate-free list, the implied edges targeting a member's id
are exactly the member's own parent edge. -/
theorem filter_target :
    ∀ (L : List GraphNode), (L.map GraphNode.id).Nodup →
      ∀ node ∈ L, ∀ p, node.parentId = some p → p ≠ "" →
      (impliedList L).filter (fun e => e.target == node.id) = [mkEdge p node.id] := by
  intro L
  induction L with
  | nil =>
      intro _ node hmem
      cases hmem
  | cons m rest ih =>
      intro hnd node hmem p hp hpe
      have hheadid : m.id ∉ rest.map GraphNode.id := by
        rw [List.map_cons, List.nodup_cons] at hnd
        exact hnd.1
      have hndr : (rest.map GraphNode.id).Nodup := by
        rw [List.map_cons, List.nodup_cons] at hnd
        exact hnd.2
      rcases List.mem_cons.mp hmem with heq | hmem'
      · subst heq
        rw [impliedList_cons_some hp hpe, List.filter_cons]
        rw [if_pos (by simp [mkEdge])]
        rw [filter_target_nil rest node.id hheadid]
      · have hmx : m.id ≠ node.id := by
          intro h
          exact hheadid (h ▸ List.mem_map_of_mem _ hmem')
        have hihres := ih hndr node hmem' p hp hpe
        cases hq : m.parentId with
        | none =>
            rw [impliedList_cons_none hq]
            exact hihres
        | some q =>
            by_cases hqe : q = ""
            · subst hqe
              rw [impliedList_cons_empty hq]
              exact hihres
            · rw [impliedList_cons_some hq hqe, List.filter_cons]
              rw [if_neg (by simp [mkEdge, hmx])]
              exact hihres

/-- The cycle DFS returns no cycle and restores the stack whenever a rank
function increases strictly along every edge. -/
theorem hasCycleAux_acyclic (E : List GraphEdge) (r : String → Nat) (B : Nat)
    (hE : ∀ e ∈ E, r e.source < r e.target ∧ r e.target ≤ B) :
    ∀ (fuel : Nat) (x : String) (visited inStack : List String), r x ≤ B →
      (∀ y ∈ inStack, r y < r x) → B < fuel + r x →
      ∃ v', hasCycleAux E fuel x visited inStack = (false, v', inStack) := by
  intro fuel
  induction fuel with
  | zero =>
      intro x _ _ hxB _ hf
      exact absurd hf (by omega)
  | succ f ih =>
      intro x visited inStack hxB hstk hf
      have hscan : ∀ (rest : List GraphEdge), (∀ e ∈ rest, e ∈ E) →
          ∀ (v s : List String), (∀ y ∈ s, r y ≤ r x) →
          ∃ v', cycleScan E f x rest v s = (false, v', s) := by
        intro rest
        induction rest with
        | nil =>
            intro _ v s _
            exact ⟨v, by simp [cycleScan]⟩
        | cons e rest' ih2 =>
            intro hsub v s hstk2
            by_cases hsrc : e.source = x
            · have hlt : r x < r e.target := by
                have h := (hE e (hsub e (List.mem_cons_self _ _))).1
                rw [hsrc] at h
                exact h
              have htgtB : r e.target ≤ B := (hE e (hsub e (List.mem_cons_self _ _))).2
              have hnotstack : s.contains e.target = false := by
                cases hc : s.contains e.target with
                | false => rfl
                | true =>
                    exfalso
                    have hmem : e.target ∈ s := by simpa using hc
                    have h := hstk2 _ hmem
                    omega
              have hnot' : e.target ∉ s := by simpa using hnotstack
              by_cases hvis : (v.contains e.target) = true
              · have hv' : e.target ∈ v := by simpa using hvis
                obtain ⟨v', hrec⟩ :=
                  ih2 (fun e' he' => hsub e' (List.mem_cons_of_mem _ he')) v s hstk2
                refine ⟨v', ?_⟩
                rw [show cycleScan E f x (e :: rest') v s
                    = cycleScan E f x rest' v s from by
                  simp [cycleScan, hsrc, hnot', hv']]
                exact hrec
              · have hv' : e.target ∉ v := by simpa using hvis
                obtain ⟨v2, hrec1⟩ := ih e.target v s htgtB
                  (fun y hy => by have h := hstk2 y hy; omega) (by omega)
                obtain ⟨v', hrec2⟩ :=
                  ih2 (fun e' he' => hsub e' (List.mem_cons_of_mem _ he')) v2 s hstk2
                refine ⟨v', ?_⟩
                rw [show cycleScan E f x (e :: rest') v s
                    = cycleScan E f x rest' v2 s from by
                  simp [cycleScan, hsrc, hnot', hv', hrec1]]
                exact hrec2
            · obtain ⟨v', hrec⟩ :=
                ih2 (fun e' he' => hsub e' (List.mem_cons_of_mem _ he')) v s hstk2
              refine ⟨v', ?_⟩
              rw [show cycleScan E f x (e :: rest') v s
                  = cycleScan E f x rest' v s from by simp [cycleScan, hsrc]]
              exact hrec
      have hxnotin : x ∉ inStack := by
        intro hx
        have h := hstk x hx
        omega
      obtain ⟨v', hscanEq⟩ := hscan E (fun e he => he)
        (addToSet visited x) (addToSet inStack x)
        (by
          intro y hy
          rcases addToSet_mem.mp hy with hy' | rfl
          · exact Nat.le_of_lt (hstk y hy')
          · exact Nat.le_refl _)
      refine ⟨v', ?_⟩
      have hfil : (addToSet inStack x).filter (fun y => y != x) = inStack := by
        unfold addToSet
        rw [if_neg (by simpa using hxnotin)]
        rw [List.filter_append]
        have h1 : inStack.filter (fun y => y != x) = inStack := by
          rw [List.filter_eq_self]
          intro y hy
          simpa using fun h : y = x => hxnotin (h ▸ hy)
        have h2 : ([x] : List String).filter (fun y => y != x) = [] := by simp
        rw [h1, h2, List.append_nil]
      simp [hasCycleAux, hscanEq, hfil]

/-- The forest DFS of `isValidTree` finds no cycle under a strictly
edge-increasing rank. -/
theorem dfsForest_acyclic (E : List GraphEdge) (r : String → Nat) (B : Nat)
    (hE : ∀ e ∈ E, r e.source < r e.target ∧ r e.target ≤ B)
    (fuel : Nat) (hfuel : B < fuel) :
    ∀ (ns : List GraphNode) (visited : List String),
      (∀ n ∈ ns, r n.id ≤ B) →
      dfsForest E fuel ns visited [] = true := by
  intro ns
  induction ns with
  | nil =>
      intro v _
      rfl
  | cons node rest ih =>
      intro v hsub
      by_cases hvis : (v.contains node.id) = true
      · have hvm : node.id ∈ v := by simpa using hvis
        rw [show dfsForest E fuel (node :: rest) v []
            = dfsForest E fuel rest v [] from by simp [dfsForest, hvm]]
        exact ih v (fun n hn => hsub n (List.mem_cons_of_mem _ hn))
      · have hvm : node.id ∉ v := by simpa using hvis
        obtain ⟨v2, haux⟩ := hasCycleAux_acyclic E r B hE fuel node.id v []
          (hsub node (List.mem_cons_self _ _)) (fun y hy => by cases hy) (by omega)
        rw [show dfsForest E fuel (node :: rest) v []
            = dfsForest E fuel rest v2 [] from by simp [dfsForest, hvm, haux]]
        exact ih v2 (fun n hn => hsub n (List.mem_cons_of_mem _ hn))

/-- `isValidTree` holds on the graph built from a duplicate-free,
parent-ordered node list without empty-string parentIds. -/
theorem isValidTree_good (L : List GraphNode)
    (hnd : (L.map GraphNode.id).Nodup)
    (hne : ∀ n ∈ L, n.parentId ≠ some "")
    (hI3 : ∀ (i : Nat) (n : GraphNode), L[i]? = some n →
        strTruthy n.parentId = true →
        ∃ j, j < i ∧ ∃ m, L[j]? = some m ∧ n.parentId = some m.id) :
    isValidTree { nodes := L.map (fun n => (n.id, n)),
                  edges := (impliedList L).map (fun e => (e.id, e)) } = true := by
  have hI3' : ∀ (i : Nat) (n : GraphNode), (L ++ [])[i]? = some n →
      strTruthy n.parentId = true →
      ∃ j, j < i ∧ ∃ m, (L ++ [])[j]? = some m ∧ n.parentId = some m.id := by
    intro i n hin ht
    rw [List.append_nil] at hin
    rcases hI3 i n hin ht with ⟨j, hj, m, hjm, hmp⟩
    exact ⟨j, hj, m, by rw [List.append_nil]; exact hjm, hmp⟩
  have hpar : ∀ n ∈ L, ∀ q, n.parentId = some q → q ≠ "" → ∃ m ∈ L, m.id = q :=
    @parent_mem_of_order L [] hI3'
  unfold isValidTree
  rw [Bool.and_eq_true, Bool.and_eq_true]
  refine ⟨⟨?_, ?_⟩, ?_⟩
  · -- every edge endpoint exists
    rw [values_keyed_map]
    rw [List.all_eq_true]
    intro e he
    rcases mem_impliedList.mp he with ⟨m, hm, q, hq, hqe, rfl⟩
    rw [Bool.and_eq_true]
    constructor
    · rcases hpar m hm q hq hqe with ⟨mp, hmp, hmpid⟩
      refine (hasKey_iff _ _).mpr ⟨(mp.id, mp), List.mem_map_of_mem _ hmp, ?_⟩
      rw [hmpid]
      rfl
    · exact (hasKey_iff _ _).mpr ⟨(m.id, m), List.mem_map_of_mem _ hm, rfl⟩
  · -- every non-root has exactly one incoming edge
    rw [values_keyed_map]
    rw [List.all_eq_true]
    intro node hnode
    cases hp : node.parentId with
    | none => simp [hp]
    | some p =>
        have hpe : p ≠ "" := fun h => hne node hnode (h ▸ hp)
        simp only [hp]
        rw [values_keyed_map]
        rw [filter_target L hnd node hnode p hp hpe]
        rfl
  · -- no cycle: ranks increase strictly along implied edges
    rw [values_keyed_map, values_keyed_map]
    rw [List.length_map, List.length_map]
    refine dfsForest_acyclic (impliedList L)
      (fun x => (L.map GraphNode.id).indexOf x) L.length ?_
      (L.length + (impliedList L).length + 1) (by omega) L [] ?_
    · intro e he
      rcases mem_impliedList.mp he with ⟨m, hm, q, hq, hqe, rfl⟩
      rcases List.getElem_of_mem hm with ⟨i, hilen, hie⟩
      have hidx_t : (L.map GraphNode.id).indexOf m.id = i := by
        apply indexOf_of_getElem? hnd
        rw [List.getElem?_map, List.getElem?_eq_getElem hilen, hie]
        rfl
      have hin : L[i]? = some m := by
        rw [List.getElem?_eq_getElem hilen, hie]
      have ht : strTruthy m.parentId = true := by
        rw [hq]
        simpa [strTruthy] using hqe
      rcases hI3 i m hin ht with ⟨j, hj, mp, hjm, hmp⟩
      have hq_eq : q = mp.id := by
        rw [hq] at hmp
        exact Option.some_injective _ hmp
      have hidx_s : (L.map GraphNode.id).indexOf mp.id = j := by
        apply indexOf_of_getElem? hnd
        rw [List.getElem?_map, hjm]
        rfl
      constructor
      · show (L.map GraphNode.id).indexOf q < (L.map GraphNode.id).indexOf m.id
        rw [hq_eq, hidx_s, hidx_t]
        exact hj
      · show (L.map GraphNode.id).indexOf m.id ≤ L.length
        rw [hidx_t]
        omega
    · intro n _
      show (L.map GraphNode.id).indexOf n.id ≤ L.length
      calc (L.map GraphNode.id).indexOf n.id ≤ (L.map GraphNode.id).length :=
            List.indexOf_le_length
      _ = L.length := List.length_map _ _

/-- C7 counterexample: hydrating the single node `a` with `parentId ""`
(an id that never appears in the list) succeeds but keeps the non-`null`
parentId `""` instead of nulling it, and the resulting graph fails
`isValidTree` (node `a` is a non-root with zero incoming edges). -/
theorem hydrate_counterexample :
    Except.map (fun g => (JsMap.get? g.nodes "a", isValidTree g))
        (hydrateGraph [exNode "a" (some "")])
      = .ok (some (exNode "a" (some "")), false) := rfl

/-- C7 (amended): for every input node list with pairwise-distinct ids,
no empty-string parentIds, and dash-free ids, the store's hydrate never
throws; every input id is present in the resulting graph; every node
whose parentId names an id that never appears in the list is inserted
with its parentId nulled; and the resulting graph satisfies
`isValidTree`. -/
theorem hydrate_spec (nodes : List GraphNode)
    (hnd : (nodes.map GraphNode.id).Nodup)
    (hne : ∀ n ∈ nodes, n.parentId ≠ some "")
    (hdash : ∀ n ∈ nodes, noDash n.id) :
    ∃ g : Graph, hydrateGraph nodes = .ok g
      ∧ (∀ n ∈ nodes, JsMap.hasKey g.nodes n.id = true)
      ∧ (∀ n ∈ nodes, ∀ p, n.parentId = some p → (∀ m ∈ nodes, m.id ≠ p) →
          JsMap.get? g.nodes n.id = some { n with parentId := none })
      ∧ isValidTree g = true := by
  obtain ⟨t1, t2, t3, t4, t5⟩ := topologicalSort_spec nodes hnd hne
  have hLne : ∀ n ∈ topologicalSort nodes, n.parentId ≠ some "" := by
    intro n hn h
    rcases t1 n hn with h1 | ⟨m, _, rfl⟩
    · exact hne n h1 h
    · exact Option.noConfusion h
  have hLdash : ∀ n ∈ topologicalSort nodes, noDash n.id := by
    intro n hn
    rcases t1 n hn with h1 | ⟨m, hm, rfl⟩
    · exact hdash n h1
    · exact hdash m hm
  refine ⟨{ nodes := (topologicalSort nodes).map (fun n => (n.id, n)),
            edges := (impliedList (topologicalSort nodes)).map (fun e => (e.id, e)) },
    ?_, ?_, ?_, ?_⟩
  · exact hydrate_fold (topologicalSort nodes) [] t2 hLne hLdash t4
  · intro n hn
    have hid := t3 n hn
    rcases List.mem_map.mp hid with ⟨m, hm, hmid⟩
    exact (hasKey_iff _ _).mpr ⟨(m.id, m), List.mem_map_of_mem _ hm, hmid⟩
  · intro n hn p hp habs
    have hnul : ({ n with parentId := none } : GraphNode) ∈ topologicalSort nodes :=
      t5 n hn p hp habs
    have hkeys : (((topologicalSort nodes).map (fun n => (n.id, n))).map
        Prod.fst).Nodup := by
      rw [selfKeys_eq]
      exact t2
    have hmem := List.mem_map_of_mem (fun n : GraphNode => (n.id, n)) hnul
    exact get?_eq_of_mem hkeys hmem
  · exact isValidTree_good (topologicalSort nodes) t2 hLne t4

/-- C7 witness: the amended statement applied to the claim's own concrete
scenario, the single node `a` with the never-appearing parent `"ghost"`. -/
theorem hydrate_spec_witness :
    ((([exNode "a" (some "ghost")]).map GraphNode.id).Nodup
        ∧ (∀ n ∈ [exNode "a" (some "ghost")], n.parentId ≠ some "")
        ∧ (∀ n ∈ [exNode "a" (some "ghost")], noDash n.id))
      ∧ (∃ g : Graph, hydrateGraph [exNode "a" (some "ghost")] = .ok g
          ∧ (∀ n ∈ [exNode "a" (some "ghost")], JsMap.hasKey g.nodes n.id = true)
          ∧ (∀ n ∈ [exNode "a" (some "ghost")], ∀ p, n.parentId = some p →
              (∀ m ∈ [exNode "a" (some "ghost")], m.id ≠ p) →
              JsMap.get? g.nodes n.id = some { n with parentId := none })
          ∧ isValidTree g = true) :=
  ⟨⟨by decide, by decide, by unfold noDash; decide⟩,
   hydrate_spec [exNode "a" (some "ghost")] (by decide) (by decide)
     (by unfold noDash; decide)⟩

end MindmapCanvas
